import Mathlib

/-!
nDAX playout-rate controller (`resampler.go`)

A shallow embedding of `Resampler`, `NewResampler`, `interpolateSample`,
`Resampler.ResamplePacket` and `Resampler.Stats`, and the properties of the controller
proved over it.

Conventions of the embedding

* `float64` and `float32` are IEEE-754 binary64 and binary32 data (`FP`): NaN, the two
  infinities, and finite values `(-1)^neg * m * 2^e`, which every operation returns in
  canonical form. Every arithmetic operation is computed exactly and rounded once, to
  nearest, ties to even; operations are rounded one by one (no fused multiply-add). All
  NaNs are one value.
* `uint64` values are natural numbers below `2^64`; the one subtraction of the source that can
  wrap (`Stats`) is taken modulo `2^64` and read as a signed 64-bit integer.
* The counters `dropped`, `padded`, `holdoff` (Go `int`) are integers: each moves by one per
  call at most, far from the 64-bit range.
* A call that panics (an index out of range) returns no slice: the operations return the
  controller as the call leaves it, and `none` in place of the result.
* The line `Stats` formats is the record of the values it prints.
-/

namespace NDAX

/-! ## Floating point -/

/-- Binary floating-point format: `prec` significand bits, the exponent of the unit in the
last place ranges over `emin .. emax`. -/
structure Fmt where
  prec : Nat
  emin : Int
  emax : Int
deriving DecidableEq

/-- IEEE-754 binary64, Go's `float64`. -/
def binary64 : Fmt := ⟨53, -1074, 971⟩

/-- IEEE-754 binary32, Go's `float32`. -/
def binary32 : Fmt := ⟨24, -149, 104⟩

/-- A floating-point datum: not-a-number, a signed infinity, or the finite value
`(-1)^neg * m * 2^e`. -/
inductive FP where
  | nan : FP
  | inf (neg : Bool) : FP
  | fin (neg : Bool) (m : Nat) (e : Int) : FP
deriving DecidableEq

/-- Number of binary digits of `n`, found with at most `fuel` halvings. -/
def bitLenAux : Nat → Nat → Nat
  | 0, _ => 0
  | fuel + 1, n => if n = 0 then 0 else bitLenAux fuel (n / 2) + 1

/-- Number of binary digits of `n` (`0` for `0`). -/
def bitLen (n : Nat) : Nat := bitLenAux n n

namespace FP

/-- The zero of format `f` with the given sign. -/
def zero (f : Fmt) (neg : Bool) : FP := fin neg 0 f.emin

/-- The quotient `n / 2^sh` rounded to the nearest integer, ties to the even one
(`1 ≤ sh`). -/
def roundShift (n sh : Nat) : Nat :=
  if n % 2 ^ sh < 2 ^ (sh - 1) then n / 2 ^ sh
  else if 2 ^ (sh - 1) < n % 2 ^ sh then n / 2 ^ sh + 1
  else if n / 2 ^ sh % 2 = 0 then n / 2 ^ sh
  else n / 2 ^ sh + 1

/-- The datum of significand `m` and exponent `e`, infinite when the exponent is beyond the
range of the format. -/
def pack (f : Fmt) (neg : Bool) (m : Nat) (e : Int) : FP :=
  if f.emax < e then inf neg else fin neg m e

/-- The exponent at which the exact value `n * 2^e` is rounded: the one that leaves `prec`
digits, or the least exponent of the format. -/
def roundExp (f : Fmt) (n : Nat) (e : Int) : Int :=
  max (e + bitLen n - f.prec) f.emin

/-- Round the exact value `(-1)^neg * n * 2^e` to format `f`: to nearest, ties to even,
overflow to infinity. -/
def round (f : Fmt) (neg : Bool) (n : Nat) (e : Int) : FP :=
  if n = 0 then zero f neg
  else if roundExp f n e ≤ e then
    pack f neg (n * 2 ^ (e - roundExp f n e).toNat) (roundExp f n e)
  else if roundShift n (roundExp f n e - e).toNat = 2 ^ f.prec then
    pack f neg (2 ^ (f.prec - 1)) (roundExp f n e + 1)
  else
    pack f neg (roundShift n (roundExp f n e - e).toNat) (roundExp f n e)

/-- Sign flip. -/
def neg : FP → FP
  | nan => nan
  | inf s => inf (!s)
  | fin s m e => fin (!s) m e

/-- Go's `math.Abs`. -/
def abs : FP → FP
  | nan => nan
  | inf _ => inf false
  | fin _ m e => fin false m e

/-- Addition in format `f`. -/
def add (f : Fmt) : FP → FP → FP
  | nan, _ => nan
  | _, nan => nan
  | inf s, inf t => if s = t then inf s else nan
  | inf s, fin _ _ _ => inf s
  | fin _ _ _, inf t => inf t
  | fin s1 m1 e1, fin s2 m2 e2 =>
    let e : Int := min e1 e2
    let a : Nat := m1 * 2 ^ (e1 - e).toNat
    let b : Nat := m2 * 2 ^ (e2 - e).toNat
    if s1 = s2 then round f s1 (a + b) e
    else if a = b then zero f false
    else if b < a then round f s1 (a - b) e
    else round f s2 (b - a) e

/-- Subtraction in format `f`. -/
def sub (f : Fmt) (x y : FP) : FP := add f x (neg y)

/-- Multiplication in format `f`. -/
def mul (f : Fmt) : FP → FP → FP
  | nan, _ => nan
  | _, nan => nan
  | inf s, inf t => inf (s != t)
  | inf s, fin t m _ => if m = 0 then nan else inf (s != t)
  | fin s m _, inf t => if m = 0 then nan else inf (s != t)
  | fin s1 m1 e1, fin s2 m2 e2 => round f (s1 != s2) (m1 * m2) (e1 + e2)

/-- Division in format `f`: the quotient is computed with two guard bits and a sticky bit,
then rounded. -/
def div (f : Fmt) : FP → FP → FP
  | nan, _ => nan
  | _, nan => nan
  | inf _, inf _ => nan
  | inf s, fin t _ _ => inf (s != t)
  | fin s _ _, inf t => zero f (s != t)
  | fin s1 m1 e1, fin s2 m2 e2 =>
    if m2 = 0 then (if m1 = 0 then nan else inf (s1 != s2))
    else
      let k : Nat := f.prec + 2 + bitLen m2
      let q : Nat := (m1 * 2 ^ k) / m2
      let r : Nat := (m1 * 2 ^ k) % m2
      round f (s1 != s2) (2 * q + (if r = 0 then 0 else 1)) (e1 - e2 - k - 1)

/-- The finite value `(-1)^s * m * 2^e` in units of `2^e0`, for `e0 ≤ e`. -/
def scaled (s : Bool) (m : Nat) (e e0 : Int) : Int :=
  (if s then -1 else 1) * ((m * 2 ^ (e - e0).toNat : Nat) : Int)

/-- Go's `x < y`: false as soon as one side is NaN; the two zeros are equal. -/
def lt : FP → FP → Bool
  | nan, _ => false
  | _, nan => false
  | inf s, inf t => s && !t
  | inf s, fin _ _ _ => s
  | fin _ _ _, inf t => !t
  | fin s1 m1 e1, fin s2 m2 e2 =>
    decide (scaled s1 m1 e1 (min e1 e2) < scaled s2 m2 e2 (min e1 e2))

/-- Go's `x > y`. -/
def gt (x y : FP) : Bool := lt y x

/-- Go's `x <= y`: false as soon as one side is NaN. -/
def le : FP → FP → Bool
  | nan, _ => false
  | _, nan => false
  | inf s, inf t => s || !t
  | inf s, fin _ _ _ => s
  | fin _ _ _, inf t => !t
  | fin s1 m1 e1, fin s2 m2 e2 =>
    decide (scaled s1 m1 e1 (min e1 e2) ≤ scaled s2 m2 e2 (min e1 e2))

/-- Conversion of an unsigned integer to format `f`. -/
def ofNat (f : Fmt) (n : Nat) : FP := round f false n 0

/-- Conversion of a signed integer to format `f`. -/
def ofInt (f : Fmt) (i : Int) : FP := round f (decide (i < 0)) i.natAbs 0

/-- The decimal constant `num / den` rounded to format `f`. -/
def ofRatio (f : Fmt) (num den : Nat) : FP := div f (ofNat f num) (ofNat f den)

/-- Canonical data of format `f`: the significand has at most `prec` digits, the exponent is
in range, and the significand is normalised unless the exponent is the least one. -/
def Canonical (f : Fmt) : FP → Prop
  | nan => True
  | inf _ => True
  | fin _ m e => m < 2 ^ f.prec ∧ f.emin ≤ e ∧ e ≤ f.emax ∧ (2 ^ (f.prec - 1) ≤ m ∨ e = f.emin)

/-- Equality up to the sign of zero (`-0` and `+0` are the same number). -/
def same (x y : FP) : Prop :=
  x = y ∨ ∃ s t e, x = fin s 0 e ∧ y = fin t 0 e

end FP

/-- Go's `float64`. -/
abbrev F64 := FP

/-- Go's `float32`. -/
abbrev F32 := FP

/-! ## The controller -/

/-- One byte of a packet. -/
abbrev Byte := Fin 256

/-- Go's `math.Float32frombits`: the binary32 datum with bit pattern `w`. -/
def Float32frombits (w : Nat) : F32 :=
  let s : Bool := decide (w / 2 ^ 31 % 2 = 1)
  let ex : Nat := w / 2 ^ 23 % 256
  let frac : Nat := w % 2 ^ 23
  if ex = 255 then (if frac = 0 then FP.inf s else FP.nan)
  else if ex = 0 then FP.fin s frac (-149)
  else FP.fin s (2 ^ 23 + frac) ((ex : Int) - 150)

/-- Big-endian 32-bit word of four bytes. -/
def be32 (b0 b1 b2 b3 : Byte) : Nat :=
  b0.val * 2 ^ 24 + b1.val * 2 ^ 16 + b2.val * 2 ^ 8 + b3.val

/-- The effect of `binary.Read(b, binary.BigEndian, out)` on a slice `out` of `n` zeroes:
`n` big-endian binary32 samples taken from the front of the buffer. -/
def readSamples : Nat → List Byte → List F32
  | 0, _ => []
  | n + 1, b0 :: b1 :: b2 :: b3 :: rest => Float32frombits (be32 b0 b1 b2 b3) :: readSamples n rest
  | n + 1, _ => List.replicate (n + 1) (FP.zero binary32 false)

/-- Lines 47-49 of `ResamplePacket`: the `len(in)/4` decoded samples of a packet. -/
def decodeSamples (inp : List Byte) : List F32 := readSamples (inp.length / 4) inp

/-- The controller state, `type Resampler struct`. -/
structure Resampler where
  latencyTarget : F64
  tolerance : F64
  latHist : List Nat
  histIndex : Nat
  wrapped : Bool
  accum : F64
  dropped : Int
  padded : Int
  minLatency : Nat
  maxLatency : Nat
  lastSample : F32
  holdoff : Int
  Fast : Bool
deriving DecidableEq

/-- `^uint64(0)`. -/
def maxUint64 : Nat := 2 ^ 64 - 1

/-- `func NewResampler(target, tolerance uint64) *Resampler`: every field not named in the
source has its zero value. -/
def NewResampler (target tolerance : Nat) : Resampler :=
  { latencyTarget := FP.ofNat binary64 target
    tolerance := FP.ofNat binary64 tolerance
    latHist := List.replicate 60 0
    histIndex := 0
    wrapped := false
    accum := FP.zero binary64 false
    dropped := 0
    padded := 0
    minLatency := maxUint64
    maxLatency := 0
    lastSample := FP.zero binary32 false
    holdoff := 0
    Fast := false }

/-- `func interpolateSample(prev, next float32) float32`. -/
def interpolateSample (prev next : F32) : F32 :=
  FP.div binary32 (FP.add binary32 prev next) (FP.ofNat binary32 2)

/-- The constant `0.9999` as a `float64`. -/
def leakFactor : F64 := FP.ofRatio binary64 9999 10000

/-- Lines 51-52 of `ResamplePacket`: the shaped error of a measured latency. -/
def shapedError (r : Resampler) (latency : Nat) : F64 :=
  let err := FP.sub binary64 (FP.ofNat binary64 latency) r.latencyTarget
  FP.mul binary64 err (FP.abs (FP.div binary64 err (FP.add binary64 r.tolerance (FP.abs err))))

/-- Line 54 of `ResamplePacket`: the accumulator once the shaped error is added. -/
def integrated (r : Resampler) (latency : Nat) : F64 :=
  FP.add binary64 r.accum (shapedError r latency)

/-- The drop threshold `12*r.latencyTarget`. -/
def upperThreshold (r : Resampler) : F64 :=
  FP.mul binary64 (FP.ofNat binary64 12) r.latencyTarget

/-- The interpolation threshold `-12*r.latencyTarget`. -/
def lowerThreshold (r : Resampler) : F64 :=
  FP.mul binary64 (FP.ofInt binary64 (-12)) r.latencyTarget

/-- The step `11 * r.latencyTarget` by which a correction moves the accumulator. -/
def discharge (r : Resampler) : F64 :=
  FP.mul binary64 (FP.ofNat binary64 11) r.latencyTarget

/-- Lines 40-45 of `ResamplePacket`: the latency bounds of the current interval. -/
def noteLatency (r : Resampler) (latency : Nat) : Resampler :=
  let r := if latency < r.minLatency then { r with minLatency := latency } else r
  if latency > r.maxLatency then { r with maxLatency := latency } else r

/-- Lines 71-74 of `ResamplePacket`: leak the integrator, record the last sample of `out`
and return `out`; reading the last sample of an empty `out` panics. -/
def leakAndReturn (r : Resampler) (out : List F32) : Resampler × Option (List F32) :=
  let r := { r with accum := FP.mul binary64 r.accum leakFactor }
  match out.getLast? with
  | none => (r, none)
  | some s => ({ r with lastSample := s }, some out)

/-- `func (r *Resampler) ResamplePacket(in []byte, latency uint64) []float32`: the
controller after the call, and the slice returned (`none` when the call panics). -/
def ResamplePacket (r : Resampler) (inp : List Byte) (latency : Nat) :
    Resampler × Option (List F32) :=
  let r := noteLatency r latency
  let out := decodeSamples inp
  let r := { r with accum := integrated r latency }
  if r.holdoff > 0 then
    leakAndReturn { r with holdoff := r.holdoff - 1 } out
  else if FP.gt r.accum (upperThreshold r) then
    match out with
    | [] => (r, none)
    | _ :: rest =>
      leakAndReturn { r with
        dropped := r.dropped + 1
        accum := FP.sub binary64 r.accum (discharge r)
        holdoff := 10 } rest
  else if FP.lt r.accum (lowerThreshold r) then
    match out with
    | [] => (r, none)
    | first :: _ =>
      leakAndReturn { r with
        padded := r.padded + 1
        accum := FP.add binary64 r.accum (discharge r)
        holdoff := 10 } (interpolateSample r.lastSample first :: out)
  else
    leakAndReturn r out

/-- Go's conversion `int64(x)` of an unsigned 64-bit difference: the integer `x` taken
modulo `2^64` and read in two's complement. -/
def toInt64 (x : Int) : Int :=
  if x % 2 ^ 64 < 2 ^ 63 then x % 2 ^ 64 else x % 2 ^ 64 - 2 ^ 64

/-- The values `Stats` formats into its line: the five fields printed on every call, and
the drift rate with the estimated sample rate once the history has wrapped. -/
structure StatsLine where
  minLatency : Nat
  maxLatency : Nat
  accum : F64
  padded : Int
  dropped : Int
  drift : Option (F64 × F64)
deriving DecidableEq

/-- `func (r *Resampler) Stats(latency uint64) string`: the controller after the call and
the values of the line returned. -/
def Stats (r : Resampler) (latency : Nat) : Resampler × StatsLine :=
  let diff : Int := toInt64 ((latency : Int) - ((r.latHist.getD r.histIndex 0 : Nat) : Int))
  let r := { r with latHist := r.latHist.set r.histIndex latency }
  let r := { r with histIndex := (r.histIndex + 1) % 60 }
  let r := if r.histIndex = 0 ∧ r.wrapped = false then { r with wrapped := true } else r
  let rate : F64 := FP.div binary64 (FP.ofInt binary64 diff) (FP.ofNat binary64 60)
  let msg : StatsLine :=
    { minLatency := r.minLatency
      maxLatency := r.maxLatency
      accum := r.accum
      padded := r.padded
      dropped := r.dropped
      drift := if r.wrapped then
          some (rate, FP.mul binary64
            (FP.add binary64 (FP.ofNat binary64 1)
              (FP.div binary64 rate (FP.ofNat binary64 1000000)))
            (FP.ofNat binary64 48000))
        else none }
  ({ r with minLatency := maxUint64, maxLatency := 0, padded := 0, dropped := 0 }, msg)

/-- A call on the controller: `ResamplePacket(in, latency)` or `Stats(latency)`. -/
inductive Call where
  | packet (inp : List Byte) (latency : Nat) : Call
  | stats (latency : Nat) : Call
deriving DecidableEq

/-- The controller after one call. -/
def step (r : Resampler) : Call → Resampler
  | Call.packet inp latency => (ResamplePacket r inp latency).1
  | Call.stats latency => (Stats r latency).1

/-- The controller after a sequence of calls, made in order. -/
def run (r : Resampler) : List Call → Resampler
  | [] => r
  | c :: cs => run (step r c) cs

/-- Number of `ResamplePacket` calls in a sequence of calls. -/
def packetCount : List Call → Nat
  | [] => 0
  | Call.packet _ _ :: cs => packetCount cs + 1
  | Call.stats _ :: cs => packetCount cs

/-- The packet of two samples `1.0`, `-0.5` used in the scenarios below. -/
def twoSamples : List Byte := [63, 128, 0, 0, 191, 0, 0, 0]

/-- The packet of the one sample `1.0`. -/
def oneSample : List Byte := [63, 128, 0, 0]

/-! ## Order and sign of floating-point data -/

/-- Data that carry the sign `s`: the infinity and the finite data of that sign. -/
def FP.HasSign (s : Bool) (x : FP) : Prop :=
  x = FP.inf s ∨ ∃ m e, x = FP.fin s m e

theorem FP.scaled_nonneg (m : Nat) (e e0 : Int) : 0 ≤ FP.scaled false m e e0 := by
  simp only [FP.scaled]
  exact Int.mul_nonneg (by decide) (Int.ofNat_nonneg _)

theorem FP.scaled_nonpos (m : Nat) (e e0 : Int) : FP.scaled true m e e0 ≤ 0 := by
  have h : 0 ≤ ((m * 2 ^ (e - e0).toNat : Nat) : Int) := Int.ofNat_nonneg _
  simp only [FP.scaled]
  simp only [if_true]
  omega

/-- `x <= y` excludes `y < x`. -/
theorem FP.le_not_lt (x y : FP) (h : FP.le x y = true) : FP.lt y x = false := by
  cases x with
  | nan => simp [FP.le] at h
  | inf s =>
    cases y with
    | nan => simp [FP.le] at h
    | inf t => cases s <;> cases t <;> simp_all [FP.le, FP.lt]
    | fin t m e => cases s <;> simp_all [FP.le, FP.lt]
  | fin s m e =>
    cases y with
    | nan => simp [FP.le] at h
    | inf t => cases t <;> simp_all [FP.le, FP.lt]
    | fin t n d =>
      simp only [FP.le, decide_eq_true_eq] at h
      simp only [FP.lt, decide_eq_false_iff_not, not_lt]
      rw [min_comm d e]
      exact h

theorem FP.pack_hasSign (f : Fmt) (s : Bool) (m : Nat) (e : Int) :
    FP.HasSign s (FP.pack f s m e) := by
  unfold FP.pack FP.HasSign
  split_ifs <;> simp

theorem FP.round_hasSign (f : Fmt) (s : Bool) (n : Nat) (e : Int) :
    FP.HasSign s (FP.round f s n e) := by
  unfold FP.round
  split_ifs
  · right; exact ⟨0, f.emin, rfl⟩
  · exact FP.pack_hasSign _ _ _ _
  · exact FP.pack_hasSign _ _ _ _
  · exact FP.pack_hasSign _ _ _ _

theorem FP.ofNat_hasSign (f : Fmt) (n : Nat) : FP.HasSign false (FP.ofNat f n) :=
  FP.round_hasSign f false n 0

/-- The product of data of signs `s` and `t` is NaN or carries the sign `s != t`. -/
theorem FP.mul_hasSign (f : Fmt) (s t : Bool) (x y : FP)
    (hx : FP.HasSign s x) (hy : FP.HasSign t y) :
    FP.mul f x y = FP.nan ∨ FP.HasSign (s != t) (FP.mul f x y) := by
  rcases hx with rfl | ⟨m, e, rfl⟩ <;> rcases hy with rfl | ⟨n, d, rfl⟩
  · right; left; simp [FP.mul]
  · by_cases hn : n = 0
    · left; simp [FP.mul, hn]
    · right; left; simp [FP.mul, hn]
  · by_cases hm : m = 0
    · left; simp [FP.mul, hm]
    · right; left; simp [FP.mul, hm]
  · right; simp only [FP.mul]; exact FP.round_hasSign f _ _ _

/-- Nothing is at once below a datum of negative sign and above one of positive sign. -/
theorem FP.lt_neg_not_gt_pos (a x y : FP) (hx : FP.HasSign true x) (hy : FP.HasSign false y)
    (h : FP.lt a x = true) : FP.lt y a = false := by
  rcases hx with rfl | ⟨m, e, rfl⟩ <;> rcases hy with rfl | ⟨n, d, rfl⟩ <;> cases a with
  | nan => simp [FP.lt]
  | inf u => cases u <;> simp_all [FP.lt]
  | fin u k c =>
    first
    | (cases u <;> simp_all [FP.lt]; done)
    | (cases u
       · simp only [FP.lt, decide_eq_true_eq] at h
         have h1 := FP.scaled_nonneg k c (min c e)
         have h2 := FP.scaled_nonpos m e (min c e)
         omega
       · simp only [FP.lt, decide_eq_false_iff_not, not_lt]
         have h1 := FP.scaled_nonneg n d (min d c)
         have h2 := FP.scaled_nonpos k c (min d c)
         omega)

/-! ## Rounding -/

theorem bitLenAux_spec (fuel n : Nat) (h : n ≤ fuel) (hn : n ≠ 0) :
    1 ≤ bitLenAux fuel n ∧ 2 ^ (bitLenAux fuel n - 1) ≤ n ∧ n < 2 ^ bitLenAux fuel n := by
  induction fuel generalizing n with
  | zero => omega
  | succ f ih =>
    simp only [bitLenAux, if_neg hn]
    by_cases h2 : n / 2 = 0
    · have h1 : n = 1 := by omega
      subst h1
      cases f <;> simp [bitLenAux]
    · obtain ⟨hb1, hb2, hb3⟩ := ih (n / 2) (by omega) h2
      refine ⟨by omega, ?_, ?_⟩
      · have : bitLenAux f (n / 2) + 1 - 1 = (bitLenAux f (n / 2) - 1) + 1 := by omega
        rw [this, pow_succ]
        omega
      · rw [pow_succ]
        omega

theorem bitLen_spec (n : Nat) (hn : n ≠ 0) :
    1 ≤ bitLen n ∧ 2 ^ (bitLen n - 1) ≤ n ∧ n < 2 ^ bitLen n :=
  bitLenAux_spec n n (Nat.le_refl n) hn

theorem bitLen_unique (n k : Nat) (hk : 1 ≤ k) (h1 : 2 ^ (k - 1) ≤ n) (h2 : n < 2 ^ k) :
    bitLen n = k := by
  have hn : n ≠ 0 := by
    have := Nat.two_pow_pos (k - 1)
    omega
  obtain ⟨hb1, hb2, hb3⟩ := bitLen_spec n hn
  have hlt1 : k - 1 < bitLen n := (Nat.pow_lt_pow_iff_right (by decide : 1 < 2)).1 (by omega)
  have hlt2 : bitLen n - 1 < k := (Nat.pow_lt_pow_iff_right (by decide : 1 < 2)).1 (by omega)
  omega

theorem bitLen_mul_pow (n k : Nat) (hn : n ≠ 0) : bitLen (n * 2 ^ k) = bitLen n + k := by
  obtain ⟨hb1, hb2, hb3⟩ := bitLen_spec n hn
  apply bitLen_unique
  · omega
  · have : bitLen n + k - 1 = (bitLen n - 1) + k := by omega
    rw [this, pow_add]
    exact Nat.mul_le_mul_right _ hb2
  · rw [pow_add]
    exact Nat.mul_lt_mul_of_pos_right hb3 (Nat.two_pow_pos k)

theorem bitLen_le (n k : Nat) (h : n < 2 ^ k) : bitLen n ≤ k := by
  by_cases hn : n = 0
  · subst hn
    simp [bitLen, bitLenAux]
  · obtain ⟨hb1, hb2, hb3⟩ := bitLen_spec n hn
    have : bitLen n - 1 < k := (Nat.pow_lt_pow_iff_right (by decide : 1 < 2)).1 (by omega)
    omega


/-- Formats with at least one digit and a non-empty exponent range. -/
def Fmt.Valid (f : Fmt) : Prop := 1 ≤ f.prec ∧ f.emin ≤ f.emax

theorem FP.roundShift_bounds (n sh : Nat) :
    n / 2 ^ sh ≤ FP.roundShift n sh ∧ FP.roundShift n sh ≤ n / 2 ^ sh + 1 := by
  unfold FP.roundShift
  split_ifs <;> omega

theorem FP.pack_canonical (f : Fmt) (s : Bool) (m : Nat) (e : Int)
    (hm : m < 2 ^ f.prec) (he : f.emin ≤ e) (hn : 2 ^ (f.prec - 1) ≤ m ∨ e = f.emin) :
    FP.Canonical f (FP.pack f s m e) := by
  unfold FP.pack
  split_ifs with h
  · trivial
  · exact ⟨hm, he, by omega, hn⟩

/-- Rounding yields canonical data. -/
theorem FP.round_canonical (f : Fmt) (hf : f.Valid) (s : Bool) (n : Nat) (e : Int) :
    FP.Canonical f (FP.round f s n e) := by
  obtain ⟨hp, hrange⟩ := hf
  unfold FP.round
  split_ifs with h0 hex hsh
  · exact ⟨Nat.two_pow_pos _, le_refl _, hrange, Or.inr rfl⟩
  · obtain ⟨hb1, hb2, hb3⟩ := bitLen_spec n h0
    unfold FP.roundExp at hex ⊢
    apply FP.pack_canonical
    · have hd : bitLen n + (e - max (e + ↑(bitLen n) - ↑f.prec) f.emin).toNat ≤ f.prec := by omega
      calc n * 2 ^ (e - max (e + ↑(bitLen n) - ↑f.prec) f.emin).toNat
          < 2 ^ bitLen n * 2 ^ (e - max (e + ↑(bitLen n) - ↑f.prec) f.emin).toNat :=
            Nat.mul_lt_mul_of_pos_right hb3 (Nat.two_pow_pos _)
        _ = 2 ^ (bitLen n + (e - max (e + ↑(bitLen n) - ↑f.prec) f.emin).toNat) := (pow_add _ _ _).symm
        _ ≤ 2 ^ f.prec := Nat.pow_le_pow_right (by decide) hd
    · omega
    · by_cases hmin : max (e + ↑(bitLen n) - ↑f.prec) f.emin = f.emin
      · exact Or.inr hmin
      · left
        have hd : f.prec - 1 = (bitLen n - 1) + (e - max (e + ↑(bitLen n) - ↑f.prec) f.emin).toNat := by
          omega
        rw [hd, pow_add]
        exact Nat.mul_le_mul_right _ hb2
  · apply FP.pack_canonical
    · exact Nat.pow_lt_pow_right (by decide) (by omega)
    · unfold FP.roundExp; omega
    · exact Or.inl (le_refl _)
  · obtain ⟨hb1, hb2, hb3⟩ := bitLen_spec n h0
    obtain ⟨hq1, hq2⟩ := FP.roundShift_bounds n (FP.roundExp f n e - e).toNat
    unfold FP.roundExp at hex hsh hq1 hq2 ⊢
    apply FP.pack_canonical
    · have hlt : n / 2 ^ (max (e + ↑(bitLen n) - ↑f.prec) f.emin - e).toNat < 2 ^ f.prec := by
        apply Nat.div_lt_of_lt_mul
        rw [← pow_add]
        exact Nat.lt_of_lt_of_le hb3 (Nat.pow_le_pow_right (by decide) (by omega))
      omega
    · omega
    · by_cases hmin : max (e + ↑(bitLen n) - ↑f.prec) f.emin = f.emin
      · exact Or.inr hmin
      · left
        refine Nat.le_trans ?_ hq1
        rw [Nat.le_div_iff_mul_le (Nat.two_pow_pos _), ← pow_add]
        refine Nat.le_trans (Nat.pow_le_pow_right (by decide) ?_) hb2
        omega

theorem FP.pack_of_le (f : Fmt) (s : Bool) (m : Nat) (e : Int) (he : e ≤ f.emax) :
    FP.pack f s m e = FP.fin s m e := by
  unfold FP.pack
  rw [if_neg (by omega)]

theorem FP.roundShift_mul_pow (m k : Nat) : FP.roundShift (m * 2 ^ k) k = m := by
  unfold FP.roundShift
  have h1 : m * 2 ^ k % 2 ^ k = 0 := Nat.mul_mod_left _ _
  have h2 : m * 2 ^ k / 2 ^ k = m := Nat.mul_div_cancel _ (Nat.two_pow_pos _)
  rw [h1, h2, if_pos (Nat.two_pow_pos _)]

theorem FP.roundExp_canonical (f : Fmt) (s : Bool) (m : Nat) (e : Int) (k : Nat) (hm0 : m ≠ 0)
    (hc : FP.Canonical f (FP.fin s m e)) : FP.roundExp f (m * 2 ^ k) (e - k) = e := by
  obtain ⟨h1, h2, _, h4⟩ := hc
  unfold FP.roundExp
  rw [bitLen_mul_pow m k hm0]
  have hle : bitLen m ≤ f.prec := bitLen_le m f.prec h1
  rcases h4 with h4 | h4
  · have hp : 1 ≤ f.prec := by
      rcases Nat.eq_zero_or_pos f.prec with h0 | h0
      · rw [h0] at h1; simp at h1; exact absurd h1 hm0
      · exact h0
    have hb : bitLen m = f.prec := bitLen_unique m f.prec hp h4 h1
    push_cast
    omega
  · push_cast
    omega

/-- Rounding leaves a canonical finite datum as it is, whatever the exponent at which its
value is presented. -/
theorem FP.round_canonical_eq (f : Fmt) (s : Bool) (m : Nat) (e : Int) (k : Nat) (hm0 : m ≠ 0)
    (hc : FP.Canonical f (FP.fin s m e)) : FP.round f s (m * 2 ^ k) (e - k) = FP.fin s m e := by
  have hexp := FP.roundExp_canonical f s m e k hm0 hc
  obtain ⟨h1, _, h3, _⟩ := hc
  have hn : m * 2 ^ k ≠ 0 := Nat.mul_ne_zero hm0 (Nat.pos_iff_ne_zero.1 (Nat.two_pow_pos _))
  unfold FP.round
  rw [if_neg hn, hexp]
  rcases Nat.eq_zero_or_pos k with hk | hk
  · subst hk
    simp [FP.pack_of_le f s m e h3]
  · rw [if_neg (by omega)]
    have hsh : (e - (e - (k : Int))).toNat = k := by omega
    rw [hsh, FP.roundShift_mul_pow m k, if_neg (by omega)]
    exact FP.pack_of_le f s m e h3

/-- A canonical zero has the least exponent. -/
theorem FP.canonical_zero_exp (f : Fmt) (s : Bool) (e : Int)
    (hc : FP.Canonical f (FP.fin s 0 e)) : e = f.emin := by
  obtain ⟨_, _, _, h4⟩ := hc
  rcases h4 with h4 | h4
  · have := Nat.two_pow_pos (f.prec - 1)
    omega
  · exact h4

/-- Adding `+0` to a canonical datum gives it back, up to the sign of zero. -/
theorem FP.add_zero_same (f : Fmt) (x : FP) (hc : FP.Canonical f x) :
    FP.same (FP.add f x (FP.zero f false)) x := by
  cases x with
  | nan => left; rfl
  | inf s => left; rfl
  | fin s m e =>
    have he : f.emin ≤ e := hc.2.1
    by_cases hm0 : m = 0
    · subst hm0
      have hee := FP.canonical_zero_exp f s e hc
      subst hee
      right
      refine ⟨false, s, f.emin, ?_, rfl⟩
      cases s <;> simp [FP.add, FP.zero, FP.round]
    · left
      have hr := FP.round_canonical_eq f s m e (e - f.emin).toNat hm0 hc
      have hmin : min e f.emin = f.emin := min_eq_right he
      have hcast : e - ((e - f.emin).toNat : Int) = f.emin := by omega
      rw [hcast] at hr
      have hpos : m * 2 ^ (e - f.emin).toNat ≠ 0 :=
        Nat.mul_ne_zero hm0 (Nat.pos_iff_ne_zero.1 (Nat.two_pow_pos _))
      cases s with
      | false => simp [FP.add, FP.zero, hmin, hr]
      | true =>
        simp only [FP.add, FP.zero, hmin]
        simp [hpos, Nat.pos_of_ne_zero hpos, hr]


theorem FP.same_refl (x : FP) : FP.same x x := Or.inl rfl

theorem FP.same_symm {x y : FP} (h : FP.same x y) : FP.same y x := by
  rcases h with h | ⟨s, t, e, h1, h2⟩
  · exact Or.inl h.symm
  · exact Or.inr ⟨t, s, e, h2, h1⟩

theorem FP.same_trans {x y z : FP} (h1 : FP.same x y) (h2 : FP.same y z) : FP.same x z := by
  rcases h1 with h1 | ⟨s, t, e, h1, h1b⟩
  · rw [h1]; exact h2
  · rcases h2 with h2 | ⟨u, v, d, h2, h2b⟩
    · rw [← h2]; exact Or.inr ⟨s, t, e, h1, h1b⟩
    · rw [h1b] at h2
      simp only [FP.fin.injEq] at h2
      obtain ⟨_, _, hed⟩ := h2
      subst hed
      exact Or.inr ⟨s, v, e, h1, h2b⟩

theorem FP.round_zero (f : Fmt) (s : Bool) (e : Int) : FP.round f s 0 e = FP.zero f s := by
  simp [FP.round]

/-- Multiplication respects equality up to the sign of zero. -/
theorem FP.mul_same_left (f : Fmt) (x y c : FP) (h : FP.same x y) :
    FP.same (FP.mul f x c) (FP.mul f y c) := by
  rcases h with h | ⟨s, t, e, h1, h2⟩
  · rw [h]; exact FP.same_refl _
  · subst h1 h2
    cases c with
    | nan => left; simp [FP.mul]
    | inf u => left; simp [FP.mul]
    | fin u m d =>
      right
      exact ⟨s != u, t != u, f.emin, by simp [FP.mul, FP.round_zero, FP.zero],
        by simp [FP.mul, FP.round_zero, FP.zero]⟩

theorem FP.mul_canonical (f : Fmt) (hf : f.Valid) (x y : FP) : FP.Canonical f (FP.mul f x y) := by
  cases x <;> cases y <;> simp only [FP.mul] <;> (try split_ifs) <;>
    first
    | trivial
    | exact FP.round_canonical f hf _ _ _

theorem binary64_valid : binary64.Valid := by
  constructor <;> decide

/-- The conversion of an unsigned 64-bit integer is a non-negative finite canonical datum,
non-zero when the integer is. -/
theorem FP.ofNat_finite (n : Nat) (hn : n < 2 ^ 64) :
    ∃ m e, FP.ofNat binary64 n = FP.fin false m e ∧ (n ≠ 0 → m ≠ 0) ∧
      FP.Canonical binary64 (FP.fin false m e) := by
  have hcan := FP.round_canonical binary64 binary64_valid false n 0
  have hlen : bitLen n ≤ 64 := bitLen_le n 64 hn
  have hexp : FP.roundExp binary64 n 0 ≤ 11 := by
    unfold FP.roundExp
    simp only [binary64]
    omega
  have hexp2 : binary64.emin ≤ FP.roundExp binary64 n 0 := by
    unfold FP.roundExp
    exact le_max_right _ _
  unfold FP.ofNat at hcan ⊢
  unfold FP.round at hcan ⊢
  by_cases h0 : n = 0
  · rw [if_pos h0] at hcan ⊢
    exact ⟨0, binary64.emin, rfl, fun h => absurd h0 h, hcan⟩
  · rw [if_neg h0] at hcan ⊢
    by_cases hex : FP.roundExp binary64 n 0 ≤ 0
    · rw [if_pos hex] at hcan ⊢
      rw [FP.pack_of_le _ _ _ _ (by have hmax : binary64.emax = 971 := rfl; omega)] at hcan ⊢
      exact ⟨_, _, rfl, fun _ => Nat.mul_ne_zero h0
        (Nat.pos_iff_ne_zero.1 (Nat.two_pow_pos _)), hcan⟩
    · rw [if_neg hex] at hcan ⊢
      by_cases hsh : FP.roundShift n (FP.roundExp binary64 n 0 - 0).toNat = 2 ^ binary64.prec
      · rw [if_pos hsh] at hcan ⊢
        rw [FP.pack_of_le _ _ _ _ (by have hmax : binary64.emax = 971 := rfl; omega)] at hcan ⊢
        exact ⟨_, _, rfl, fun _ => Nat.pos_iff_ne_zero.1 (Nat.two_pow_pos _), hcan⟩
      · rw [if_neg hsh] at hcan ⊢
        rw [FP.pack_of_le _ _ _ _ (by have hmax : binary64.emax = 971 := rfl; omega)] at hcan ⊢
        refine ⟨_, _, rfl, fun _ => ?_, hcan⟩
        rcases hcan.2.2.2 with h4 | h4
        · have := Nat.two_pow_pos (binary64.prec - 1)
          omega
        · have hemin : binary64.emin = -1074 := rfl
          omega

theorem FP.same_of_ne_zero {x : FP} {s : Bool} {m : Nat} {e : Int} (hm : m ≠ 0)
    (h : FP.same x (FP.fin s m e)) : x = FP.fin s m e := by
  rcases h with h | ⟨_, _, _, _, h2⟩
  · exact h
  · simp only [FP.fin.injEq] at h2
    exact absurd h2.2.1 hm


/-- Multiplying a canonical finite datum by a positive factor below one, written
`mc * 2^(-k)` with `0 < mc < 2^k`, gives a finite datum of no larger magnitude. -/
theorem FP.mul_shrink_fin (f : Fmt) (s u : Bool) (m mc k : Nat) (e : Int)
    (hc : FP.Canonical f (FP.fin s m e)) (hm0 : m ≠ 0) (hmc0 : mc ≠ 0) (hmc : mc < 2 ^ k) :
    ∃ m2 e2, FP.mul f (FP.fin s m e) (FP.fin u mc (-(k : Int))) = FP.fin (s != u) m2 e2 ∧
      e2 ≤ e ∧ m2 ≤ m * 2 ^ (e - e2).toNat := by
  have hexp0 := FP.roundExp_canonical f s m e 0 hm0 hc
  obtain ⟨h1, h2, h3, h4⟩ := hc
  have hn0 : m * mc ≠ 0 := Nat.mul_ne_zero hm0 hmc0
  obtain ⟨hm1, hm2, hm3⟩ := bitLen_spec m hm0
  have hlen : bitLen (m * mc) ≤ bitLen m + k := by
    apply bitLen_le
    rw [pow_add]
    exact Nat.mul_lt_mul'' hm3 hmc
  have hexp : FP.roundExp f (m * mc) (e + -(k : Int)) ≤ e := by
    unfold FP.roundExp at hexp0 ⊢
    simp only [pow_zero, mul_one] at hexp0
    omega
  have hexp2 : f.emin ≤ FP.roundExp f (m * mc) (e + -(k : Int)) := by
    unfold FP.roundExp
    exact le_max_right _ _
  simp only [FP.mul]
  unfold FP.round
  rw [if_neg hn0]
  generalize FP.roundExp f (m * mc) (e + -(k : Int)) = e1 at hexp hexp2 ⊢
  by_cases hA : e1 ≤ e + -(k : Int)
  · rw [if_pos hA, FP.pack_of_le _ _ _ _ (by omega)]
    refine ⟨_, _, rfl, hexp, ?_⟩
    have hd : (e - e1).toNat = (e + -(k : Int) - e1).toNat + k := by omega
    rw [hd, pow_add, Nat.mul_assoc]
    apply Nat.mul_le_mul_left
    rw [Nat.mul_comm]
    exact Nat.mul_le_mul_left _ (Nat.le_of_lt hmc)
  · rw [if_neg hA]
    obtain ⟨hq1, hq2⟩ := FP.roundShift_bounds (m * mc) (e1 - (e + -(k : Int))).toNat
    have hk : k = (e1 - (e + -(k : Int))).toNat + (e - e1).toNat := by omega
    have hlt : m * mc < m * 2 ^ (e - e1).toNat * 2 ^ (e1 - (e + -(k : Int))).toNat := by
      rw [Nat.mul_assoc, ← pow_add, Nat.add_comm, ← hk]
      exact Nat.mul_lt_mul_of_pos_left hmc (Nat.pos_of_ne_zero hm0)
    have hq : m * mc / 2 ^ (e1 - (e + -(k : Int))).toNat < m * 2 ^ (e - e1).toNat :=
      Nat.div_lt_of_lt_mul (by rw [Nat.mul_comm (2 ^ _)]; exact hlt)
    have hr : FP.roundShift (m * mc) (e1 - (e + -(k : Int))).toNat ≤ m * 2 ^ (e - e1).toNat := by
      omega
    by_cases hB : FP.roundShift (m * mc) (e1 - (e + -(k : Int))).toNat = 2 ^ f.prec
    · rw [if_pos hB]
      rw [hB] at hr
      have hd : 1 ≤ (e - e1).toNat := by
        rcases Nat.eq_zero_or_pos (e - e1).toNat with h0 | h0
        · rw [h0] at hr; simp at hr; omega
        · exact h0
      have hp : 1 ≤ f.prec := by
        rcases Nat.eq_zero_or_pos f.prec with h0 | h0
        · rw [h0] at h1; simp at h1; exact absurd h1 hm0
        · exact h0
      rw [FP.pack_of_le _ _ _ _ (by omega)]
      refine ⟨_, _, rfl, by omega, ?_⟩
      have hd2 : (e - e1).toNat = (e - (e1 + 1)).toNat + 1 := by omega
      have hp2 : f.prec = (f.prec - 1) + 1 := by omega
      rw [hd2, pow_succ, hp2, pow_succ, ← Nat.mul_assoc] at hr
      exact Nat.le_of_mul_le_mul_right hr (by decide)
    · rw [if_neg hB, FP.pack_of_le _ _ _ _ (by omega)]
      exact ⟨_, _, rfl, hexp, hr⟩

/-- Multiplying a canonical datum other than NaN by a positive factor below one does not
increase its magnitude. -/
theorem FP.mul_shrink (f : Fmt) (x : FP) (u : Bool) (mc k : Nat)
    (hc : FP.Canonical f x) (hx : x ≠ FP.nan) (hmc0 : mc ≠ 0) (hmc : mc < 2 ^ k) :
    FP.le (FP.abs (FP.mul f x (FP.fin u mc (-(k : Int))))) (FP.abs x) = true ∧
    FP.mul f x (FP.fin u mc (-(k : Int))) ≠ FP.nan := by
  cases x with
  | nan => exact absurd rfl hx
  | inf s => simp [FP.mul, hmc0, FP.abs, FP.le]
  | fin s m e =>
    by_cases hm0 : m = 0
    · subst hm0
      simp [FP.mul, FP.round_zero, FP.zero, FP.abs, FP.le, FP.scaled]
    · obtain ⟨m2, e2, heq, he, hle⟩ := FP.mul_shrink_fin f s u m mc k e hc hm0 hmc0 hmc
      rw [heq]
      refine ⟨?_, by simp⟩
      simp only [FP.abs, FP.le, FP.scaled, decide_eq_true_eq, min_eq_left he]
      simp
      exact_mod_cast hle


theorem FP.abs_same {x y : FP} (h : FP.same x y) : FP.abs x = FP.abs y := by
  rcases h with h | ⟨s, t, e, h1, h2⟩
  · rw [h]
  · rw [h1, h2]; rfl

theorem FP.same_nan {x : FP} (h : FP.same x FP.nan) : x = FP.nan := by
  rcases h with h | ⟨_, _, _, _, h2⟩
  · exact h
  · exact absurd h2 (by simp)

theorem FP.le_abs_refl (x : FP) (hx : x ≠ FP.nan) : FP.le (FP.abs x) (FP.abs x) = true := by
  cases x with
  | nan => exact absurd rfl hx
  | inf s => simp [FP.abs, FP.le]
  | fin s m e => simp [FP.abs, FP.le]

/-- Comparing two magnitudes in units of `2^(min e1 e2)` or in any smaller unit `2^e0` is
the same. -/
theorem FP.rescale_le (m1 m2 : Nat) (e1 e2 e0 : Int) (h1 : e0 ≤ e1) (h2 : e0 ≤ e2) :
    m1 * 2 ^ (e1 - min e1 e2).toNat ≤ m2 * 2 ^ (e2 - min e1 e2).toNat ↔
    m1 * 2 ^ (e1 - e0).toNat ≤ m2 * 2 ^ (e2 - e0).toNat := by
  have hd1 : (e1 - e0).toNat = (e1 - min e1 e2).toNat + (min e1 e2 - e0).toNat := by omega
  have hd2 : (e2 - e0).toNat = (e2 - min e1 e2).toNat + (min e1 e2 - e0).toNat := by omega
  rw [hd1, hd2, pow_add, pow_add, ← Nat.mul_assoc, ← Nat.mul_assoc]
  constructor
  · exact fun h => Nat.mul_le_mul_right _ h
  · exact fun h => Nat.le_of_mul_le_mul_right h (Nat.two_pow_pos _)

theorem FP.le_fin_iff (m1 m2 : Nat) (e1 e2 : Int) :
    FP.le (FP.fin false m1 e1) (FP.fin false m2 e2) = true ↔
    m1 * 2 ^ (e1 - min e1 e2).toNat ≤ m2 * 2 ^ (e2 - min e1 e2).toNat := by
  simp only [FP.le, FP.scaled, decide_eq_true_eq]
  simp only [Bool.false_eq_true, if_false, one_mul]
  exact Int.ofNat_le

/-- The order of magnitudes is transitive. -/
theorem FP.le_abs_trans (x y z : FP) (h1 : FP.le (FP.abs x) (FP.abs y) = true)
    (h2 : FP.le (FP.abs y) (FP.abs z) = true) : FP.le (FP.abs x) (FP.abs z) = true := by
  cases x with
  | nan => simp [FP.abs, FP.le] at h1
  | inf s =>
    cases y with
    | nan => simp [FP.abs, FP.le] at h1
    | inf t =>
      cases z with
      | nan => simp [FP.abs, FP.le] at h2
      | inf u => simp [FP.abs, FP.le]
      | fin u m e => simp [FP.abs, FP.le] at h2
    | fin t m e => simp [FP.abs, FP.le] at h1
  | fin s m1 e1 =>
    cases z with
    | nan => cases y <;> simp [FP.abs, FP.le] at h2
    | inf u => simp [FP.abs, FP.le]
    | fin u m3 e3 =>
      cases y with
      | nan => simp [FP.abs, FP.le] at h1
      | inf t => simp [FP.abs, FP.le] at h2
      | fin t m2 e2 =>
        simp only [FP.abs] at h1 h2 ⊢
        rw [FP.le_fin_iff] at h1 h2 ⊢
        have hmin : ∃ e0 : Int, e0 ≤ e1 ∧ e0 ≤ e2 ∧ e0 ≤ e3 :=
          ⟨min e1 (min e2 e3), by omega, by omega, by omega⟩
        obtain ⟨e0, h01, h02, h03⟩ := hmin
        rw [FP.rescale_le m1 m2 e1 e2 e0 h01 h02] at h1
        rw [FP.rescale_le m2 m3 e2 e3 e0 h02 h03] at h2
        rw [FP.rescale_le m1 m3 e1 e3 e0 h01 h03]
        exact Nat.le_trans h1 h2

/-! ## Exact conversions and quotients -/

theorem FP.roundShift_scale (n sh j : Nat) (hsh : 1 ≤ sh) :
    FP.roundShift (n * 2 ^ j) (sh + j) = FP.roundShift n sh := by
  have hq : n * 2 ^ j / 2 ^ (sh + j) = n / 2 ^ sh := by
    rw [pow_add]
    exact Nat.mul_div_mul_right _ _ (Nat.two_pow_pos j)
  have hr : n * 2 ^ j % 2 ^ (sh + j) = n % 2 ^ sh * 2 ^ j := by
    rw [pow_add]
    exact Nat.mul_mod_mul_right _ _ _
  have hh : 2 ^ (sh + j - 1) = 2 ^ (sh - 1) * 2 ^ j := by
    rw [← pow_add]
    congr 1
    omega
  have hpos : 0 < 2 ^ j := Nat.two_pow_pos j
  unfold FP.roundShift
  rw [hq, hr, hh]
  by_cases h1 : n % 2 ^ sh < 2 ^ (sh - 1)
  · rw [if_pos h1, if_pos (Nat.mul_lt_mul_of_pos_right h1 hpos)]
  · have h1b : ¬ n % 2 ^ sh * 2 ^ j < 2 ^ (sh - 1) * 2 ^ j := fun hc =>
      h1 (Nat.lt_of_mul_lt_mul_right hc)
    rw [if_neg h1, if_neg h1b]
    by_cases h2 : 2 ^ (sh - 1) < n % 2 ^ sh
    · rw [if_pos h2, if_pos (Nat.mul_lt_mul_of_pos_right h2 hpos)]
    · have h2b : ¬ 2 ^ (sh - 1) * 2 ^ j < n % 2 ^ sh * 2 ^ j := fun hc =>
        h2 (Nat.lt_of_mul_lt_mul_right hc)
      rw [if_neg h2, if_neg h2b]

theorem FP.roundExp_rescale (f : Fmt) (n j : Nat) (e : Int) (hn : n ≠ 0) :
    FP.roundExp f (n * 2 ^ j) (e - j) = FP.roundExp f n e := by
  unfold FP.roundExp
  rw [bitLen_mul_pow n j hn]
  push_cast
  congr 1
  omega

/-- Rounding depends on the value presented, not on the exponent at which it is written. -/
theorem FP.round_rescale (f : Fmt) (s : Bool) (n j : Nat) (e : Int) :
    FP.round f s (n * 2 ^ j) (e - j) = FP.round f s n e := by
  by_cases hn : n = 0
  · subst hn
    simp [FP.round]
  · have hnj : n * 2 ^ j ≠ 0 := Nat.mul_ne_zero hn (Nat.pos_iff_ne_zero.1 (Nat.two_pow_pos _))
    have hexp := FP.roundExp_rescale f n j e hn
    obtain ⟨hb1, hb2, hb3⟩ := bitLen_spec n hn
    have hlow : e + (bitLen n : Int) - f.prec ≤ FP.roundExp f n e := by
      unfold FP.roundExp; exact le_max_left _ _
    unfold FP.round
    rw [if_neg hn, if_neg hnj, hexp]
    generalize FP.roundExp f n e = e1 at hlow ⊢
    by_cases hA : e1 ≤ e - j
    · have hA2 : e1 ≤ e := by omega
      rw [if_pos hA, if_pos hA2]
      have hd : (e - e1).toNat = j + (e - ↑j - e1).toNat := by omega
      rw [hd, pow_add, Nat.mul_assoc]
    · rw [if_neg hA]
      by_cases hB : e1 ≤ e
      · rw [if_pos hB]
        have hsplit : j = (e - e1).toNat + (e1 - (e - ↑j)).toNat := by omega
        have hM : n * 2 ^ j = n * 2 ^ (e - e1).toNat * 2 ^ (e1 - (e - ↑j)).toNat := by
          rw [Nat.mul_assoc, ← pow_add, ← hsplit]
        have hlt : n * 2 ^ (e - e1).toNat < 2 ^ f.prec := by
          have hd : bitLen n + (e - e1).toNat ≤ f.prec := by omega
          calc n * 2 ^ (e - e1).toNat
              < 2 ^ bitLen n * 2 ^ (e - e1).toNat :=
                Nat.mul_lt_mul_of_pos_right hb3 (Nat.two_pow_pos _)
            _ = 2 ^ (bitLen n + (e - e1).toNat) := (pow_add _ _ _).symm
            _ ≤ 2 ^ f.prec := Nat.pow_le_pow_right (by decide) hd
        rw [hM, FP.roundShift_mul_pow, if_neg (by omega)]
      · rw [if_neg hB]
        have hsh : (e1 - (e - ↑j)).toNat = (e1 - e).toNat + j := by omega
        rw [hsh, FP.roundShift_scale n (e1 - e).toNat j (by omega)]

/-- The conversion of a positive integer below `2^53` is exact: the integer itself,
normalised. -/
theorem FP.ofNat_small (n : Nat) (h0 : n ≠ 0) (h : n < 2 ^ 53) :
    FP.ofNat binary64 n = FP.fin false (n * 2 ^ (53 - bitLen n)) ((bitLen n : Int) - 53) := by
  have hlen : bitLen n ≤ 53 := bitLen_le n 53 h
  have hexp : FP.roundExp binary64 n 0 = (bitLen n : Int) - 53 := by
    unfold FP.roundExp
    have h1 : (binary64.prec : Int) = 53 := rfl
    have h2 : binary64.emin = -1074 := rfl
    rw [h1, h2]
    omega
  have hmax : binary64.emax = 971 := rfl
  unfold FP.ofNat FP.round
  rw [if_neg h0, hexp, if_pos (by omega), FP.pack_of_le _ _ _ _ (by omega)]
  have hd : (0 - ((bitLen n : Int) - 53)).toNat = 53 - bitLen n := by omega
  rw [hd]

/-- Dividing the conversion of a product `a * b < 2^53` by the conversion of `b` gives the
conversion of `a`: the quotient is exact. -/
theorem FP.div_ofNat_exact (a b : Nat) (hb : b ≠ 0) (hb53 : b < 2 ^ 53) (h : a * b < 2 ^ 53) :
    FP.div binary64 (FP.ofNat binary64 (a * b)) (FP.ofNat binary64 b) = FP.ofNat binary64 a := by
  obtain ⟨hL1, hL2, hL3⟩ := bitLen_spec b hb
  have hLb : bitLen b ≤ 53 := bitLen_le b 53 hb53
  have hmb : b * 2 ^ (53 - bitLen b) ≠ 0 :=
    Nat.mul_ne_zero hb (Nat.pos_iff_ne_zero.1 (Nat.two_pow_pos _))
  have hkb : bitLen (b * 2 ^ (53 - bitLen b)) = 53 := by
    rw [bitLen_mul_pow b _ hb]; omega
  rw [FP.ofNat_small b hb hb53]
  by_cases ha : a = 0
  · subst ha
    simp [FP.ofNat, FP.round_zero, FP.zero, FP.div, hmb]
  · have hab : a * b ≠ 0 := Nat.mul_ne_zero ha hb
    have hLab : bitLen (a * b) ≤ 53 := bitLen_le _ 53 h
    rw [FP.ofNat_small (a * b) hab h]
    simp only [FP.div, if_neg hmb, hkb]
    have hp : binary64.prec = 53 := rfl
    rw [hp]
    have hnum : a * b * 2 ^ (53 - bitLen (a * b)) * 2 ^ (53 + 2 + 53)
        = a * 2 ^ (53 - bitLen (a * b) + 108 - (53 - bitLen b)) * (b * 2 ^ (53 - bitLen b)) := by
      have hsplit : 53 - bitLen (a * b) + (53 + 2 + 53)
          = (53 - bitLen (a * b) + 108 - (53 - bitLen b)) + (53 - bitLen b) := by omega
      calc a * b * 2 ^ (53 - bitLen (a * b)) * 2 ^ (53 + 2 + 53)
          = a * b * 2 ^ (53 - bitLen (a * b) + (53 + 2 + 53)) := by
            rw [Nat.mul_assoc (a * b), ← pow_add]
        _ = a * b * (2 ^ (53 - bitLen (a * b) + 108 - (53 - bitLen b)) * 2 ^ (53 - bitLen b)) := by
            rw [← pow_add, ← hsplit]
        _ = a * 2 ^ (53 - bitLen (a * b) + 108 - (53 - bitLen b)) * (b * 2 ^ (53 - bitLen b)) := by
            ring
    rw [hnum, Nat.mul_div_cancel _ (Nat.pos_of_ne_zero hmb), Nat.mul_mod_left]
    simp only [if_true, Nat.add_zero, bne_self_eq_false]
    have h2q : 2 * (a * 2 ^ (53 - bitLen (a * b) + 108 - (53 - bitLen b)))
        = a * 2 ^ (53 - bitLen (a * b) + 109 - (53 - bitLen b)) := by
      have : 53 - bitLen (a * b) + 109 - (53 - bitLen b)
          = (53 - bitLen (a * b) + 108 - (53 - bitLen b)) + 1 := by omega
      rw [this, pow_succ]
      ring
    have hexp : ((bitLen (a * b) : Int) - 53) - ((bitLen b : Int) - 53) - ((53 + 2 + 53 : Nat) : Int) - 1
        = 0 - ((53 - bitLen (a * b) + 109 - (53 - bitLen b) : Nat) : Int) := by
      omega
    rw [h2q, hexp, FP.round_rescale]
    rfl


/-! ## Values and monotone rounding -/

/-- The value `m * 2^e` of a significand and an exponent. -/
def FP.val (m : Nat) (e : Int) : ℚ := (m : ℚ) * (2 : ℚ) ^ e

theorem FP.two_zpow_pos (e : Int) : (0 : ℚ) < (2 : ℚ) ^ e := zpow_pos (by norm_num) e

theorem FP.val_nonneg (m : Nat) (e : Int) : 0 ≤ FP.val m e :=
  mul_nonneg (Nat.cast_nonneg m) (le_of_lt (FP.two_zpow_pos e))

theorem FP.val_zero (e : Int) : FP.val 0 e = 0 := by simp [FP.val]

theorem FP.val_pos (m : Nat) (e : Int) (hm : m ≠ 0) : 0 < FP.val m e :=
  mul_pos (Nat.cast_pos.2 (Nat.pos_of_ne_zero hm)) (FP.two_zpow_pos e)

theorem FP.val_le_val_iff (n m : Nat) (e : Int) : FP.val n e ≤ FP.val m e ↔ n ≤ m := by
  unfold FP.val
  rw [mul_le_mul_right (FP.two_zpow_pos e)]
  exact Nat.cast_le

theorem FP.val_lt_val_iff (n m : Nat) (e : Int) : FP.val n e < FP.val m e ↔ n < m := by
  unfold FP.val
  rw [mul_lt_mul_right (FP.two_zpow_pos e)]
  exact Nat.cast_lt

theorem FP.val_scale (m j : Nat) (e : Int) : FP.val (m * 2 ^ j) (e - j) = FP.val m e := by
  unfold FP.val
  rw [zpow_sub₀ (by norm_num : (2 : ℚ) ≠ 0), zpow_natCast]
  push_cast
  field_simp
  ring

/-- The same value written at a smaller exponent `c`. -/
theorem FP.val_shift (m : Nat) (e c : Int) (h : c ≤ e) :
    FP.val (m * 2 ^ (e - c).toNat) c = FP.val m e := by
  have := FP.val_scale m (e - c).toNat e
  have hc : e - ((e - c).toNat : Int) = c := by omega
  rwa [hc] at this

theorem FP.val_lt_zpow (n : Nat) (k : Nat) (e : Int) (h : n < 2 ^ k) :
    FP.val n e < (2 : ℚ) ^ ((k : Int) + e) := by
  unfold FP.val
  rw [zpow_add₀ (by norm_num : (2 : ℚ) ≠ 0), zpow_natCast]
  apply mul_lt_mul_of_pos_right _ (FP.two_zpow_pos e)
  exact_mod_cast h

theorem FP.zpow_le_val (n : Nat) (k : Nat) (e : Int) (h : 2 ^ k ≤ n) :
    (2 : ℚ) ^ ((k : Int) + e) ≤ FP.val n e := by
  unfold FP.val
  rw [zpow_add₀ (by norm_num : (2 : ℚ) ≠ 0), zpow_natCast]
  apply mul_le_mul_of_nonneg_right _ (le_of_lt (FP.two_zpow_pos e))
  exact_mod_cast h

theorem FP.zpow_lt_zpow (a b : Int) (h : (2 : ℚ) ^ a < (2 : ℚ) ^ b) : a < b :=
  (zpow_lt_zpow_iff_right₀ (by norm_num : (1 : ℚ) < 2)).1 h

/-- A value bounded by another has no more digits above the binary point. -/
theorem FP.bitLen_of_val_le (n m : Nat) (e E : Int) (hn : n ≠ 0)
    (h : FP.val n e ≤ FP.val m E) : (bitLen n : Int) + e ≤ (bitLen m : Int) + E := by
  obtain ⟨hb1, hb2, _⟩ := bitLen_spec n hn
  have hm : m ≠ 0 := by
    rintro rfl
    rw [FP.val_zero] at h
    exact absurd (FP.val_pos n e hn) (not_lt.2 h)
  obtain ⟨_, _, hm3⟩ := bitLen_spec m hm
  have h1 := FP.zpow_le_val n (bitLen n - 1) e hb2
  have h2 := FP.val_lt_zpow m (bitLen m) E hm3
  have h3 := FP.zpow_lt_zpow _ _ (lt_of_le_of_lt (le_trans h1 h) h2)
  have hcast : ((bitLen n - 1 : Nat) : Int) = (bitLen n : Int) - 1 := by omega
  omega

theorem FP.pack_cases (f : Fmt) (s : Bool) (m : Nat) (e : Int) :
    FP.pack f s m e = FP.inf s ∨ FP.pack f s m e = FP.fin s m e := by
  unfold FP.pack
  split_ifs
  · exact Or.inl rfl
  · exact Or.inr rfl

theorem FP.val_half (k : Nat) (e : Int) (hk : 1 ≤ k) :
    FP.val (2 ^ (k - 1)) (e + 1) = FP.val (2 ^ k) e := by
  have h := FP.val_scale (2 ^ (k - 1)) 1 (e + 1)
  have h1 : 2 ^ (k - 1) * 2 ^ 1 = 2 ^ k := by
    rw [← pow_add]; congr 1; omega
  have h2 : e + 1 - ((1 : Nat) : Int) = e := by omega
  rw [h1, h2] at h
  exact h.symm

/-- Rounding does not cross a representable value from below: a value at most the canonical
datum `m * 2^E` rounds to a finite datum at most `m * 2^E`. -/
theorem FP.round_le_repr (f : Fmt) (s : Bool) (n m : Nat) (e E : Int)
    (hc : FP.Canonical f (FP.fin false m E)) (hle : FP.val n e ≤ FP.val m E) :
    ∃ m2 e2, FP.round f s n e = FP.fin s m2 e2 ∧ FP.val m2 e2 ≤ FP.val m E := by
  by_cases hn : n = 0
  · subst hn
    exact ⟨0, f.emin, by simp [FP.round, FP.zero], by rw [FP.val_zero]; exact FP.val_nonneg _ _⟩
  · have hm : m ≠ 0 := by
      rintro rfl
      rw [FP.val_zero] at hle
      exact absurd (FP.val_pos n e hn) (not_lt.2 hle)
    obtain ⟨h1, h2, h3, h4⟩ := hc
    have hLm : bitLen m ≤ f.prec := bitLen_le m f.prec h1
    have hlen := FP.bitLen_of_val_le n m e E hn hle
    have hp : 1 ≤ f.prec := by
      rcases Nat.eq_zero_or_pos f.prec with h0 | h0
      · rw [h0] at h1; simp at h1; exact absurd h1 hm
      · exact h0
    have hexpE : FP.roundExp f n e ≤ E := by
      unfold FP.roundExp
      omega
    unfold FP.round
    rw [if_neg hn]
    generalize FP.roundExp f n e = e1 at hexpE ⊢
    have hX : FP.val (m * 2 ^ (E - e1).toNat) e1 = FP.val m E := FP.val_shift m E e1 hexpE
    by_cases hA : e1 ≤ e
    · rw [if_pos hA, FP.pack_of_le _ _ _ _ (by omega)]
      exact ⟨_, _, rfl, by rw [FP.val_shift n e e1 hA]; exact hle⟩
    · rw [if_neg hA]
      have hnX : n ≤ m * 2 ^ (E - e1).toNat * 2 ^ (e1 - e).toNat := by
        rw [← FP.val_le_val_iff _ _ e, FP.val_shift _ e1 e (by omega), hX]
        exact hle
      obtain ⟨hq1, hq2⟩ := FP.roundShift_bounds n (e1 - e).toNat
      have hr : FP.roundShift n (e1 - e).toNat ≤ m * 2 ^ (E - e1).toNat := by
        have hqle : n / 2 ^ (e1 - e).toNat ≤ m * 2 ^ (E - e1).toNat :=
          Nat.div_le_of_le_mul (by rw [Nat.mul_comm]; exact hnX)
        rcases Nat.lt_or_ge (n / 2 ^ (e1 - e).toNat) (m * 2 ^ (E - e1).toNat) with hlt | hge
        · omega
        · have hqeq : n / 2 ^ (e1 - e).toNat = m * 2 ^ (E - e1).toNat := Nat.le_antisymm hqle hge
          have hneq : n = m * 2 ^ (E - e1).toNat * 2 ^ (e1 - e).toNat := by
            apply Nat.le_antisymm hnX
            rw [← hqeq]
            exact Nat.div_mul_le_self _ _
          rw [hneq, FP.roundShift_mul_pow]
      by_cases hB : FP.roundShift n (e1 - e).toNat = 2 ^ f.prec
      · rw [if_pos hB]
        rw [hB] at hr
        have hd : 1 ≤ (E - e1).toNat := by
          rcases Nat.eq_zero_or_pos (E - e1).toNat with h0 | h0
          · rw [h0] at hr; simp at hr; omega
          · exact h0
        rw [FP.pack_of_le _ _ _ _ (by omega)]
        refine ⟨_, _, rfl, ?_⟩
        rw [FP.val_half f.prec e1 hp, ← hX, FP.val_le_val_iff]
        exact hr
      · rw [if_neg hB, FP.pack_of_le _ _ _ _ (by omega)]
        refine ⟨_, _, rfl, ?_⟩
        rw [← hX, FP.val_le_val_iff]
        exact hr

/-- Rounding does not cross a representable value from above: a value at least the
canonical datum `m * 2^E` rounds to infinity or to a finite datum at least `m * 2^E`. -/
theorem FP.round_ge_repr (f : Fmt) (s : Bool) (n m : Nat) (e E : Int)
    (hc : FP.Canonical f (FP.fin false m E)) (hge : FP.val m E ≤ FP.val n e) :
    FP.round f s n e = FP.inf s ∨
      ∃ m2 e2, FP.round f s n e = FP.fin s m2 e2 ∧ FP.val m E ≤ FP.val m2 e2 := by
  by_cases hm : m = 0
  · subst hm
    rcases FP.round_hasSign f s n e with h | ⟨m2, e2, h⟩
    · exact Or.inl h
    · exact Or.inr ⟨m2, e2, h, by rw [FP.val_zero]; exact FP.val_nonneg _ _⟩
  · have hn : n ≠ 0 := by
      rintro rfl
      rw [FP.val_zero] at hge
      exact absurd (FP.val_pos m E hm) (not_lt.2 hge)
    obtain ⟨h1, h2, h3, h4⟩ := hc
    obtain ⟨hb1, hb2, hb3⟩ := bitLen_spec n hn
    have hp : 1 ≤ f.prec := by
      rcases Nat.eq_zero_or_pos f.prec with h0 | h0
      · rw [h0] at h1; simp at h1; exact absurd h1 hm
      · exact h0
    have hexp : FP.roundExp f n e = max (e + (bitLen n : Int) - f.prec) f.emin := rfl
    unfold FP.round
    rw [if_neg hn]
    generalize FP.roundExp f n e = e1 at hexp ⊢
    by_cases hA : e1 ≤ e
    · rw [if_pos hA]
      rcases FP.pack_cases f s (n * 2 ^ (e - e1).toNat) e1 with h | h
      · exact Or.inl h
      · exact Or.inr ⟨_, _, h, by rw [FP.val_shift n e e1 hA]; exact hge⟩
    · rw [if_neg hA]
      obtain ⟨hq1, hq2⟩ := FP.roundShift_bounds n (e1 - e).toNat
      have hkey : FP.val m E ≤ FP.val (FP.roundShift n (e1 - e).toNat) e1 := by
        by_cases hE : e1 ≤ E
        · have hX : FP.val (m * 2 ^ (E - e1).toNat) e1 = FP.val m E := FP.val_shift m E e1 hE
          have hXn : m * 2 ^ (E - e1).toNat * 2 ^ (e1 - e).toNat ≤ n := by
            rw [← FP.val_le_val_iff _ _ e, FP.val_shift _ e1 e (by omega), hX]
            exact hge
          have hXq : m * 2 ^ (E - e1).toNat ≤ n / 2 ^ (e1 - e).toNat :=
            (Nat.le_div_iff_mul_le (Nat.two_pow_pos _)).2 hXn
          rw [← hX, FP.val_le_val_iff]
          omega
        · have he1 : e1 = e + (bitLen n : Int) - f.prec := by omega
          have hq : 2 ^ (f.prec - 1) ≤ n / 2 ^ (e1 - e).toNat := by
            rw [Nat.le_div_iff_mul_le (Nat.two_pow_pos _), ← pow_add]
            refine Nat.le_trans (Nat.pow_le_pow_right (by decide) ?_) hb2
            omega
          have hrs : 2 ^ (f.prec - 1) ≤ FP.roundShift n (e1 - e).toNat := by omega
          have hlow := FP.zpow_le_val _ (f.prec - 1) e1 hrs
          have hup := FP.val_lt_zpow m f.prec E h1
          have hmono : (2 : ℚ) ^ ((f.prec : Int) + E) ≤ (2 : ℚ) ^ (((f.prec - 1 : Nat) : Int) + e1) :=
            zpow_le_zpow_right₀ (by norm_num) (by omega)
          exact le_of_lt (lt_of_lt_of_le hup (le_trans hmono hlow))
      by_cases hB : FP.roundShift n (e1 - e).toNat = 2 ^ f.prec
      · rw [if_pos hB]
        rcases FP.pack_cases f s (2 ^ (f.prec - 1)) (e1 + 1) with h | h
        · exact Or.inl h
        · refine Or.inr ⟨_, _, h, ?_⟩
          rw [FP.val_half f.prec e1 hp, ← hB]
          exact hkey
      · rw [if_neg hB]
        rcases FP.pack_cases f s (FP.roundShift n (e1 - e).toNat) e1 with h | h
        · exact Or.inl h
        · exact Or.inr ⟨_, _, h, hkey⟩

theorem FP.val_add (a b : Nat) (c : Int) : FP.val (a + b) c = FP.val a c + FP.val b c := by
  unfold FP.val
  push_cast
  ring

theorem FP.val_sub (a b : Nat) (c : Int) (h : b ≤ a) :
    FP.val (a - b) c = FP.val a c - FP.val b c := by
  unfold FP.val
  rw [Nat.cast_sub h]
  ring

theorem FP.val_mul (m n : Nat) (e d : Int) :
    FP.val (m * n) (e + d) = FP.val m e * FP.val n d := by
  unfold FP.val
  rw [zpow_add₀ (by norm_num : (2 : ℚ) ≠ 0)]
  push_cast
  ring

theorem FP.val_one : FP.val (2 ^ 52) (-52) = 1 := by
  unfold FP.val
  norm_num

theorem FP.val_pow (k : Nat) (e : Int) : FP.val (2 ^ k) e = (2 : ℚ) ^ ((k : Int) + e) := by
  unfold FP.val
  rw [zpow_add₀ (by norm_num : (2 : ℚ) ≠ 0), zpow_natCast]
  push_cast
  rfl

/-- Go's `<=` on two non-negative finite data is the order of their values. -/
theorem FP.le_fin_iff_val (m1 m2 : Nat) (e1 e2 : Int) :
    FP.le (FP.fin false m1 e1) (FP.fin false m2 e2) = true ↔ FP.val m1 e1 ≤ FP.val m2 e2 := by
  rw [FP.le_fin_iff, ← FP.val_le_val_iff _ _ (min e1 e2),
    FP.val_shift m1 e1 _ (min_le_left _ _), FP.val_shift m2 e2 _ (min_le_right _ _)]

theorem FP.canonical_pow (a : Int) (h1 : -1074 ≤ a) (h2 : a ≤ 971) :
    FP.Canonical binary64 (FP.fin false (2 ^ 52) a) :=
  ⟨by decide, h1, h2, Or.inl (le_refl _)⟩

/-- Rounding an integer at exponent 0 yields an integer value. -/
theorem FP.round_nat_val (f : Fmt) (s : Bool) (n m2 : Nat) (e2 : Int)
    (h : FP.round f s n 0 = FP.fin s m2 e2) :
    ∃ X : Nat, FP.val m2 e2 = X := by
  unfold FP.round at h
  by_cases hn : n = 0
  · rw [if_pos hn] at h
    simp only [FP.zero, FP.fin.injEq] at h
    exact ⟨0, by rw [← h.2.1, FP.val_zero]; simp⟩
  · rw [if_neg hn] at h
    have natval : ∀ (M : Nat) (E : Int), 0 ≤ E → ∃ X : Nat, FP.val M E = X := by
      intro M E hE
      refine ⟨M * 2 ^ E.toNat, ?_⟩
      have := FP.val_shift M E 0 hE
      rw [← this]
      unfold FP.val
      simp
    by_cases hA : FP.roundExp f n 0 ≤ 0
    · rw [if_pos hA] at h
      rcases FP.pack_cases f s (n * 2 ^ (0 - FP.roundExp f n 0).toNat) (FP.roundExp f n 0)
        with hp | hp
      · rw [hp] at h; exact absurd h (by simp)
      · rw [hp] at h
        simp only [FP.fin.injEq] at h
        refine ⟨n, ?_⟩
        rw [← h.2.1, ← h.2.2, FP.val_shift n 0 _ hA]
        unfold FP.val
        simp
    · rw [if_neg hA] at h
      by_cases hB : FP.roundShift n (FP.roundExp f n 0 - 0).toNat = 2 ^ f.prec
      · rw [if_pos hB] at h
        rcases FP.pack_cases f s (2 ^ (f.prec - 1)) (FP.roundExp f n 0 + 1) with hp | hp
        · rw [hp] at h; exact absurd h (by simp)
        · rw [hp] at h
          simp only [FP.fin.injEq] at h
          rw [← h.2.1, ← h.2.2]
          exact natval _ _ (by omega)
      · rw [if_neg hB] at h
        rcases FP.pack_cases f s (FP.roundShift n (FP.roundExp f n 0 - 0).toNat)
          (FP.roundExp f n 0) with hp | hp
        · rw [hp] at h; exact absurd h (by simp)
        · rw [hp] at h
          simp only [FP.fin.injEq] at h
          rw [← h.2.1, ← h.2.2]
          exact natval _ _ (by omega)

/-- The conversion of an unsigned 64-bit integer is a non-negative canonical datum whose
value is an integer at most `2^64`, and at least 1 unless the integer is 0. -/
theorem FP.ofNat_val (n : Nat) (hn : n < 2 ^ 64) :
    ∃ m e, FP.ofNat binary64 n = FP.fin false m e ∧ FP.Canonical binary64 (FP.fin false m e) ∧
      (∃ X : Nat, FP.val m e = X) ∧ FP.val m e ≤ 2 ^ 64 ∧ (n ≠ 0 → 1 ≤ FP.val m e) := by
  have hval : FP.val n 0 = n := by unfold FP.val; simp
  have hle : FP.val n 0 ≤ FP.val (2 ^ 52) 12 := by
    rw [hval, FP.val_pow]
    norm_num
    exact_mod_cast Nat.le_of_lt hn
  obtain ⟨m, e, hr, hv⟩ := FP.round_le_repr binary64 false n (2 ^ 52) 0 12
    (FP.canonical_pow 12 (by decide) (by decide)) hle
  have hcan := FP.round_canonical binary64 binary64_valid false n 0
  rw [hr] at hcan
  refine ⟨m, e, hr, hcan, FP.round_nat_val binary64 false n m e hr, ?_, ?_⟩
  · rw [FP.val_pow] at hv
    norm_num at hv
    exact hv
  · intro h0
    have hge : FP.val (2 ^ 52) (-52) ≤ FP.val n 0 := by
      rw [FP.val_one, hval]
      exact_mod_cast Nat.pos_of_ne_zero h0
    rcases FP.round_ge_repr binary64 false n (2 ^ 52) 0 (-52)
      (FP.canonical_pow (-52) (by decide) (by decide)) hge with h | ⟨m2, e2, h, hv2⟩
    · rw [hr] at h; exact absurd h (by simp)
    · rw [hr] at h
      simp only [FP.fin.injEq] at h
      rw [h.2.1, h.2.2, ← FP.val_one]
      exact hv2

/-- Rounding keeps a value between two canonical bounds. -/
theorem FP.round_between (f : Fmt) (hf : f.Valid) (s : Bool) (n ml mu : Nat) (e El Eu : Int)
    (hl : FP.Canonical f (FP.fin false ml El)) (hu : FP.Canonical f (FP.fin false mu Eu))
    (h1 : FP.val ml El ≤ FP.val n e) (h2 : FP.val n e ≤ FP.val mu Eu) :
    ∃ m2 e2, FP.round f s n e = FP.fin s m2 e2 ∧ FP.Canonical f (FP.fin s m2 e2) ∧
      FP.val ml El ≤ FP.val m2 e2 ∧ FP.val m2 e2 ≤ FP.val mu Eu := by
  obtain ⟨m2, e2, hr, hv⟩ := FP.round_le_repr f s n mu e Eu hu h2
  have hcan := FP.round_canonical f hf s n e
  rw [hr] at hcan
  refine ⟨m2, e2, hr, hcan, ?_, hv⟩
  rcases FP.round_ge_repr f s n ml e El hl h1 with h | ⟨m3, e3, h, hv3⟩
  · rw [hr] at h; exact absurd h (by simp)
  · rw [hr] at h
    simp only [FP.fin.injEq] at h
    rw [h.2.1, h.2.2]
    exact hv3

/-- The sum of two finite data of one sign is the rounded sum of their values. -/
theorem FP.add_fin_val (f : Fmt) (s : Bool) (m1 m2 : Nat) (e1 e2 : Int) :
    ∃ N c, FP.add f (FP.fin s m1 e1) (FP.fin s m2 e2) = FP.round f s N c ∧
      FP.val N c = FP.val m1 e1 + FP.val m2 e2 := by
  refine ⟨m1 * 2 ^ (e1 - min e1 e2).toNat + m2 * 2 ^ (e2 - min e1 e2).toNat, min e1 e2, ?_, ?_⟩
  · simp [FP.add]
  · rw [FP.val_add, FP.val_shift _ _ _ (min_le_left _ _), FP.val_shift _ _ _ (min_le_right _ _)]

/-- The difference of two non-negative finite data is a zero when their values are equal,
and otherwise the rounded distance of their values, with the sign of the difference. -/
theorem FP.sub_fin_val (f : Fmt) (m1 m2 : Nat) (e1 e2 : Int) :
    (FP.val m1 e1 = FP.val m2 e2 ∧
      FP.sub f (FP.fin false m1 e1) (FP.fin false m2 e2) = FP.zero f false) ∨
    (FP.val m1 e1 ≠ FP.val m2 e2 ∧
      ∃ N c, FP.sub f (FP.fin false m1 e1) (FP.fin false m2 e2)
          = FP.round f (decide (FP.val m1 e1 < FP.val m2 e2)) N c ∧
        FP.val N c = |FP.val m1 e1 - FP.val m2 e2|) := by
  have ha := FP.val_shift m1 e1 _ (min_le_left e1 e2)
  have hb := FP.val_shift m2 e2 _ (min_le_right e1 e2)
  rcases Nat.lt_trichotomy (m1 * 2 ^ (e1 - min e1 e2).toNat) (m2 * 2 ^ (e2 - min e1 e2).toNat)
    with h | h | h
  · right
    have hlt : FP.val m1 e1 < FP.val m2 e2 := by
      rw [← ha, ← hb]; exact (FP.val_lt_val_iff _ _ _).2 h
    refine ⟨ne_of_lt hlt, m2 * 2 ^ (e2 - min e1 e2).toNat - m1 * 2 ^ (e1 - min e1 e2).toNat,
      min e1 e2, ?_, ?_⟩
    · simp only [FP.sub, FP.neg, FP.add, Bool.not_false]
      rw [if_neg (by decide), if_neg (Nat.ne_of_lt h), if_neg (by omega)]
      simp [hlt]
    · rw [FP.val_sub _ _ _ (Nat.le_of_lt h), ha, hb, abs_of_neg (by linarith)]
      ring
  · left
    refine ⟨by rw [← ha, ← hb, h], ?_⟩
    simp only [FP.sub, FP.neg, FP.add, Bool.not_false]
    rw [if_neg (by decide), if_pos h]
  · right
    have hlt : FP.val m2 e2 < FP.val m1 e1 := by
      rw [← ha, ← hb]; exact (FP.val_lt_val_iff _ _ _).2 h
    refine ⟨ne_of_gt hlt, m1 * 2 ^ (e1 - min e1 e2).toNat - m2 * 2 ^ (e2 - min e1 e2).toNat,
      min e1 e2, ?_, ?_⟩
    · simp only [FP.sub, FP.neg, FP.add, Bool.not_false]
      rw [if_neg (by decide), if_neg (Nat.ne_of_gt h), if_pos h]
      simp [not_lt.2 (le_of_lt hlt)]
    · rw [FP.val_sub _ _ _ (Nat.le_of_lt h), ha, hb, abs_of_pos (by linarith)]

/-- The product of two finite data is the rounded product of their values. -/
theorem FP.mul_fin_val (f : Fmt) (s1 s2 : Bool) (m1 m2 : Nat) (e1 e2 : Int) :
    FP.mul f (FP.fin s1 m1 e1) (FP.fin s2 m2 e2) = FP.round f (s1 != s2) (m1 * m2) (e1 + e2) ∧
      FP.val (m1 * m2) (e1 + e2) = FP.val m1 e1 * FP.val m2 e2 :=
  ⟨rfl, FP.val_mul m1 m2 e1 e2⟩

/-- The sticky bit keeps the doubled quotient below twice any integer bound of the exact
quotient. -/
theorem FP.sticky_le (a b P : Nat) (h : a ≤ b * P) :
    2 * (a / b) + (if a % b = 0 then 0 else 1) ≤ 2 * P := by
  have hq : a / b ≤ P := Nat.div_le_of_le_mul h
  have hdm := Nat.div_add_mod a b
  rcases Nat.lt_or_ge (a / b) P with hlt | hge
  · split_ifs <;> omega
  · have hqe : a / b = P := le_antisymm hq hge
    have hr0 : a % b = 0 := by
      rw [hqe] at hdm
      omega
    rw [if_pos hr0]
    omega

/-- The quotient of two non-zero finite data is the rounding of a value that is at least half
the quotient of their values, and at most 1 when the dividend is not above the divisor. -/
theorem FP.div_fin_val (f : Fmt) (s1 s2 : Bool) (m1 m2 : Nat) (e1 e2 : Int)
    (h1 : m1 ≠ 0) (h2 : m2 ≠ 0) :
    ∃ N c, FP.div f (FP.fin s1 m1 e1) (FP.fin s2 m2 e2) = FP.round f (s1 != s2) N c ∧
      FP.val m1 e1 ≤ FP.val N c * (2 * FP.val m2 e2) ∧
      (FP.val m1 e1 ≤ FP.val m2 e2 → ∀ (P : Nat) (a : Int), -(f.prec : Int) ≤ a →
        FP.val m1 e1 ≤ FP.val m2 e2 * FP.val P a → FP.val N c ≤ FP.val P a) := by
  let k : Nat := f.prec + 2 + bitLen m2
  let q : Nat := m1 * 2 ^ k / m2
  let st : Nat := if m1 * 2 ^ k % m2 = 0 then 0 else 1
  have hm2pos : 0 < m2 := Nat.pos_of_ne_zero h2
  have hdm := Nat.div_add_mod (m1 * 2 ^ k) m2
  have hmod := Nat.mod_lt (m1 * 2 ^ k) hm2pos
  refine ⟨2 * q + st, e1 - e2 - k - 1, ?_, ?_, ?_⟩
  · simp only [FP.div, if_neg h2]
  · -- at least half the exact quotient
    have hb2 := (bitLen_spec m2 h2).2.2
    have hk : 2 ^ bitLen m2 ≤ 2 ^ k := Nat.pow_le_pow_right (by decide) (by omega)
    have hq1 : 1 ≤ q := by
      apply (Nat.le_div_iff_mul_le hm2pos).2
      have : 2 ^ k ≤ m1 * 2 ^ k := Nat.le_mul_of_pos_left _ (Nat.pos_of_ne_zero h1)
      omega
    have hkey : m1 * 2 ^ k ≤ (2 * q + st) * m2 := by
      have : m1 * 2 ^ k < (q + 1) * m2 := by
        have e : (q + 1) * m2 = m2 * q + m2 := by ring
        rw [e]
        show m1 * 2 ^ k < m2 * (m1 * 2 ^ k / m2) + m2
        omega
      have : (q + 1) * m2 ≤ (2 * q + st) * m2 := Nat.mul_le_mul_right _ (by omega)
      omega
    have hl : FP.val m1 e1 = FP.val (m1 * 2 ^ k) (e1 - k) := (FP.val_scale m1 k e1).symm
    have hr : FP.val (2 * q + st) (e1 - e2 - k - 1) * (2 * FP.val m2 e2)
        = FP.val ((2 * q + st) * m2) (e1 - k) := by
      have he : e1 - (k : Int) = (e1 - e2 - k - 1) + 1 + e2 := by ring
      rw [he]
      unfold FP.val
      rw [zpow_add₀ (by norm_num : (2 : ℚ) ≠ 0), zpow_add₀ (by norm_num : (2 : ℚ) ≠ 0)]
      push_cast
      ring
    rw [hl, hr]
    exact (FP.val_le_val_iff _ _ _).2 hkey
  · intro hle P a ha hPa
    have hbl := FP.bitLen_of_val_le m1 m2 e1 e2 h1 hle
    have hb1 : 1 ≤ bitLen m1 := (bitLen_spec m1 h1).1
    have hk : (k : Int) = (f.prec : Int) + 2 + bitLen m2 := by
      show ((f.prec + 2 + bitLen m2 : Nat) : Int) = _
      push_cast
      ring
    obtain ⟨j, hjeq⟩ : ∃ j : Nat, (j : Int) = a - (e1 - e2 - k) :=
      ⟨(a - (e1 - e2 - k)).toNat, by omega⟩
    -- the bound in units of twice the unit of the quotient
    have hnat : m1 * 2 ^ k ≤ m2 * (P * 2 ^ j) := by
      have hA : FP.val (m1 * 2 ^ k) (e1 - k) = FP.val m1 e1 := FP.val_scale m1 k e1
      have hB : FP.val (m2 * (P * 2 ^ j)) (e1 - k) = FP.val m2 e2 * FP.val P a := by
        have hP : FP.val (P * 2 ^ j) (a - j) = FP.val P a := FP.val_scale P j a
        have he : e1 - (k : Int) = e2 + (a - j) := by omega
        rw [he, FP.val_mul, hP]
      rw [← hA, ← hB] at hPa
      exact (FP.val_le_val_iff _ _ _).1 hPa
    have hN : 2 * q + st ≤ 2 * (P * 2 ^ j) := FP.sticky_le _ _ _ hnat
    have hv : FP.val (2 * (P * 2 ^ j)) (e1 - e2 - k - 1) = FP.val P a := by
      have h3 : 2 * (P * 2 ^ j) = P * 2 ^ (j + 1) := by rw [pow_succ]; ring
      have h4 := FP.val_scale P (j + 1) a
      have h5 : a - ((j + 1 : Nat) : Int) = e1 - e2 - k - 1 := by push_cast; omega
      rw [h3, ← h5]
      exact h4
    rw [← hv]
    exact (FP.val_le_val_iff _ _ _).2 hN

theorem FP.val_ne_zero_of_pos {m : Nat} {e : Int} (h : 0 < FP.val m e) : m ≠ 0 := by
  rintro rfl
  rw [FP.val_zero] at h
  exact lt_irrefl _ h

theorem FP.val_two_pow (a : Int) : FP.val (2 ^ 52) a = (2 : ℚ) ^ (52 + a) := by
  rw [FP.val_pow]
  norm_num

/-- Go's `<` on two non-negative finite data is the strict order of their values. -/
theorem FP.lt_fin_iff_val (m1 m2 : Nat) (e1 e2 : Int) :
    FP.lt (FP.fin false m1 e1) (FP.fin false m2 e2) = true ↔ FP.val m1 e1 < FP.val m2 e2 := by
  rw [← FP.val_shift m1 e1 _ (min_le_left e1 e2), ← FP.val_shift m2 e2 _ (min_le_right e1 e2),
    FP.val_lt_val_iff]
  simp only [FP.lt, FP.scaled, decide_eq_true_eq]
  simp only [Bool.false_eq_true, if_false, one_mul]
  exact Int.ofNat_lt

/-- Every integer below `2^53` is the value of its conversion, a canonical datum. -/
theorem FP.nat_repr (n : Nat) (h : n < 2 ^ 53) :
    ∃ m e, FP.Canonical binary64 (FP.fin false m e) ∧ FP.val m e = n := by
  have hcan := FP.round_canonical binary64 binary64_valid false n 0
  by_cases h0 : n = 0
  · subst h0
    rw [FP.round_zero] at hcan
    exact ⟨0, binary64.emin, hcan, by rw [FP.val_zero]; simp⟩
  · have hs := FP.ofNat_small n h0 h
    unfold FP.ofNat at hs
    rw [hs] at hcan
    refine ⟨_, _, hcan, ?_⟩
    have hlen : bitLen n ≤ 53 := bitLen_le n 53 h
    have he : ((bitLen n : Int) - 53) = 0 - ((53 - bitLen n : Nat) : Int) := by omega
    rw [he, FP.val_scale]
    unfold FP.val
    simp

/-- Rounding a representable value is exact. -/
theorem FP.round_val_exact (f : Fmt) (hf : f.Valid) (s : Bool) (n m m2 : Nat) (e E e2 : Int)
    (hc : FP.Canonical f (FP.fin false m E)) (h : FP.val n e = FP.val m E)
    (hr : FP.round f s n e = FP.fin s m2 e2) : FP.val m2 e2 = FP.val n e := by
  obtain ⟨m3, e3, h3, _, hl, hu⟩ := FP.round_between f hf s n m m e E E hc hc
    (le_of_eq h.symm) (le_of_eq h)
  rw [hr] at h3
  simp only [FP.fin.injEq] at h3
  rw [h3.2.1, h3.2.2, h]
  exact le_antisymm hu hl

/-- A rounding bounded by a representable value. -/
theorem FP.round_val_le (f : Fmt) (s : Bool) (n m m2 : Nat) (e E e2 : Int)
    (hc : FP.Canonical f (FP.fin false m E)) (h : FP.val n e ≤ FP.val m E)
    (hr : FP.round f s n e = FP.fin s m2 e2) : FP.val m2 e2 ≤ FP.val m E := by
  obtain ⟨m3, e3, h3, hu⟩ := FP.round_le_repr f s n m e E hc h
  rw [hr] at h3
  simp only [FP.fin.injEq] at h3
  rw [h3.2.1, h3.2.2]
  exact hu

/-- The value just below a normalised binary64 datum is representable. -/
theorem FP.pred_canonical (m : Nat) (e : Int) (hc : FP.Canonical binary64 (FP.fin false m e))
    (hm : 2 ^ 52 ≤ m) (he : -1074 < e) :
    ∃ m2 e2, FP.Canonical binary64 (FP.fin false m2 e2) ∧ FP.val m2 e2 = FP.val (m - 1) e := by
  obtain ⟨h1, h2, h3, _⟩ := hc
  have hp : (binary64.prec : Nat) = 53 := rfl
  have hmin : binary64.emin = -1074 := rfl
  have hmax : binary64.emax = 971 := rfl
  rw [hp] at h1
  rw [hmax] at h3
  rcases Nat.lt_or_ge (2 ^ 52) m with hgt | hle
  · refine ⟨m - 1, e, ⟨?_, ?_, ?_, Or.inl ?_⟩, rfl⟩
    · rw [hp]; omega
    · rw [hmin]; omega
    · rw [hmax]; omega
    · rw [hp]; omega
  · have hm52 : m = 2 ^ 52 := le_antisymm hle hm
    refine ⟨(2 ^ 52 - 1) * 2 ^ 1, e - 1, ⟨?_, ?_, ?_, Or.inl ?_⟩, ?_⟩
    · rw [hp]; decide
    · rw [hmin]; omega
    · rw [hmax]; omega
    · rw [hp]; decide
    · rw [hm52]
      exact FP.val_scale (2 ^ 52 - 1) 1 e

/-- Adding a non-zero canonical magnitude to `+0` gives the magnitude. -/
theorem FP.zero_add_fin (f : Fmt) (m : Nat) (e : Int) (hm0 : m ≠ 0)
    (hc : FP.Canonical f (FP.fin false m e)) :
    FP.add f (FP.zero f false) (FP.fin false m e) = FP.fin false m e := by
  have he : f.emin ≤ e := hc.2.1
  have hr := FP.round_canonical_eq f false m e (e - f.emin).toNat hm0 hc
  have hmin : min f.emin e = f.emin := min_eq_left he
  have hcast : e - ((e - f.emin).toNat : Int) = f.emin := by omega
  rw [hcast] at hr
  simp [FP.add, FP.zero, hmin, hr]

/-- A non-zero finite `float64` divided by its magnitude is 1 or -1. -/
theorem FP.div_abs_self (s : Bool) (m : Nat) (e : Int) (hm0 : m ≠ 0) :
    FP.div binary64 (FP.fin s m e) (FP.fin false m e) = FP.fin s (2 ^ 52) (-52) := by
  have hq : m * 2 ^ (binary64.prec + 2 + bitLen m) / m = 2 ^ (binary64.prec + 2 + bitLen m) :=
    Nat.mul_div_cancel_left _ (Nat.pos_of_ne_zero hm0)
  have hr : m * 2 ^ (binary64.prec + 2 + bitLen m) % m = 0 := Nat.mul_mod_right _ _
  simp only [FP.div, if_neg hm0, hq, hr, if_true, Nat.add_zero, Bool.bne_false]
  have h1 : 2 * 2 ^ (binary64.prec + 2 + bitLen m)
      = 1 * 2 ^ (binary64.prec + 2 + bitLen m + 1) := by
    rw [pow_succ]; ring
  have h2 : e - e - ((binary64.prec + 2 + bitLen m : Nat) : Int) - 1
      = 0 - ((binary64.prec + 2 + bitLen m + 1 : Nat) : Int) := by
    push_cast; ring
  rw [h1, h2, FP.round_rescale]
  cases s <;> decide

/-- Multiplying a canonical non-zero finite `float64` by 1 leaves it as it is. -/
theorem FP.mul_one_fin (s : Bool) (m : Nat) (e : Int) (hm0 : m ≠ 0)
    (hc : FP.Canonical binary64 (FP.fin s m e)) :
    FP.mul binary64 (FP.fin s m e) (FP.fin false (2 ^ 52) (-52)) = FP.fin s m e := by
  have h := FP.round_canonical_eq binary64 s m e 52 hm0 hc
  simp only [FP.mul, Bool.bne_false]
  exact h

/-- The magnitude of a rounded value is the rounded magnitude. -/
theorem FP.abs_round (f : Fmt) (s : Bool) (n : Nat) (e : Int) :
    FP.abs (FP.round f s n e) = FP.round f false n e := by
  unfold FP.round
  split_ifs <;> simp [FP.zero, FP.pack, FP.abs] <;> split_ifs <;> rfl

/-- Dividing by a non-negative finite divisor commutes with taking the magnitude:
`|x / d| = |x| / d`. -/
theorem FP.abs_div_nonneg (f : Fmt) (x : FP) (md : Nat) (ed : Int) :
    FP.abs (FP.div f x (FP.fin false md ed)) = FP.div f (FP.abs x) (FP.fin false md ed) := by
  cases x with
  | nan => rfl
  | inf s => simp [FP.div, FP.abs]
  | fin s m e =>
    by_cases hd : md = 0
    · by_cases hm : m = 0 <;> simp [FP.div, FP.abs, hd, hm]
    · have h1 : FP.abs (FP.fin s m e) = FP.fin false m e := rfl
      rw [h1]
      simp only [FP.div, if_neg hd]
      rw [FP.abs_round]
      rfl

/-- A normalised significand has `prec` digits. -/
theorem FP.bitLen_normal (f : Fmt) (m : Nat) (h1 : m < 2 ^ f.prec) (h2 : 2 ^ (f.prec - 1) ≤ m)
    (hp : 1 ≤ f.prec) : bitLen m = f.prec :=
  bitLen_unique m f.prec hp h2 h1

/-- A canonical datum whose value is that of a normalised canonical datum is that datum. -/
theorem FP.canonical_val_inj (f : Fmt) (hf : f.Valid) (m m2 : Nat) (e e2 : Int)
    (hc : FP.Canonical f (FP.fin false m e)) (hn : 2 ^ (f.prec - 1) ≤ m)
    (hc2 : FP.Canonical f (FP.fin false m2 e2)) (h : FP.val m2 e2 = FP.val m e) :
    m2 = m ∧ e2 = e := by
  have hm0 : m ≠ 0 := by
    have := Nat.two_pow_pos (f.prec - 1)
    omega
  have hm20 : m2 ≠ 0 := by
    rintro rfl
    rw [FP.val_zero] at h
    exact absurd (FP.val_pos m e hm0) (by rw [← h]; exact lt_irrefl _)
  have hb := FP.bitLen_normal f m hc.1 hn hf.1
  have h1 := FP.bitLen_of_val_le m2 m e2 e hm20 (le_of_eq h)
  have h2 := FP.bitLen_of_val_le m m2 e e2 hm0 (le_of_eq h.symm)
  have hb2 : bitLen m2 ≤ f.prec := bitLen_le m2 f.prec hc2.1
  have he : e2 = e := by
    rcases hc2.2.2.2 with hn2 | hmin
    · have := FP.bitLen_normal f m2 hc2.1 hn2 hf.1
      omega
    · have := hc.2.1
      omega
  subst he
  refine ⟨?_, rfl⟩
  have a := (FP.val_le_val_iff m2 m e2).1 (le_of_eq h)
  have b := (FP.val_le_val_iff m m2 e2).1 (le_of_eq h.symm)
  omega

/-- No canonical value lies strictly between a normalised datum and its successor. -/
theorem FP.canonical_succ_le (f : Fmt) (hf : f.Valid) (m m2 : Nat) (e e2 : Int)
    (hc : FP.Canonical f (FP.fin false m e)) (hn : 2 ^ (f.prec - 1) ≤ m)
    (hc2 : FP.Canonical f (FP.fin false m2 e2)) (h : FP.val m e < FP.val m2 e2) :
    FP.val (m + 1) e ≤ FP.val m2 e2 := by
  have hm0 : m ≠ 0 := by
    have := Nat.two_pow_pos (f.prec - 1)
    omega
  have hb := FP.bitLen_normal f m hc.1 hn hf.1
  have h1 := FP.bitLen_of_val_le m m2 e e2 hm0 (le_of_lt h)
  have hb2 : bitLen m2 ≤ f.prec := bitLen_le m2 f.prec hc2.1
  have hee : e ≤ e2 := by omega
  rcases lt_or_eq_of_le hee with hlt | heq
  · have hn2 : 2 ^ (f.prec - 1) ≤ m2 := by
      rcases hc2.2.2.2 with h3 | h3
      · exact h3
      · have := hc.2.1
        omega
    rw [← FP.val_shift m2 e2 e hee, FP.val_le_val_iff]
    have hpow : 2 ^ 1 ≤ 2 ^ (e2 - e).toNat := Nat.pow_le_pow_right (by decide) (by omega)
    have hpp : 2 ^ f.prec = 2 ^ (f.prec - 1) * 2 ^ 1 := by
      rw [← pow_add]; congr 1; have := hf.1; omega
    have : 2 ^ (f.prec - 1) * 2 ^ 1 ≤ m2 * 2 ^ (e2 - e).toNat := Nat.mul_le_mul hn2 hpow
    have := hc.1
    omega
  · subst heq
    rw [FP.val_le_val_iff]
    exact (FP.val_lt_val_iff _ _ _).1 h

/-- A canonical value above the predecessor of a normalised datum `m * 2^E` (with `m` above
the least normalised significand) and not above the datum is the datum. -/
theorem FP.canonical_between (f : Fmt) (hf : f.Valid) (m m2 : Nat) (E e2 : Int)
    (hc : FP.Canonical f (FP.fin false m E)) (hn : 2 ^ (f.prec - 1) < m)
    (hc2 : FP.Canonical f (FP.fin false m2 e2))
    (h1 : FP.val (m - 1) E < FP.val m2 e2) (h2 : FP.val m2 e2 ≤ FP.val m E) :
    m2 = m ∧ e2 = E := by
  have hpos := Nat.two_pow_pos (f.prec - 1)
  have hm20 : m2 ≠ 0 := by
    rintro rfl
    rw [FP.val_zero] at h1
    exact absurd (FP.val_nonneg (m - 1) E) (not_le.2 h1)
  have hbm1 : bitLen (m - 1) = f.prec :=
    FP.bitLen_normal f (m - 1) (by have := hc.1; omega) (by omega) hf.1
  have ha := FP.bitLen_of_val_le m2 m e2 E hm20 h2
  have hb := FP.bitLen_of_val_le (m - 1) m2 E e2 (by omega) (le_of_lt h1)
  have hbm : bitLen m = f.prec := FP.bitLen_normal f m hc.1 (by omega) hf.1
  have hb2 : bitLen m2 ≤ f.prec := bitLen_le m2 f.prec hc2.1
  have he : e2 = E := by
    rcases hc2.2.2.2 with hn2 | hmin
    · have := FP.bitLen_normal f m2 hc2.1 hn2 hf.1
      omega
    · have := hc.2.1
      omega
  subst he
  refine ⟨?_, rfl⟩
  have a := (FP.val_lt_val_iff (m - 1) m2 e2).1 h1
  have b := (FP.val_le_val_iff m2 m e2).1 h2
  omega

/-- Rounding to nearest: the quotient is at least the result less one half. -/
theorem FP.roundShift_ge_half (n sh : Nat) (hsh : 1 ≤ sh) :
    (2 * FP.roundShift n sh - 1) * 2 ^ (sh - 1) ≤ n := by
  have hP : 2 ^ sh = 2 * 2 ^ (sh - 1) := by
    rw [← pow_succ']; congr 1; omega
  have hdm := Nat.div_add_mod n (2 ^ sh)
  have hr := Nat.mod_lt n (Nat.two_pow_pos sh)
  have e0 : 2 ^ sh * (n / 2 ^ sh) = 2 * (2 ^ (sh - 1) * (n / 2 ^ sh)) := by
    rw [hP]; ring_nf
  have hlow : (2 * (n / 2 ^ sh) - 1) * 2 ^ (sh - 1) ≤ n := by
    calc (2 * (n / 2 ^ sh) - 1) * 2 ^ (sh - 1)
        ≤ (2 * (n / 2 ^ sh)) * 2 ^ (sh - 1) := Nat.mul_le_mul_right _ (Nat.sub_le _ _)
      _ = 2 * (2 ^ (sh - 1) * (n / 2 ^ sh)) := by ring
      _ ≤ n := by omega
  have hup : 2 ^ (sh - 1) ≤ n % 2 ^ sh →
      (2 * (n / 2 ^ sh + 1) - 1) * 2 ^ (sh - 1) ≤ n := by
    intro hge
    have e1 : 2 * (n / 2 ^ sh + 1) - 1 = 2 * (n / 2 ^ sh) + 1 := by omega
    have e2 : (2 * (n / 2 ^ sh) + 1) * 2 ^ (sh - 1)
        = 2 * (2 ^ (sh - 1) * (n / 2 ^ sh)) + 2 ^ (sh - 1) := by ring
    rw [e1, e2]
    omega
  unfold FP.roundShift
  split_ifs with h1 h2 h3
  · exact hlow
  · exact hup (le_of_lt h2)
  · exact hlow
  · exact hup (by omega)

/-- Rounding to nearest: the exact value is at least the result less half a unit in the
last place of the result. -/
theorem FP.round_ge_half (f : Fmt) (hf : f.Valid) (s : Bool) (n m2 : Nat) (e e2 : Int)
    (h : FP.round f s n e = FP.fin s m2 e2) :
    FP.val (2 * m2 - 1) (e2 - 1) ≤ FP.val n e := by
  have hdown : ∀ (M : Nat) (E : Int), FP.val (2 * M - 1) (E - 1) ≤ FP.val M E := by
    intro M E
    have h1 : FP.val (M * 2 ^ 1) (E - ((1 : Nat) : Int)) = FP.val M E := FP.val_scale M 1 E
    rw [← h1]
    exact (FP.val_le_val_iff _ _ _).2 (by omega)
  have hround : ∀ (sh : Nat), 1 ≤ sh → ∀ E : Int, E = e + sh →
      FP.val (2 * FP.roundShift n sh - 1) (E - 1) ≤ FP.val n e := by
    intro sh hsh E hE
    have h1 := FP.roundShift_ge_half n sh hsh
    have h2 : FP.val ((2 * FP.roundShift n sh - 1) * 2 ^ (sh - 1)) e
        = FP.val (2 * FP.roundShift n sh - 1) (E - 1) := by
      have := FP.val_scale (2 * FP.roundShift n sh - 1) (sh - 1) (E - 1)
      have he : E - 1 - ((sh - 1 : Nat) : Int) = e := by omega
      rw [he] at this
      exact this
    rw [← h2]
    exact (FP.val_le_val_iff _ _ _).2 h1
  unfold FP.round at h
  by_cases hn : n = 0
  · rw [if_pos hn] at h
    simp only [FP.zero, FP.fin.injEq, true_and] at h
    rw [← h.1]
    exact FP.val_nonneg _ _ |> fun hh => by simpa [FP.val] using hh
  · rw [if_neg hn] at h
    by_cases hA : FP.roundExp f n e ≤ e
    · rw [if_pos hA] at h
      rcases FP.pack_cases f s (n * 2 ^ (e - FP.roundExp f n e).toNat) (FP.roundExp f n e)
        with hp | hp
      · rw [hp] at h; exact absurd h (by simp)
      · rw [hp] at h
        simp only [FP.fin.injEq, true_and] at h
        have hv := FP.val_shift n e _ hA
        rw [h.1, h.2] at hv
        rw [← hv]
        exact hdown _ _
    · rw [if_neg hA] at h
      have hsh : 1 ≤ (FP.roundExp f n e - e).toNat := by omega
      have hE : FP.roundExp f n e = e + ((FP.roundExp f n e - e).toNat : Int) := by omega
      by_cases hB : FP.roundShift n (FP.roundExp f n e - e).toNat = 2 ^ f.prec
      · rw [if_pos hB] at h
        rcases FP.pack_cases f s (2 ^ (f.prec - 1)) (FP.roundExp f n e + 1) with hp | hp
        · rw [hp] at h; exact absurd h (by simp)
        · rw [hp] at h
          simp only [FP.fin.injEq, true_and] at h
          have h3 := hround _ hsh _ hE
          rw [hB] at h3
          rw [← h.1, ← h.2]
          refine le_trans ?_ h3
          have hpp : 2 ^ f.prec = 2 ^ (f.prec - 1) * 2 ^ 1 := by
            rw [← pow_add]; congr 1; have := hf.1; omega
          have h4 : FP.val ((2 * 2 ^ (f.prec - 1) - 1) * 2 ^ 1)
              (FP.roundExp f n e + 1 - 1 - ((1 : Nat) : Int))
              = FP.val (2 * 2 ^ (f.prec - 1) - 1) (FP.roundExp f n e + 1 - 1) :=
            FP.val_scale _ 1 _
          rw [← h4]
          have he : FP.roundExp f n e + 1 - 1 - ((1 : Nat) : Int) = FP.roundExp f n e - 1 := by
            push_cast; ring
          rw [he]
          apply (FP.val_le_val_iff _ _ _).2
          have := Nat.two_pow_pos (f.prec - 1)
          omega
      · rw [if_neg hB] at h
        rcases FP.pack_cases f s (FP.roundShift n (FP.roundExp f n e - e).toNat)
          (FP.roundExp f n e) with hp | hp
        · rw [hp] at h; exact absurd h (by simp)
        · rw [hp] at h
          simp only [FP.fin.injEq, true_and] at h
          rw [← h.1, ← h.2]
          exact hround _ hsh _ hE

/-- A value below the midpoint of a normalised datum and its predecessor rounds to the
predecessor at most. -/
theorem FP.round_below_mid (f : Fmt) (hf : f.Valid) (s : Bool) (n m m2 : Nat) (e E e2 : Int)
    (hc : FP.Canonical f (FP.fin false m E)) (hn : 2 ^ (f.prec - 1) < m)
    (h : FP.val n e < FP.val (2 * m - 1) (E - 1))
    (hr : FP.round f s n e = FP.fin s m2 e2) : FP.val m2 e2 ≤ FP.val (m - 1) E := by
  have hmid : FP.val (2 * m - 1) (E - 1) ≤ FP.val m E := by
    have h1 : FP.val (m * 2 ^ 1) (E - ((1 : Nat) : Int)) = FP.val m E := FP.val_scale m 1 E
    rw [← h1]
    exact (FP.val_le_val_iff _ _ _).2 (by omega)
  have hle := FP.round_val_le f s n m m2 e E e2 hc (le_trans (le_of_lt h) hmid) hr
  have hcan := FP.round_canonical f hf s n e
  rw [hr] at hcan
  by_contra hcon
  obtain ⟨hm, he⟩ := FP.canonical_between f hf m m2 E e2 hc hn hcan (not_le.1 hcon) hle
  subst hm he
  exact absurd (FP.round_ge_half f hf s n m2 e e2 hr) (not_le.2 h)

/-- The value just above a normalised binary64 datum is representable. -/
theorem FP.succ_canonical (m : Nat) (e : Int) (hc : FP.Canonical binary64 (FP.fin false m e))
    (hm : 2 ^ 52 ≤ m) (he : e < 971) :
    ∃ m2 e2, FP.Canonical binary64 (FP.fin false m2 e2) ∧ FP.val m2 e2 = FP.val (m + 1) e := by
  obtain ⟨h1, h2, h3, _⟩ := hc
  have hp : (binary64.prec : Nat) = 53 := rfl
  have hmin : binary64.emin = -1074 := rfl
  have hmax : binary64.emax = 971 := rfl
  rw [hp] at h1
  rw [hmin] at h2
  rcases Nat.lt_or_ge (m + 1) (2 ^ 53) with hlt | hge
  · refine ⟨m + 1, e, ⟨?_, ?_, ?_, Or.inl ?_⟩, rfl⟩
    · rw [hp]; exact hlt
    · rw [hmin]; exact h2
    · rw [hmax]; omega
    · rw [hp]; omega
  · have hm53 : m + 1 = 2 ^ 52 * 2 ^ 1 := by
      have : (2 : Nat) ^ 52 * 2 ^ 1 = 2 ^ 53 := by decide
      omega
    refine ⟨2 ^ 52, e + 1, ⟨?_, ?_, ?_, Or.inl ?_⟩, ?_⟩
    · rw [hp]; decide
    · rw [hmin]; omega
    · rw [hmax]; omega
    · rw [hp]
    · rw [hm53]
      have := FP.val_scale (2 ^ 52) 1 (e + 1)
      have he2 : e + 1 - ((1 : Nat) : Int) = e := by push_cast; ring
      rw [he2] at this
      exact this.symm

/-- The error shaping on finite operands: with `x` the converted latency, `y` the target and
`t` the tolerance, all of integer value at most `2^64` and `t` at least 1. The shaped error
is strictly smaller than the raw error exactly when the rounded denominator is larger than
the raw error. -/
theorem FP.shaping (mx my mt : Nat) (ex ey et : Int)
    (ht : FP.Canonical binary64 (FP.fin false mt et))
    (X Y : Nat) (hX : FP.val mx ex = X) (hY : FP.val my ey = Y)
    (hX64 : FP.val mx ex ≤ 2 ^ 64) (hY64 : FP.val my ey ≤ 2 ^ 64)
    (ht1 : 1 ≤ FP.val mt et) (ht64 : FP.val mt et ≤ 2 ^ 64) :
    ∃ s m e, FP.sub binary64 (FP.fin false mx ex) (FP.fin false my ey) = FP.fin s m e ∧
      (m = 0 ↔ X = Y) ∧
      ∃ md ed m2 e2,
        FP.add binary64 (FP.fin false mt et) (FP.abs (FP.fin s m e)) = FP.fin false md ed ∧
        FP.mul binary64 (FP.fin s m e)
          (FP.abs (FP.div binary64 (FP.fin s m e) (FP.fin false md ed))) = FP.fin s m2 e2 ∧
        (m2 = 0 ↔ m = 0) ∧ FP.val m2 e2 ≤ FP.val m e ∧
        (m ≠ 0 → (FP.val m2 e2 < FP.val m e ↔ FP.val m e < FP.val md ed)) ∧
        (X < 2 ^ 53 → Y < 2 ^ 53 → X ≠ Y → FP.val m e < FP.val md ed) := by
  have hone : FP.Canonical binary64 (FP.fin false (2 ^ 52) (-52)) :=
    FP.canonical_pow (-52) (by decide) (by decide)
  rcases FP.sub_fin_val binary64 mx my ex ey with ⟨heq, hz⟩ | ⟨hne, N, c, hr, hv⟩
  · -- the raw error is zero
    have hmt : mt ≠ 0 := FP.val_ne_zero_of_pos (lt_of_lt_of_le one_pos ht1)
    have hXY : X = Y := by
      rw [hX, hY] at heq
      exact_mod_cast heq
    have hden : FP.add binary64 (FP.fin false mt et) (FP.abs (FP.fin false 0 binary64.emin))
        = FP.fin false mt et :=
      FP.same_of_ne_zero hmt (FP.add_zero_same binary64 _ ht)
    refine ⟨false, 0, binary64.emin, hz, by simp [hXY], mt, et, 0, binary64.emin, hden, ?_,
      by simp, le_refl _, fun h => absurd rfl h, fun _ _ h => absurd hXY h⟩
    simp [FP.div, FP.abs, FP.mul, hmt, FP.round_zero, FP.zero]
  · -- the raw error is not zero
    have hXY : X ≠ Y := by
      intro h
      apply hne
      rw [hX, hY, h]
    have hv1 : 1 ≤ FP.val N c := by
      rw [hv, hX, hY]
      rcases Nat.lt_or_gt_of_ne hXY with h | h
      · rw [abs_of_neg (by
          have : (X : ℚ) < Y := by exact_mod_cast h
          linarith)]
        have : (X : ℚ) + 1 ≤ Y := by exact_mod_cast h
        linarith
      · rw [abs_of_pos (by
          have : (Y : ℚ) < X := by exact_mod_cast h
          linarith)]
        have : (Y : ℚ) + 1 ≤ X := by exact_mod_cast h
        linarith
    have hv64 : FP.val N c ≤ 2 ^ 64 := by
      rw [hv]
      have h1 := FP.val_nonneg mx ex
      have h2 := FP.val_nonneg my ey
      rw [abs_le]
      constructor <;> linarith
    obtain ⟨m, e, hraw, hrc, hr1, hr64⟩ := FP.round_between binary64 binary64_valid
      (decide (FP.val mx ex < FP.val my ey)) N (2 ^ 52) (2 ^ 52) c (-52) 12 hone
      (FP.canonical_pow 12 (by decide) (by decide))
      (by rw [FP.val_one]; exact hv1)
      (by rw [FP.val_two_pow]; norm_num; exact hv64)
    rw [FP.val_one] at hr1
    rw [FP.val_two_pow] at hr64
    norm_num at hr64
    have hm0 : m ≠ 0 := FP.val_ne_zero_of_pos (lt_of_lt_of_le one_pos hr1)
    refine ⟨_, m, e, hr.trans hraw, ?_, ?_⟩
    · constructor
      · intro h; exact absurd h hm0
      · intro h; exact absurd h hXY
    -- the denominator
    obtain ⟨N2, c2, hd, hdv⟩ := FP.add_fin_val binary64 false mt m et e
    obtain ⟨md, ed, hden, hdc, hd1, hd65⟩ := FP.round_between binary64 binary64_valid
      false N2 m (2 ^ 52) c2 e 13 hrc
      (FP.canonical_pow 13 (by decide) (by decide))
      (by rw [hdv]; linarith [FP.val_nonneg mt et])
      (by rw [FP.val_two_pow, hdv]; norm_num; linarith)
    rw [FP.val_two_pow] at hd65
    norm_num at hd65
    have hmd0 : md ≠ 0 := FP.val_ne_zero_of_pos (lt_of_lt_of_le (by linarith) hd1)
    -- the ratio
    obtain ⟨N3, c3, hq, hqlo, hqhi⟩ := FP.div_fin_val binary64
      (decide (FP.val mx ex < FP.val my ey)) false m md e ed hm0 hmd0
    have hq1 : FP.val N3 c3 ≤ 1 := by
      have := hqhi hd1 (2 ^ 52) (-52) (by decide) (by rw [FP.val_one]; linarith)
      rwa [FP.val_one] at this
    have hqlow : (2 : ℚ) ^ (-66 : Int) ≤ FP.val N3 c3 := by
      have hpos : 0 ≤ FP.val N3 c3 := FP.val_nonneg _ _
      have h2 : FP.val N3 c3 * (2 * FP.val md ed) ≤ FP.val N3 c3 * (2 * 2 ^ 65) :=
        mul_le_mul_of_nonneg_left (by linarith) hpos
      have h3 : (1 : ℚ) ≤ FP.val N3 c3 * (2 * 2 ^ 65) := by linarith
      have h4 : (2 : ℚ) ^ (-66 : Int) * (2 * 2 ^ 65) = 1 := by norm_num
      have h5 : (0 : ℚ) < 2 * 2 ^ 65 := by norm_num
      rw [← h4] at h3
      exact le_of_mul_le_mul_right h3 h5
    obtain ⟨mq, eq, hrat, _, hql, hqu⟩ := FP.round_between binary64 binary64_valid
      (decide (FP.val mx ex < FP.val my ey) != false) N3 (2 ^ 52) (2 ^ 52) c3 (-118) (-52)
      (FP.canonical_pow (-118) (by decide) (by decide)) hone
      (by rw [FP.val_two_pow]; norm_num; norm_num at hqlow; exact hqlow)
      (by rw [FP.val_one]; exact hq1)
    rw [FP.val_two_pow] at hql
    rw [FP.val_one] at hqu
    -- the product
    have hpv := FP.val_mul m mq e eq
    obtain ⟨m2, e2, hsh, _, hsl, hsu⟩ := FP.round_between binary64 binary64_valid
      (decide (FP.val mx ex < FP.val my ey) != false) (m * mq) (2 ^ 52) m (e + eq) (-118) e
      (FP.canonical_pow (-118) (by decide) (by decide)) hrc
      (by
        rw [FP.val_two_pow, hpv]
        have : (1 : ℚ) * (2 : ℚ) ^ (52 + (-118) : Int) ≤ FP.val m e * FP.val mq eq :=
          mul_le_mul hr1 hql (le_of_lt (FP.two_zpow_pos _)) (by linarith)
        linarith)
      (by
        rw [hpv]
        have : FP.val m e * FP.val mq eq ≤ FP.val m e * 1 :=
          mul_le_mul_of_nonneg_left hqu (FP.val_nonneg _ _)
        linarith)
    have hm20 : m2 ≠ 0 := FP.val_ne_zero_of_pos
      (lt_of_lt_of_le (FP.val_pos _ _ (by decide)) hsl)
    have hdeneq : FP.add binary64 (FP.fin false mt et)
        (FP.abs (FP.fin (decide (FP.val mx ex < FP.val my ey)) m e)) = FP.fin false md ed := by
      rw [FP.abs, hd, hden]
    have hshape : FP.mul binary64 (FP.fin (decide (FP.val mx ex < FP.val my ey)) m e)
        (FP.abs (FP.div binary64 (FP.fin (decide (FP.val mx ex < FP.val my ey)) m e)
          (FP.fin false md ed)))
        = FP.fin (decide (FP.val mx ex < FP.val my ey)) m2 e2 := by
      rw [hq, hrat, FP.abs, (FP.mul_fin_val _ _ _ _ _ _ _).1]
      simpa using hsh
    have hnorm : 2 ^ 52 ≤ m ∧ -1074 < e := by
      have hlt := FP.val_lt_zpow m 53 e hrc.1
      have h0 : (2 : ℚ) ^ (0 : Int) < (2 : ℚ) ^ (((53 : Nat) : Int) + e) := by
        rw [zpow_zero]
        exact lt_of_le_of_lt hr1 hlt
      have he := FP.zpow_lt_zpow _ _ h0
      have hmin : binary64.emin = -1074 := rfl
      rcases hrc.2.2.2 with h | h
      · exact ⟨h, by push_cast at he; omega⟩
      · rw [hmin] at h
        push_cast at he
        omega
    have h53 : (2 : Nat) ^ 53 = 9007199254740992 := by decide
    have h52 : (2 : Nat) ^ 52 = 4503599627370496 := by decide
    have hm53 : m < 9007199254740992 := by
      have := hrc.1
      rw [show (2 : Nat) ^ binary64.prec = 2 ^ 53 from rfl, h53] at this
      exact this
    have hm52 : 4503599627370496 ≤ m := by
      have := hnorm.1
      rwa [h52] at this
    refine ⟨md, ed, m2, e2, hdeneq, hshape,
      ⟨fun h => absurd h hm20, fun h => absurd h hm0⟩, hsu, fun _ => ⟨?_, ?_⟩, ?_⟩
    · -- a strictly smaller shaped error needs a denominator above the raw error
      intro hstrict
      by_contra hcon
      have heq : FP.val md ed = FP.val m e := le_antisymm (not_lt.1 hcon) hd1
      obtain ⟨hme, hee⟩ := FP.canonical_val_inj binary64 binary64_valid m md e ed hrc hnorm.1
        hdc heq
      subst hme hee
      rw [FP.div_abs_self _ md ed hm0, FP.abs, FP.mul_one_fin _ md ed hm0 hrc] at hshape
      simp only [FP.fin.injEq, true_and] at hshape
      rw [← hshape.1, ← hshape.2] at hstrict
      exact lt_irrefl _ hstrict
    · -- a denominator above the raw error makes the ratio at most `1 - 2^-53`
      intro hlt
      have hsucc := FP.canonical_succ_le binary64 binary64_valid m md e ed hrc hnorm.1 hdc hlt
      have hu : FP.val (2 ^ 53 - 1) (-53) = 1 - 1 / 9007199254740992 := by
        unfold FP.val
        norm_num
      have hq53 : FP.val N3 c3 ≤ FP.val (2 ^ 53 - 1) (-53) := by
        apply hqhi hd1 (2 ^ 53 - 1) (-53) (by decide)
        rw [hu]
        have hmq : (m : ℚ) + 1 ≤ 9007199254740992 := by exact_mod_cast hm53
        have hpos := FP.two_zpow_pos e
        have h1 : FP.val (m + 1) e * (1 - 1 / 9007199254740992)
            ≤ FP.val md ed * (1 - 1 / 9007199254740992) :=
          mul_le_mul_of_nonneg_right hsucc (by norm_num)
        have h2 : FP.val m e ≤ FP.val (m + 1) e * (1 - 1 / 9007199254740992) := by
          unfold FP.val
          push_cast
          have h3 : 0 ≤ (2 : ℚ) ^ e * (1 - ((m : ℚ) + 1) * (1 / 9007199254740992)) :=
            mul_nonneg (le_of_lt hpos) (by linarith)
          have h4 : ((m : ℚ) + 1) * 2 ^ e * (1 - 1 / 9007199254740992)
              = (m : ℚ) * 2 ^ e + 2 ^ e * (1 - ((m : ℚ) + 1) * (1 / 9007199254740992)) := by
            ring
          rw [h4]
          linarith
        exact le_trans h2 h1
      have hcq : FP.Canonical binary64 (FP.fin false (2 ^ 53 - 1) (-53)) :=
        ⟨by decide, by decide, by decide, Or.inl (by decide)⟩
      have hqv : FP.val mq eq ≤ FP.val (2 ^ 53 - 1) (-53) :=
        FP.round_val_le binary64 _ N3 _ mq c3 _ eq hcq hq53 hrat
      have hprod : FP.val (m * mq) (e + eq) ≤ FP.val (m * (2 ^ 53 - 1)) (e + -53) := by
        rw [hpv, FP.val_mul]
        exact mul_le_mul_of_nonneg_left hqv (FP.val_nonneg _ _)
      have hexp : e + -53 = e - 1 - ((52 : Nat) : Int) := by push_cast; ring
      rcases Nat.lt_or_ge 4503599627370496 m with hgt | hle
      · -- below the midpoint of the raw error and its predecessor
        have hmid : FP.val (m * mq) (e + eq) < FP.val (2 * m - 1) (e - 1) := by
          refine lt_of_le_of_lt hprod ?_
          rw [← FP.val_scale (2 * m - 1) 52 (e - 1), hexp, FP.val_lt_val_iff, h53, h52]
          omega
        have hb := FP.round_below_mid binary64 binary64_valid _ (m * mq) m m2 (e + eq) e e2
          hrc (by rw [show (2 : Nat) ^ (binary64.prec - 1) = 2 ^ 52 from rfl, h52]; exact hgt)
          hmid hsh
        exact lt_of_le_of_lt hb ((FP.val_lt_val_iff _ _ _).2 (by omega))
      · -- the raw error is a power of two: its predecessor bounds the product
        have hm : m = 4503599627370496 := le_antisymm hle hm52
        have hcp : FP.Canonical binary64 (FP.fin false (2 ^ 53 - 1) (e - 1)) := by
          have hmin : binary64.emin = -1074 := rfl
          have hmax : binary64.emax = 971 := rfl
          have := hrc.2.2.1
          refine ⟨by decide, ?_, ?_, Or.inl (by decide)⟩
          · rw [hmin]; omega
          · rw [hmax] at this ⊢; omega
        have hbound : FP.val (m * mq) (e + eq) ≤ FP.val (2 ^ 53 - 1) (e - 1) := by
          refine le_trans hprod ?_
          rw [← FP.val_scale (2 ^ 53 - 1) 52 (e - 1), hexp, FP.val_le_val_iff, hm]
          decide
        have hb := FP.round_val_le binary64 _ (m * mq) _ m2 (e + eq) _ e2 hcp hbound hsh
        refine lt_of_le_of_lt hb ?_
        rw [← FP.val_scale m 1 e, show e - ((1 : Nat) : Int) = e - 1 from by push_cast; ring,
          FP.val_lt_val_iff, hm]
        decide
    · -- below `2^53` the raw error is exact and the tolerance is not absorbed
      intro hX53 hY53 _
      obtain ⟨d, hd0, hd1n, hd53⟩ : ∃ d : Nat, |(X : ℚ) - Y| = d ∧ 1 ≤ d ∧ d < 2 ^ 53 := by
        rcases Nat.lt_or_gt_of_ne hXY with h | h
        · refine ⟨Y - X, ?_, by omega, by omega⟩
          rw [Nat.cast_sub (Nat.le_of_lt h), abs_of_neg (by
            have : (X : ℚ) < Y := by exact_mod_cast h
            linarith)]
          ring
        · refine ⟨X - Y, ?_, by omega, by omega⟩
          rw [Nat.cast_sub (Nat.le_of_lt h), abs_of_pos (by
            have : (Y : ℚ) < X := by exact_mod_cast h
            linarith)]
      have hNd : FP.val N c = d := by rw [hv, hX, hY, hd0]
      have hme : FP.val m e = d := by
        obtain ⟨mr, er, hrc2, hrv⟩ := FP.nat_repr d hd53
        rw [← hNd]
        exact FP.round_val_exact binary64 binary64_valid _ N mr m c er e hrc2
          (by rw [hNd, hrv]) hraw
      have he0 : e ≤ 0 := by
        have h1 := FP.zpow_le_val m 52 e hnorm.1
        have h2 : FP.val m e < (2 : ℚ) ^ ((53 : Int)) := by
          rw [hme]
          norm_num
          rw [h53] at hd53
          exact hd53
        have := FP.zpow_lt_zpow _ _ (lt_of_le_of_lt h1 h2)
        push_cast at this
        omega
      obtain ⟨ms, es, hsc, hsv⟩ := FP.succ_canonical m e hrc hnorm.1 (by omega)
      have hone_e : FP.val 1 e ≤ 1 := by
        have h1 := FP.val_shift 1 0 e he0
        have h2 : FP.val 1 0 = 1 := by unfold FP.val; simp
        rw [← h2, ← h1]
        exact (FP.val_le_val_iff _ _ _).2 (by
          have := Nat.two_pow_pos (0 - e).toNat
          omega)
      have hge : FP.val ms es ≤ FP.val N2 c2 := by
        rw [hsv, hdv, FP.val_add]
        linarith
      rcases FP.round_ge_repr binary64 false N2 ms c2 es hsc hge with h | ⟨m3, e3, h, hv3⟩
      · rw [hden] at h; exact absurd h (by simp)
      · rw [hden] at h
        simp only [FP.fin.injEq, true_and] at h
        rw [h.1, h.2]
        refine lt_of_lt_of_le ?_ (hsv ▸ hv3)
        exact (FP.val_lt_val_iff _ _ _).2 (by omega)

/-- The conversion of an integer below `2^53` has the integer as its value. -/
theorem FP.ofNat_val_exact (n m : Nat) (e : Int) (h : n < 2 ^ 53)
    (hr : FP.ofNat binary64 n = FP.fin false m e) : FP.val m e = n := by
  obtain ⟨mr, er, hc, hv⟩ := FP.nat_repr n h
  have hn : FP.val n 0 = n := by unfold FP.val; simp
  rw [← hn]
  exact FP.round_val_exact binary64 binary64_valid false n mr m 0 er e hc (by rw [hn, hv]) hr

/-! ## Decoding and the shape of one call -/

theorem readSamples_length (n : Nat) (l : List Byte) : (readSamples n l).length = n := by
  induction n generalizing l with
  | zero => simp [readSamples]
  | succ n ih =>
    match l with
    | [] => simp [readSamples]
    | [_] => simp [readSamples]
    | [_, _] => simp [readSamples]
    | [_, _, _] => simp [readSamples]
    | _ :: _ :: _ :: _ :: rest => simp [readSamples, ih]

theorem decodeSamples_length (inp : List Byte) :
    (decodeSamples inp).length = inp.length / 4 := by
  simp [decodeSamples, readSamples_length]

theorem noteLatency_frame (r : Resampler) (latency : Nat) :
    (noteLatency r latency).latencyTarget = r.latencyTarget ∧
    (noteLatency r latency).tolerance = r.tolerance ∧
    (noteLatency r latency).latHist = r.latHist ∧
    (noteLatency r latency).histIndex = r.histIndex ∧
    (noteLatency r latency).wrapped = r.wrapped ∧
    (noteLatency r latency).accum = r.accum ∧
    (noteLatency r latency).dropped = r.dropped ∧
    (noteLatency r latency).padded = r.padded ∧
    (noteLatency r latency).lastSample = r.lastSample ∧
    (noteLatency r latency).holdoff = r.holdoff ∧
    (noteLatency r latency).Fast = r.Fast := by
  unfold noteLatency
  simp only []
  split_ifs <;> simp

@[simp] theorem noteLatency_latencyTarget (r : Resampler) (l : Nat) :
    (noteLatency r l).latencyTarget = r.latencyTarget := (noteLatency_frame r l).1

@[simp] theorem noteLatency_tolerance (r : Resampler) (l : Nat) :
    (noteLatency r l).tolerance = r.tolerance := (noteLatency_frame r l).2.1

@[simp] theorem noteLatency_latHist (r : Resampler) (l : Nat) :
    (noteLatency r l).latHist = r.latHist := (noteLatency_frame r l).2.2.1

@[simp] theorem noteLatency_histIndex (r : Resampler) (l : Nat) :
    (noteLatency r l).histIndex = r.histIndex := (noteLatency_frame r l).2.2.2.1

@[simp] theorem noteLatency_wrapped (r : Resampler) (l : Nat) :
    (noteLatency r l).wrapped = r.wrapped := (noteLatency_frame r l).2.2.2.2.1

@[simp] theorem noteLatency_accum (r : Resampler) (l : Nat) :
    (noteLatency r l).accum = r.accum := (noteLatency_frame r l).2.2.2.2.2.1

@[simp] theorem noteLatency_dropped (r : Resampler) (l : Nat) :
    (noteLatency r l).dropped = r.dropped := (noteLatency_frame r l).2.2.2.2.2.2.1

@[simp] theorem noteLatency_padded (r : Resampler) (l : Nat) :
    (noteLatency r l).padded = r.padded := (noteLatency_frame r l).2.2.2.2.2.2.2.1

@[simp] theorem noteLatency_lastSample (r : Resampler) (l : Nat) :
    (noteLatency r l).lastSample = r.lastSample := (noteLatency_frame r l).2.2.2.2.2.2.2.2.1

@[simp] theorem noteLatency_holdoff (r : Resampler) (l : Nat) :
    (noteLatency r l).holdoff = r.holdoff := (noteLatency_frame r l).2.2.2.2.2.2.2.2.2.1

@[simp] theorem noteLatency_Fast (r : Resampler) (l : Nat) :
    (noteLatency r l).Fast = r.Fast := (noteLatency_frame r l).2.2.2.2.2.2.2.2.2.2

@[simp] theorem integrated_noteLatency (r : Resampler) (l k : Nat) :
    integrated (noteLatency r l) k = integrated r k := by
  simp [integrated, shapedError]

@[simp] theorem upperThreshold_noteLatency (r : Resampler) (l : Nat) :
    upperThreshold (noteLatency r l) = upperThreshold r := by
  simp [upperThreshold]

@[simp] theorem lowerThreshold_noteLatency (r : Resampler) (l : Nat) :
    lowerThreshold (noteLatency r l) = lowerThreshold r := by
  simp [lowerThreshold]

@[simp] theorem discharge_noteLatency (r : Resampler) (l : Nat) :
    discharge (noteLatency r l) = discharge r := by
  simp [discharge]

theorem leakAndReturn_nil (r : Resampler) :
    leakAndReturn r [] = ({ r with accum := FP.mul binary64 r.accum leakFactor }, none) := by
  simp [leakAndReturn]

theorem leakAndReturn_cons (r : Resampler) (s : F32) (out : List F32) :
    leakAndReturn r (s :: out) =
      ({ r with accum := FP.mul binary64 r.accum leakFactor
                lastSample := (s :: out).getLast (List.cons_ne_nil s out) },
        some (s :: out)) := by
  simp [leakAndReturn, List.getLast?_eq_getLast]

/-- The call made while `holdoff` is positive: no correction, `holdoff` counts down. -/
theorem ResamplePacket_holdoff (r : Resampler) (inp : List Byte) (latency : Nat)
    (h : 0 < r.holdoff) :
    ResamplePacket r inp latency =
      leakAndReturn { noteLatency r latency with
        accum := integrated r latency, holdoff := r.holdoff - 1 } (decodeSamples inp) := by
  simp [ResamplePacket, h]

/-- The call that drops: `holdoff` is not positive and the integrated accumulator exceeds
the upper threshold. -/
theorem ResamplePacket_drop (r : Resampler) (inp : List Byte) (latency : Nat)
    (first : F32) (rest : List F32)
    (h : ¬ 0 < r.holdoff) (hup : FP.gt (integrated r latency) (upperThreshold r) = true)
    (hdec : decodeSamples inp = first :: rest) :
    ResamplePacket r inp latency =
      leakAndReturn { noteLatency r latency with
        dropped := r.dropped + 1
        accum := FP.sub binary64 (integrated r latency) (discharge r)
        holdoff := 10 } rest := by
  simp only [upperThreshold, discharge] at hup ⊢
  simp [ResamplePacket, h, hup, hdec, upperThreshold, discharge]

/-- The call that interpolates: `holdoff` is not positive and the integrated accumulator is
below the lower threshold, and not above the upper one. -/
theorem ResamplePacket_interpolate (r : Resampler) (inp : List Byte) (latency : Nat)
    (first : F32) (rest : List F32)
    (h : ¬ 0 < r.holdoff) (hup : FP.gt (integrated r latency) (upperThreshold r) = false)
    (hlow : FP.lt (integrated r latency) (lowerThreshold r) = true)
    (hdec : decodeSamples inp = first :: rest) :
    ResamplePacket r inp latency =
      leakAndReturn { noteLatency r latency with
        padded := r.padded + 1
        accum := FP.add binary64 (integrated r latency) (discharge r)
        holdoff := 10 } (interpolateSample r.lastSample first :: first :: rest) := by
  simp only [upperThreshold, lowerThreshold, discharge] at hup hlow ⊢
  simp [ResamplePacket, h, hup, hlow, hdec, upperThreshold, lowerThreshold, discharge]

/-- The call that passes the packet through with `holdoff` not positive. -/
theorem ResamplePacket_pass (r : Resampler) (inp : List Byte) (latency : Nat)
    (h : ¬ 0 < r.holdoff) (hup : FP.gt (integrated r latency) (upperThreshold r) = false)
    (hlow : FP.lt (integrated r latency) (lowerThreshold r) = false) :
    ResamplePacket r inp latency =
      leakAndReturn { noteLatency r latency with accum := integrated r latency }
        (decodeSamples inp) := by
  simp only [upperThreshold, lowerThreshold] at hup hlow
  simp [ResamplePacket, h, hup, hlow, upperThreshold, lowerThreshold]

/-- A call on a packet with no decoded sample panics in every branch. -/
theorem ResamplePacket_empty (r : Resampler) (inp : List Byte) (latency : Nat)
    (hdec : decodeSamples inp = []) : (ResamplePacket r inp latency).2 = none := by
  unfold ResamplePacket
  simp only [hdec]
  split_ifs <;> simp [leakAndReturn]

theorem ResamplePacket_drop_empty (r : Resampler) (inp : List Byte) (latency : Nat)
    (h : ¬ 0 < r.holdoff) (hup : FP.gt (integrated r latency) (upperThreshold r) = true)
    (hdec : decodeSamples inp = []) :
    ResamplePacket r inp latency =
      ({ noteLatency r latency with accum := integrated r latency }, none) := by
  simp only [upperThreshold] at hup
  simp [ResamplePacket, h, hup, hdec, upperThreshold]

theorem ResamplePacket_interpolate_empty (r : Resampler) (inp : List Byte) (latency : Nat)
    (h : ¬ 0 < r.holdoff) (hup : FP.gt (integrated r latency) (upperThreshold r) = false)
    (hlow : FP.lt (integrated r latency) (lowerThreshold r) = true)
    (hdec : decodeSamples inp = []) :
    ResamplePacket r inp latency =
      ({ noteLatency r latency with accum := integrated r latency }, none) := by
  simp only [upperThreshold, lowerThreshold] at hup hlow
  simp [ResamplePacket, h, hup, hlow, hdec, upperThreshold, lowerThreshold]

theorem leakAndReturn_frame (r : Resampler) (out : List F32) :
    (leakAndReturn r out).1.holdoff = r.holdoff ∧
    (leakAndReturn r out).1.dropped = r.dropped ∧
    (leakAndReturn r out).1.padded = r.padded ∧
    (leakAndReturn r out).1.accum = FP.mul binary64 r.accum leakFactor ∧
    (leakAndReturn r out).1.minLatency = r.minLatency ∧
    (leakAndReturn r out).1.maxLatency = r.maxLatency ∧
    (leakAndReturn r out).1.latencyTarget = r.latencyTarget ∧
    (leakAndReturn r out).1.tolerance = r.tolerance ∧
    (leakAndReturn r out).1.latHist = r.latHist ∧
    (leakAndReturn r out).1.histIndex = r.histIndex ∧
    (leakAndReturn r out).1.wrapped = r.wrapped ∧
    (leakAndReturn r out).1.Fast = r.Fast := by
  unfold leakAndReturn
  cases out.getLast? <;> simp

@[simp] theorem leakAndReturn_holdoff (r : Resampler) (out : List F32) :
    (leakAndReturn r out).1.holdoff = r.holdoff := (leakAndReturn_frame r out).1

@[simp] theorem leakAndReturn_dropped (r : Resampler) (out : List F32) :
    (leakAndReturn r out).1.dropped = r.dropped := (leakAndReturn_frame r out).2.1

@[simp] theorem leakAndReturn_padded (r : Resampler) (out : List F32) :
    (leakAndReturn r out).1.padded = r.padded := (leakAndReturn_frame r out).2.2.1

@[simp] theorem leakAndReturn_accum (r : Resampler) (out : List F32) :
    (leakAndReturn r out).1.accum = FP.mul binary64 r.accum leakFactor :=
  (leakAndReturn_frame r out).2.2.2.1

@[simp] theorem leakAndReturn_minLatency (r : Resampler) (out : List F32) :
    (leakAndReturn r out).1.minLatency = r.minLatency := (leakAndReturn_frame r out).2.2.2.2.1

@[simp] theorem leakAndReturn_maxLatency (r : Resampler) (out : List F32) :
    (leakAndReturn r out).1.maxLatency = r.maxLatency := (leakAndReturn_frame r out).2.2.2.2.2.1

@[simp] theorem leakAndReturn_latencyTarget (r : Resampler) (out : List F32) :
    (leakAndReturn r out).1.latencyTarget = r.latencyTarget :=
  (leakAndReturn_frame r out).2.2.2.2.2.2.1

@[simp] theorem leakAndReturn_tolerance (r : Resampler) (out : List F32) :
    (leakAndReturn r out).1.tolerance = r.tolerance :=
  (leakAndReturn_frame r out).2.2.2.2.2.2.2.1

@[simp] theorem leakAndReturn_latHist (r : Resampler) (out : List F32) :
    (leakAndReturn r out).1.latHist = r.latHist :=
  (leakAndReturn_frame r out).2.2.2.2.2.2.2.2.1

@[simp] theorem leakAndReturn_histIndex (r : Resampler) (out : List F32) :
    (leakAndReturn r out).1.histIndex = r.histIndex :=
  (leakAndReturn_frame r out).2.2.2.2.2.2.2.2.2.1

@[simp] theorem leakAndReturn_wrapped (r : Resampler) (out : List F32) :
    (leakAndReturn r out).1.wrapped = r.wrapped :=
  (leakAndReturn_frame r out).2.2.2.2.2.2.2.2.2.2.1

@[simp] theorem leakAndReturn_Fast (r : Resampler) (out : List F32) :
    (leakAndReturn r out).1.Fast = r.Fast :=
  (leakAndReturn_frame r out).2.2.2.2.2.2.2.2.2.2.2

theorem leakAndReturn_snd (r : Resampler) (out : List F32) (h : out ≠ []) :
    (leakAndReturn r out).2 = some out := by
  cases out with
  | nil => exact absurd rfl h
  | cons s rest => rw [leakAndReturn_cons]

theorem leakAndReturn_snd_nil (r : Resampler) : (leakAndReturn r []).2 = none := by
  rw [leakAndReturn_nil]

/-- The branch a call takes. -/
inductive Branch where
  | holdoff : Branch
  | drop : Branch
  | interpolate : Branch
  | pass : Branch
deriving DecidableEq

/-- The branch of lines 56-69 that `ResamplePacket` takes on a state and a latency. -/
def branchOf (r : Resampler) (latency : Nat) : Branch :=
  if 0 < r.holdoff then Branch.holdoff
  else if FP.gt (integrated r latency) (upperThreshold r) then Branch.drop
  else if FP.lt (integrated r latency) (lowerThreshold r) then Branch.interpolate
  else Branch.pass

/-- The counters and the accumulator after a call, branch by branch, whether the call
returns or panics. -/
theorem ResamplePacket_state (r : Resampler) (inp : List Byte) (latency : Nat) :
    (branchOf r latency = Branch.holdoff ∧
      (ResamplePacket r inp latency).1.holdoff = r.holdoff - 1 ∧
      (ResamplePacket r inp latency).1.dropped = r.dropped ∧
      (ResamplePacket r inp latency).1.padded = r.padded ∧
      (ResamplePacket r inp latency).1.accum =
        FP.mul binary64 (integrated r latency) leakFactor) ∨
    (branchOf r latency = Branch.drop ∧ decodeSamples inp ≠ [] ∧
      (ResamplePacket r inp latency).1.holdoff = 10 ∧
      (ResamplePacket r inp latency).1.dropped = r.dropped + 1 ∧
      (ResamplePacket r inp latency).1.padded = r.padded ∧
      (ResamplePacket r inp latency).1.accum =
        FP.mul binary64 (FP.sub binary64 (integrated r latency) (discharge r)) leakFactor) ∨
    (branchOf r latency = Branch.interpolate ∧ decodeSamples inp ≠ [] ∧
      (ResamplePacket r inp latency).1.holdoff = 10 ∧
      (ResamplePacket r inp latency).1.dropped = r.dropped ∧
      (ResamplePacket r inp latency).1.padded = r.padded + 1 ∧
      (ResamplePacket r inp latency).1.accum =
        FP.mul binary64 (FP.add binary64 (integrated r latency) (discharge r)) leakFactor) ∨
    (branchOf r latency = Branch.pass ∧
      (ResamplePacket r inp latency).1.holdoff = r.holdoff ∧
      (ResamplePacket r inp latency).1.dropped = r.dropped ∧
      (ResamplePacket r inp latency).1.padded = r.padded ∧
      (ResamplePacket r inp latency).1.accum =
        FP.mul binary64 (integrated r latency) leakFactor) ∨
    ((branchOf r latency = Branch.drop ∨ branchOf r latency = Branch.interpolate) ∧
      decodeSamples inp = [] ∧
      (ResamplePacket r inp latency).1.holdoff = r.holdoff ∧
      (ResamplePacket r inp latency).1.dropped = r.dropped ∧
      (ResamplePacket r inp latency).1.padded = r.padded ∧
      (ResamplePacket r inp latency).1.accum = integrated r latency) := by
  by_cases h : 0 < r.holdoff
  · left
    rw [ResamplePacket_holdoff r inp latency h]
    simp [branchOf, h]
  · cases hup : FP.gt (integrated r latency) (upperThreshold r) with
    | true =>
      cases hdec : decodeSamples inp with
      | nil =>
        right; right; right; right
        rw [ResamplePacket_drop_empty r inp latency h hup hdec]
        simp [branchOf, h, hup]
      | cons a rest =>
        right; left
        rw [ResamplePacket_drop r inp latency a rest h hup hdec]
        simp [branchOf, h, hup]
    | false =>
      cases hlow : FP.lt (integrated r latency) (lowerThreshold r) with
      | true =>
        cases hdec : decodeSamples inp with
        | nil =>
          right; right; right; right
          rw [ResamplePacket_interpolate_empty r inp latency h hup hlow hdec]
          simp [branchOf, h, hup, hlow]
        | cons a rest =>
          right; right; left
          rw [ResamplePacket_interpolate r inp latency a rest h hup hlow hdec]
          simp [branchOf, h, hup, hlow]
      | false =>
        right; right; right; left
        rw [ResamplePacket_pass r inp latency h hup hlow]
        simp [branchOf, h, hup, hlow]

theorem Stats_frame (r : Resampler) (latency : Nat) :
    (Stats r latency).1.accum = r.accum ∧
    (Stats r latency).1.holdoff = r.holdoff ∧
    (Stats r latency).1.lastSample = r.lastSample ∧
    (Stats r latency).1.latencyTarget = r.latencyTarget ∧
    (Stats r latency).1.tolerance = r.tolerance ∧
    (Stats r latency).1.Fast = r.Fast ∧
    (Stats r latency).1.latHist = r.latHist.set r.histIndex latency ∧
    (Stats r latency).1.histIndex = (r.histIndex + 1) % 60 := by
  unfold Stats
  simp only []
  split_ifs <;> simp

/-! ## Holdoff (C2) -/

/-- While `holdoff` covers the `ResamplePacket` calls of a sequence of calls, each of them
counts it down by one and `Stats` leaves it alone. -/
theorem run_holdoff (cs : List Call) (r : Resampler)
    (h : (packetCount cs : Int) ≤ r.holdoff) :
    (run r cs).holdoff = r.holdoff - packetCount cs := by
  induction cs generalizing r with
  | nil => simp [run, packetCount]
  | cons c cs ih =>
    cases c with
    | packet inp latency =>
      simp only [packetCount, Nat.cast_add, Nat.cast_one] at h
      have hpos : 0 < r.holdoff := by omega
      have hstep : (step r (Call.packet inp latency)).holdoff = r.holdoff - 1 := by
        simp [step, ResamplePacket_holdoff r inp latency hpos]
      simp only [run, packetCount, Nat.cast_add, Nat.cast_one]
      rw [ih _ (by rw [hstep]; omega), hstep]
      omega
    | stats latency =>
      simp only [packetCount] at h
      have hstep : (step r (Call.stats latency)).holdoff = r.holdoff := by
        simp [step, (Stats_frame r latency).2.1]
      simp only [run, packetCount]
      rw [ih _ (by rw [hstep]; exact h), hstep]

/-- C2. After a `ResamplePacket` call that performs a drop or an interpolation (it changes
`dropped` or `padded`), let any calls follow, of which fewer than 10 are `ResamplePacket`
calls (`Stats` calls may be interleaved): the next `ResamplePacket` call, on a packet with
at least one decoded sample, returns exactly the decoded samples and leaves `dropped` and
`padded` as they are, whatever the latencies and the value of the accumulator. -/
theorem holdoff_after_correction (r : Resampler) (inp : List Byte) (latency : Nat)
    (hcorr : (ResamplePacket r inp latency).1.dropped ≠ r.dropped ∨
             (ResamplePacket r inp latency).1.padded ≠ r.padded)
    (between : List Call) (hcount : packetCount between < 10)
    (inp2 : List Byte) (latency2 : Nat) (hne : decodeSamples inp2 ≠ []) :
    (ResamplePacket (run (ResamplePacket r inp latency).1 between) inp2 latency2).2
        = some (decodeSamples inp2) ∧
    (ResamplePacket (run (ResamplePacket r inp latency).1 between) inp2 latency2).1.dropped
        = (run (ResamplePacket r inp latency).1 between).dropped ∧
    (ResamplePacket (run (ResamplePacket r inp latency).1 between) inp2 latency2).1.padded
        = (run (ResamplePacket r inp latency).1 between).padded := by
  have h10 : (ResamplePacket r inp latency).1.holdoff = 10 := by
    rcases ResamplePacket_state r inp latency with h | h | h | h | h
    · rcases hcorr with hc | hc
      · exact absurd h.2.2.1 hc
      · exact absurd h.2.2.2.1 hc
    · exact h.2.2.1
    · exact h.2.2.1
    · rcases hcorr with hc | hc
      · exact absurd h.2.2.1 hc
      · exact absurd h.2.2.2.1 hc
    · rcases hcorr with hc | hc
      · exact absurd h.2.2.2.1 hc
      · exact absurd h.2.2.2.2.1 hc
  have hrun := run_holdoff between (ResamplePacket r inp latency).1 (by rw [h10]; omega)
  have hpos : 0 < (run (ResamplePacket r inp latency).1 between).holdoff := by
    rw [hrun, h10]; omega
  rw [ResamplePacket_holdoff _ inp2 latency2 hpos]
  exact ⟨leakAndReturn_snd _ _ hne, by simp, by simp⟩

set_option maxRecDepth 100000 in
set_option exponentiation.threshold 5000 in
theorem holdoff_after_correction_witness :
    (ResamplePacket (run (ResamplePacket (NewResampler 1000 50) twoSamples 20000).1
        (List.replicate 9 (Call.packet twoSamples 20000) ++ [Call.stats 20000]))
        twoSamples 20000).2 = some (decodeSamples twoSamples) ∧
    (ResamplePacket (run (ResamplePacket (NewResampler 1000 50) twoSamples 20000).1
        (List.replicate 9 (Call.packet twoSamples 20000) ++ [Call.stats 20000]))
        twoSamples 20000).1.dropped
      = (run (ResamplePacket (NewResampler 1000 50) twoSamples 20000).1
        (List.replicate 9 (Call.packet twoSamples 20000) ++ [Call.stats 20000])).dropped ∧
    (ResamplePacket (run (ResamplePacket (NewResampler 1000 50) twoSamples 20000).1
        (List.replicate 9 (Call.packet twoSamples 20000) ++ [Call.stats 20000]))
        twoSamples 20000).1.padded
      = (run (ResamplePacket (NewResampler 1000 50) twoSamples 20000).1
        (List.replicate 9 (Call.packet twoSamples 20000) ++ [Call.stats 20000])).padded :=
  holdoff_after_correction (NewResampler 1000 50) twoSamples 20000 (by decide)
    (List.replicate 9 (Call.packet twoSamples 20000) ++ [Call.stats 20000]) (by decide)
    twoSamples 20000 (by decide)

/-! ## Output length (C1) -/

/-- With at least two decoded samples the call returns, and the slice returned has one
sample less, as many, or one sample more than the packet. -/
theorem ResamplePacket_length (r : Resampler) (inp : List Byte) (latency : Nat)
    (hN : 2 ≤ (decodeSamples inp).length) :
    ∃ out, (ResamplePacket r inp latency).2 = some out ∧
      (out.length + 1 = (decodeSamples inp).length ∨
       out.length = (decodeSamples inp).length ∨
       out.length = (decodeSamples inp).length + 1) := by
  obtain ⟨a, rest, hdec⟩ : ∃ a rest, decodeSamples inp = a :: rest := by
    cases hd : decodeSamples inp with
    | nil => simp [hd] at hN
    | cons a rest => exact ⟨a, rest, rfl⟩
  obtain ⟨b, rest2, hrest⟩ : ∃ b rest2, rest = b :: rest2 := by
    cases rest with
    | nil => simp [hdec] at hN
    | cons b rest2 => exact ⟨b, rest2, rfl⟩
  by_cases h : 0 < r.holdoff
  · rw [ResamplePacket_holdoff r inp latency h, hdec, leakAndReturn_cons]
    exact ⟨_, rfl, Or.inr (Or.inl rfl)⟩
  · cases hup : FP.gt (integrated r latency) (upperThreshold r) with
    | true =>
      rw [ResamplePacket_drop r inp latency a rest h hup hdec, hrest, leakAndReturn_cons]
      exact ⟨_, rfl, Or.inl (by simp [hdec, hrest])⟩
    | false =>
      cases hlow : FP.lt (integrated r latency) (lowerThreshold r) with
      | true =>
        rw [ResamplePacket_interpolate r inp latency a rest h hup hlow hdec, leakAndReturn_cons]
        exact ⟨_, rfl, Or.inr (Or.inr (by simp [hdec]))⟩
      | false =>
        rw [ResamplePacket_pass r inp latency h hup hlow, hdec, leakAndReturn_cons]
        exact ⟨_, rfl, Or.inr (Or.inl rfl)⟩

theorem ResamplePacket_length_witness :
    ∃ out, (ResamplePacket (NewResampler 1000 50) twoSamples 1000).2 = some out ∧
      (out.length + 1 = (decodeSamples twoSamples).length ∨
       out.length = (decodeSamples twoSamples).length ∨
       out.length = (decodeSamples twoSamples).length + 1) :=
  ResamplePacket_length (NewResampler 1000 50) twoSamples 1000 (by decide)

set_option maxRecDepth 100000 in
set_option exponentiation.threshold 5000 in
/-- C1, at the failing input: a fresh `NewResampler(1000, 50)` given the one-sample packet
`3f 80 00 00` with latency 20000 takes the drop branch, and the call returns no slice (the
read of the last sample of the empty output panics), although the packet is valid with
`N = 1`. -/
theorem C1_one_sample_drop_panics :
    (decodeSamples oneSample).length = 1 ∧
    (NewResampler 1000 50).holdoff = 0 ∧
    FP.gt (integrated (NewResampler 1000 50) 20000) (upperThreshold (NewResampler 1000 50)) = true ∧
    (ResamplePacket (NewResampler 1000 50) oneSample 20000).2 = none ∧
    (ResamplePacket (NewResampler 1000 50) oneSample 20000).1.dropped = 1 := by
  decide

/-! ## The drop branch (C3) -/

/-- With `holdoff = 0`, an integrated accumulator above `12*target` and at least two decoded
samples, the call returns the decoded samples without the first one, counts one drop, sets
`holdoff` to 10 and leaves the accumulator at `(a - 11*target) * 0.9999`. -/
theorem drop_branch (r : Resampler) (inp : List Byte) (latency : Nat)
    (first second : F32) (rest : List F32)
    (h0 : r.holdoff = 0)
    (hup : FP.gt (integrated r latency) (upperThreshold r) = true)
    (hdec : decodeSamples inp = first :: second :: rest) :
    (ResamplePacket r inp latency).2 = some (second :: rest) ∧
    (second :: rest).length + 1 = (decodeSamples inp).length ∧
    (ResamplePacket r inp latency).1.dropped = r.dropped + 1 ∧
    (ResamplePacket r inp latency).1.padded = r.padded ∧
    (ResamplePacket r inp latency).1.holdoff = 10 ∧
    (ResamplePacket r inp latency).1.accum =
      FP.mul binary64 (FP.sub binary64 (integrated r latency) (discharge r)) leakFactor := by
  have h : ¬ 0 < r.holdoff := by omega
  rw [ResamplePacket_drop r inp latency first (second :: rest) h hup hdec, leakAndReturn_cons]
  simp [hdec]

set_option maxRecDepth 100000 in
set_option exponentiation.threshold 5000 in
/-- The scenario of C3 on packets of two samples: `NewResampler(1000, 50)` fed latency 5000
passes the first three packets through and drops on the fourth, the first whose integrated
accumulator exceeds `12*target`. -/
theorem drop_scenario :
    (run (NewResampler 1000 50) (List.replicate 3 (Call.packet twoSamples 5000))).dropped = 0 ∧
    (run (NewResampler 1000 50) (List.replicate 3 (Call.packet twoSamples 5000))).holdoff = 0 ∧
    FP.gt (integrated (run (NewResampler 1000 50)
        (List.replicate 3 (Call.packet twoSamples 5000))) 5000)
      (upperThreshold (NewResampler 1000 50)) = true ∧
    (ResamplePacket (run (NewResampler 1000 50)
        (List.replicate 3 (Call.packet twoSamples 5000))) twoSamples 5000).2
      = some [FP.fin true 8388608 (-24)] ∧
    (ResamplePacket (run (NewResampler 1000 50)
        (List.replicate 3 (Call.packet twoSamples 5000))) twoSamples 5000).1.dropped = 1 ∧
    (ResamplePacket (run (NewResampler 1000 50)
        (List.replicate 3 (Call.packet twoSamples 5000))) twoSamples 5000).1.holdoff = 10 := by
  decide

set_option maxRecDepth 100000 in
set_option exponentiation.threshold 5000 in
/-- C3, at the failing input: `NewResampler(1000, 50)` fed one-sample packets with latency
5000 reaches the drop branch on the fourth packet (`holdoff = 0`, integrated accumulator
above `12*target`, `N = 1`), and that call returns no slice: the drop is counted and
`holdoff` set, then reading the last sample of the empty output panics. -/
theorem C3_one_sample_drop_panics :
    (decodeSamples oneSample).length = 1 ∧
    (run (NewResampler 1000 50) (List.replicate 3 (Call.packet oneSample 5000))).holdoff = 0 ∧
    FP.gt (integrated (run (NewResampler 1000 50)
        (List.replicate 3 (Call.packet oneSample 5000))) 5000)
      (upperThreshold (NewResampler 1000 50)) = true ∧
    (ResamplePacket (run (NewResampler 1000 50)
        (List.replicate 3 (Call.packet oneSample 5000))) oneSample 5000).2 = none ∧
    (ResamplePacket (run (NewResampler 1000 50)
        (List.replicate 3 (Call.packet oneSample 5000))) oneSample 5000).1.dropped = 1 := by
  decide

/-! ## The interpolation branch (C4) -/

theorem lowerThreshold_hasSign (r : Resampler) (target : Nat)
    (hT : r.latencyTarget = FP.ofNat binary64 target) :
    lowerThreshold r = FP.nan ∨ FP.HasSign true (lowerThreshold r) := by
  have h := FP.mul_hasSign binary64 true false (FP.ofInt binary64 (-12)) r.latencyTarget
    (by simpa [FP.ofInt] using FP.round_hasSign binary64 true 12 0) (hT ▸ FP.ofNat_hasSign binary64 target)
  exact h

theorem upperThreshold_hasSign (r : Resampler) (target : Nat)
    (hT : r.latencyTarget = FP.ofNat binary64 target) :
    upperThreshold r = FP.nan ∨ FP.HasSign false (upperThreshold r) := by
  have h := FP.mul_hasSign binary64 false false (FP.ofNat binary64 12) r.latencyTarget
    (FP.ofNat_hasSign binary64 12) (hT ▸ FP.ofNat_hasSign binary64 target)
  exact h

/-- An accumulator below the lower threshold is not above the upper one, the target being
the conversion of an unsigned integer. -/
theorem below_lower_not_above_upper (r : Resampler) (target : Nat) (a : F64)
    (hT : r.latencyTarget = FP.ofNat binary64 target)
    (hlow : FP.lt a (lowerThreshold r) = true) : FP.gt a (upperThreshold r) = false := by
  rcases lowerThreshold_hasSign r target hT with hl | hl
  · rw [hl] at hlow
    cases a <;> simp [FP.lt] at hlow
  · rcases upperThreshold_hasSign r target hT with hu | hu
    · rw [hu]
      cases a <;> simp [FP.gt, FP.lt]
    · exact FP.lt_neg_not_gt_pos a _ _ hl hu hlow

/-- C4. In a state with `holdoff = 0` whose target is the conversion of an unsigned integer
(as `NewResampler` sets it), on a packet of `N >= 1` decoded samples whose integrated
accumulator `a = accum + shapedError` is below `-12*target`, `ResamplePacket` returns
`(lastSample + first) / 2` followed by the `N` decoded samples in order (`N + 1` samples),
counts one pad, leaves `dropped`, sets `holdoff` to 10 and leaves the accumulator at
`(a + 11*target) * 0.9999`; and `lastSample` of a fresh controller is 0. -/
theorem interpolate_branch (r : Resampler) (target : Nat) (inp : List Byte) (latency : Nat)
    (first : F32) (rest : List F32)
    (hT : r.latencyTarget = FP.ofNat binary64 target)
    (h0 : r.holdoff = 0)
    (hlow : FP.lt (FP.add binary64 r.accum (shapedError r latency))
      (FP.mul binary64 (FP.ofInt binary64 (-12)) r.latencyTarget) = true)
    (hdec : decodeSamples inp = first :: rest) :
    (ResamplePacket r inp latency).2 =
      some (FP.div binary32 (FP.add binary32 r.lastSample first) (FP.ofNat binary32 2)
        :: decodeSamples inp) ∧
    (FP.div binary32 (FP.add binary32 r.lastSample first) (FP.ofNat binary32 2)
        :: decodeSamples inp).length = (decodeSamples inp).length + 1 ∧
    (ResamplePacket r inp latency).1.padded = r.padded + 1 ∧
    (ResamplePacket r inp latency).1.dropped = r.dropped ∧
    (ResamplePacket r inp latency).1.holdoff = 10 ∧
    (ResamplePacket r inp latency).1.accum =
      FP.mul binary64
        (FP.add binary64 (FP.add binary64 r.accum (shapedError r latency))
          (FP.mul binary64 (FP.ofNat binary64 11) r.latencyTarget))
        (FP.ofRatio binary64 9999 10000) ∧
    (∀ t tol : Nat, (NewResampler t tol).lastSample = FP.zero binary32 false) := by
  have h : ¬ 0 < r.holdoff := by omega
  have hlow2 : FP.lt (integrated r latency) (lowerThreshold r) = true := hlow
  have hup := below_lower_not_above_upper r target _ hT hlow2
  rw [ResamplePacket_interpolate r inp latency first rest h hup hlow2 hdec, leakAndReturn_cons]
  refine ⟨?_, ?_, ?_, ?_, ?_, ?_, ?_⟩
  · simp [hdec, interpolateSample]
  · simp
  · simp
  · simp
  · simp
  · show FP.mul binary64 (FP.add binary64 (integrated r latency) (discharge r)) leakFactor
      = FP.mul binary64
        (FP.add binary64 (FP.add binary64 r.accum (shapedError r latency))
          (FP.mul binary64 (FP.ofNat binary64 11) r.latencyTarget))
        (FP.ofRatio binary64 9999 10000)
    rfl
  · intro t tol
    rfl

set_option maxRecDepth 100000 in
set_option exponentiation.threshold 5000 in
theorem interpolate_branch_witness :
    (ResamplePacket (run (NewResampler 1000 50) (List.replicate 12 (Call.packet twoSamples 0)))
        twoSamples 0).2 =
      some (FP.div binary32 (FP.add binary32
          (run (NewResampler 1000 50) (List.replicate 12 (Call.packet twoSamples 0))).lastSample
          (FP.fin false 8388608 (-23))) (FP.ofNat binary32 2) :: decodeSamples twoSamples) ∧
    (ResamplePacket (run (NewResampler 1000 50) (List.replicate 12 (Call.packet twoSamples 0)))
        twoSamples 0).2 =
      some [FP.fin false 8388608 (-25), FP.fin false 8388608 (-23), FP.fin true 8388608 (-24)] ∧
    (ResamplePacket (run (NewResampler 1000 50) (List.replicate 12 (Call.packet twoSamples 0)))
        twoSamples 0).1.padded = 1 ∧
    (ResamplePacket (run (NewResampler 1000 50) (List.replicate 12 (Call.packet twoSamples 0)))
        twoSamples 0).1.holdoff = 10 ∧
    FP.add binary64
        (run (NewResampler 1000 50) (List.replicate 12 (Call.packet twoSamples 0))).accum
        (shapedError
          (run (NewResampler 1000 50) (List.replicate 12 (Call.packet twoSamples 0))) 0)
      = FP.fin true 6802418149623139 (-39) ∧
    (ResamplePacket (run (NewResampler 1000 50) (List.replicate 12 (Call.packet twoSamples 0)))
        twoSamples 0).1.accum = FP.fin true 6040229491483628 (-42) :=
  have h := interpolate_branch
    (run (NewResampler 1000 50) (List.replicate 12 (Call.packet twoSamples 0))) 1000
    twoSamples 0 (FP.fin false 8388608 (-23)) [FP.fin true 8388608 (-24)]
    (by decide) (by decide) (by decide) (by decide)
  ⟨h.1, by decide, by decide, h.2.2.2.2.1, by decide, h.2.2.2.2.2.1.trans (by decide)⟩

/-! ## One action per call (C5) -/

/-- C5. For a call that returns `out` on a packet of `N` decoded samples: `dropped` and
`padded` each grow by 0 or 1, never both by 1, the length of `out` is
`N - (growth of dropped) + (growth of padded)`, it is `N - 1` exactly when `dropped` grew
and `N + 1` exactly when `padded` grew. -/
theorem one_action_per_call (r : Resampler) (inp : List Byte) (latency : Nat) (out : List F32)
    (hret : (ResamplePacket r inp latency).2 = some out) :
    ((ResamplePacket r inp latency).1.dropped = r.dropped ∨
      (ResamplePacket r inp latency).1.dropped = r.dropped + 1) ∧
    ((ResamplePacket r inp latency).1.padded = r.padded ∨
      (ResamplePacket r inp latency).1.padded = r.padded + 1) ∧
    ¬ ((ResamplePacket r inp latency).1.dropped = r.dropped + 1 ∧
      (ResamplePacket r inp latency).1.padded = r.padded + 1) ∧
    (out.length : Int) = (decodeSamples inp).length
      - ((ResamplePacket r inp latency).1.dropped - r.dropped)
      + ((ResamplePacket r inp latency).1.padded - r.padded) ∧
    (out.length + 1 = (decodeSamples inp).length ↔
      (ResamplePacket r inp latency).1.dropped = r.dropped + 1) ∧
    (out.length = (decodeSamples inp).length + 1 ↔
      (ResamplePacket r inp latency).1.padded = r.padded + 1) := by
  cases hdec : decodeSamples inp with
  | nil => rw [ResamplePacket_empty r inp latency hdec] at hret; exact absurd hret (by simp)
  | cons a rest =>
    by_cases h : 0 < r.holdoff
    · rw [ResamplePacket_holdoff r inp latency h, hdec, leakAndReturn_cons] at hret ⊢
      simp only [Option.some.injEq] at hret
      subst hret
      simp
    · cases hup : FP.gt (integrated r latency) (upperThreshold r) with
      | true =>
        rw [ResamplePacket_drop r inp latency a rest h hup hdec] at hret ⊢
        cases rest with
        | nil => rw [leakAndReturn_nil] at hret; exact absurd hret (by simp)
        | cons b rest2 =>
          rw [leakAndReturn_cons] at hret ⊢
          simp only [Option.some.injEq] at hret
          subst hret
          simp
      | false =>
        cases hlow : FP.lt (integrated r latency) (lowerThreshold r) with
        | true =>
          rw [ResamplePacket_interpolate r inp latency a rest h hup hlow hdec,
            leakAndReturn_cons] at hret ⊢
          simp only [Option.some.injEq] at hret
          subst hret
          simp
          omega
        | false =>
          rw [ResamplePacket_pass r inp latency h hup hlow, hdec, leakAndReturn_cons] at hret ⊢
          simp only [Option.some.injEq] at hret
          subst hret
          simp

set_option maxRecDepth 100000 in
set_option exponentiation.threshold 5000 in
theorem one_action_per_call_witness :
    (ResamplePacket (NewResampler 1000 50) twoSamples 20000).2
      = some [FP.fin true 8388608 (-24)] ∧
    ((1 : Nat) + 1 = (decodeSamples twoSamples).length ↔
      (ResamplePacket (NewResampler 1000 50) twoSamples 20000).1.dropped
        = (NewResampler 1000 50).dropped + 1) :=
  ⟨by decide,
   (one_action_per_call (NewResampler 1000 50) twoSamples 20000 [FP.fin true 8388608 (-24)]
      (by decide)).2.2.2.2.1⟩

/-! ## The pass-through branch (C6) -/

/-- C6. In a state with `holdoff = 0`, on a packet of `N >= 1` decoded samples whose
integrated accumulator `a` lies in `[-12*target, 12*target]`, `ResamplePacket` returns
exactly the decoded samples, leaves `dropped`, `padded` and `holdoff` as they are and
leaves the accumulator at `a * 0.9999`. -/
theorem pass_through_branch (r : Resampler) (inp : List Byte) (latency : Nat)
    (h0 : r.holdoff = 0)
    (hne : decodeSamples inp ≠ [])
    (hlo : FP.le (lowerThreshold r) (integrated r latency) = true)
    (hhi : FP.le (integrated r latency) (upperThreshold r) = true) :
    (ResamplePacket r inp latency).2 = some (decodeSamples inp) ∧
    (ResamplePacket r inp latency).1.dropped = r.dropped ∧
    (ResamplePacket r inp latency).1.padded = r.padded ∧
    (ResamplePacket r inp latency).1.holdoff = r.holdoff ∧
    (ResamplePacket r inp latency).1.accum =
      FP.mul binary64 (integrated r latency) leakFactor := by
  have h : ¬ 0 < r.holdoff := by omega
  have hup : FP.gt (integrated r latency) (upperThreshold r) = false := FP.le_not_lt _ _ hhi
  have hlow : FP.lt (integrated r latency) (lowerThreshold r) = false := FP.le_not_lt _ _ hlo
  rw [ResamplePacket_pass r inp latency h hup hlow]
  exact ⟨leakAndReturn_snd _ _ hne, by simp, by simp, by simp, by simp⟩

/-- The packet of four samples `1.0`, `-0.5`, `0.0`, `2.0`. -/
def fourSamples : List Byte := [63, 128, 0, 0, 191, 0, 0, 0, 0, 0, 0, 0, 64, 0, 0, 0]

set_option maxRecDepth 100000 in
set_option exponentiation.threshold 5000 in
/-- The scenario of C6: `NewResampler(1000, 50)` fed one packet of 4 samples with latency
1000 returns the 4 samples, counts no drop and no pad, and leaves the accumulator at 0. -/
theorem pass_through_branch_witness :
    (ResamplePacket (NewResampler 1000 50) fourSamples 1000).2 = some (decodeSamples fourSamples) ∧
    (decodeSamples fourSamples).length = 4 ∧
    (ResamplePacket (NewResampler 1000 50) fourSamples 1000).1.dropped = 0 ∧
    (ResamplePacket (NewResampler 1000 50) fourSamples 1000).1.padded = 0 ∧
    (ResamplePacket (NewResampler 1000 50) fourSamples 1000).1.holdoff = 0 ∧
    (ResamplePacket (NewResampler 1000 50) fourSamples 1000).1.accum = FP.zero binary64 false :=
  have h := pass_through_branch (NewResampler 1000 50) fourSamples 1000
    (by decide) (by decide) (by decide) (by decide)
  ⟨h.1, by decide, h.2.1, h.2.2.1, h.2.2.2.1, by decide⟩

/-! ## The accumulator after a correction (C7) -/

set_option maxRecDepth 100000 in
set_option exponentiation.threshold 5000 in
/-- C7 fails: on a fresh `NewResampler(1000, 50)` the call with latency 100000 on a
two-sample packet applies a correction (a drop), and the accumulator after the call is not
below `12*target`: it is about 87941, above 12000. -/
theorem correction_leaves_band :
    (ResamplePacket (NewResampler 1000 50) twoSamples 100000).1.dropped = 1 ∧
    (ResamplePacket (NewResampler 1000 50) twoSamples 100000).2
      = some [FP.fin true 8388608 (-24)] ∧
    FP.lt (ResamplePacket (NewResampler 1000 50) twoSamples 100000).1.accum
      (upperThreshold (NewResampler 1000 50)) = false ∧
    FP.lt (FP.ofNat binary64 87941)
      (ResamplePacket (NewResampler 1000 50) twoSamples 100000).1.accum = true := by
  decide

/-- C7, amended. A call that applies a correction (it changes `dropped` or `padded`) found
the integrated accumulator `a = accum + shapedError` beyond a threshold and leaves the
accumulator at `(a - 11*target) * 0.9999` after a drop (`a > 12*target`) and at
`(a + 11*target) * 0.9999` after an interpolation (`a < -12*target`): the correction
moves it by `11*target`, whatever the distance of `a` from the threshold. -/
theorem correction_moves_accumulator (r : Resampler) (inp : List Byte) (latency : Nat)
    (hcorr : (ResamplePacket r inp latency).1.dropped ≠ r.dropped ∨
             (ResamplePacket r inp latency).1.padded ≠ r.padded) :
    (FP.gt (FP.add binary64 r.accum (shapedError r latency))
        (FP.mul binary64 (FP.ofNat binary64 12) r.latencyTarget) = true ∧
      (ResamplePacket r inp latency).1.dropped = r.dropped + 1 ∧
      (ResamplePacket r inp latency).1.padded = r.padded ∧
      (ResamplePacket r inp latency).1.accum =
        FP.mul binary64
          (FP.sub binary64 (FP.add binary64 r.accum (shapedError r latency))
            (FP.mul binary64 (FP.ofNat binary64 11) r.latencyTarget))
          (FP.ofRatio binary64 9999 10000)) ∨
    (FP.lt (FP.add binary64 r.accum (shapedError r latency))
        (FP.mul binary64 (FP.ofInt binary64 (-12)) r.latencyTarget) = true ∧
      (ResamplePacket r inp latency).1.padded = r.padded + 1 ∧
      (ResamplePacket r inp latency).1.dropped = r.dropped ∧
      (ResamplePacket r inp latency).1.accum =
        FP.mul binary64
          (FP.add binary64 (FP.add binary64 r.accum (shapedError r latency))
            (FP.mul binary64 (FP.ofNat binary64 11) r.latencyTarget))
          (FP.ofRatio binary64 9999 10000)) := by
  have hb : ∀ b, branchOf r latency = b →
      (b = Branch.drop → FP.gt (integrated r latency) (upperThreshold r) = true) ∧
      (b = Branch.interpolate → FP.lt (integrated r latency) (lowerThreshold r) = true) := by
    intro b hb
    unfold branchOf at hb
    split_ifs at hb with h1 h2 h3 <;> subst hb <;> simp_all
  have hsub : FP.mul binary64 (FP.sub binary64 (integrated r latency) (discharge r)) leakFactor
      = FP.mul binary64
          (FP.sub binary64 (FP.add binary64 r.accum (shapedError r latency))
            (FP.mul binary64 (FP.ofNat binary64 11) r.latencyTarget))
          (FP.ofRatio binary64 9999 10000) := rfl
  have hadd : FP.mul binary64 (FP.add binary64 (integrated r latency) (discharge r)) leakFactor
      = FP.mul binary64
          (FP.add binary64 (FP.add binary64 r.accum (shapedError r latency))
            (FP.mul binary64 (FP.ofNat binary64 11) r.latencyTarget))
          (FP.ofRatio binary64 9999 10000) := rfl
  rcases ResamplePacket_state r inp latency with h | h | h | h | h
  · rcases hcorr with hc | hc
    · exact absurd h.2.2.1 hc
    · exact absurd h.2.2.2.1 hc
  · exact Or.inl ⟨(hb _ h.1).1 rfl, h.2.2.2.1, h.2.2.2.2.1, h.2.2.2.2.2.trans hsub⟩
  · exact Or.inr ⟨(hb _ h.1).2 rfl, h.2.2.2.2.1, h.2.2.2.1, h.2.2.2.2.2.trans hadd⟩
  · rcases hcorr with hc | hc
    · exact absurd h.2.2.1 hc
    · exact absurd h.2.2.2.1 hc
  · rcases hcorr with hc | hc
    · exact absurd h.2.2.2.1 hc
    · exact absurd h.2.2.2.2.1 hc

set_option maxRecDepth 100000 in
set_option exponentiation.threshold 5000 in
theorem correction_moves_accumulator_witness :
    (ResamplePacket (NewResampler 1000 50) fourSamples 20000).1.dropped = 1 ∧
    FP.add binary64 (NewResampler 1000 50).accum (shapedError (NewResampler 1000 50) 20000)
      = FP.fin false 5208972409804935 (-38) ∧
    FP.mul binary64 (FP.ofNat binary64 11) (NewResampler 1000 50).latencyTarget
      = FP.ofNat binary64 11000 ∧
    (ResamplePacket (NewResampler 1000 50) fourSamples 20000).1.accum
      = FP.fin false 8740387607510372 (-40) ∧
    (ResamplePacket (NewResampler 1000 50) fourSamples 20000).1.accum =
      FP.mul binary64
        (FP.sub binary64
          (FP.add binary64 (NewResampler 1000 50).accum
            (shapedError (NewResampler 1000 50) 20000))
          (FP.mul binary64 (FP.ofNat binary64 11) (NewResampler 1000 50).latencyTarget))
        (FP.ofRatio binary64 9999 10000) :=
  have h := correction_moves_accumulator (NewResampler 1000 50) fourSamples 20000 (by decide)
  have hd : (ResamplePacket (NewResampler 1000 50) fourSamples 20000).1.padded
      = (NewResampler 1000 50).padded := by decide
  ⟨by decide, by decide, by decide, by decide,
    h.elim (fun h1 => h1.2.2.2) (fun h2 => absurd hd (by rw [h2.2.1]; decide))⟩

/-! ## The leak (C8) -/

/-- With the latency equal to the target and a positive tolerance the shaped error is `+0`. -/
theorem shapedError_zero (r : Resampler) (target tolerance : Nat)
    (hT : r.latencyTarget = FP.ofNat binary64 target) (ht : target < 2 ^ 64)
    (hTol : r.tolerance = FP.ofNat binary64 tolerance) (htol : tolerance < 2 ^ 64)
    (hpos : 0 < tolerance) :
    shapedError r target = FP.zero binary64 false := by
  obtain ⟨m, e, hm, _, _⟩ := FP.ofNat_finite target ht
  obtain ⟨n, d, hn, hn0, hcn⟩ := FP.ofNat_finite tolerance htol
  have hn0 : n ≠ 0 := hn0 (by omega)
  have herr : FP.sub binary64 (FP.ofNat binary64 target) r.latencyTarget
      = FP.zero binary64 false := by
    rw [hT, hm]
    simp [FP.sub, FP.neg, FP.add]
  have hden : FP.add binary64 r.tolerance (FP.abs (FP.zero binary64 false)) = FP.fin false n d := by
    rw [hTol, hn]
    exact FP.same_of_ne_zero hn0 (FP.add_zero_same binary64 _ hcn)
  unfold shapedError
  simp only [herr, hden]
  simp [FP.zero, FP.div, FP.abs, FP.mul, hn0, FP.round_zero]

theorem ResamplePacket_config (r : Resampler) (inp : List Byte) (latency : Nat) :
    (ResamplePacket r inp latency).1.latencyTarget = r.latencyTarget ∧
    (ResamplePacket r inp latency).1.tolerance = r.tolerance := by
  unfold ResamplePacket
  simp only []
  split_ifs
  · simp
  · split <;> simp
  · split <;> simp
  · simp

/-- The accumulator multiplied `k` times by the leak factor, each product rounded. -/
def leakTimes : Nat → F64 → F64
  | 0, x => x
  | k + 1, x => leakTimes k (FP.mul binary64 x leakFactor)

/-- A run of calls at one latency on packets with a decoded sample, none of which applies a
correction (none changes `dropped` or `padded`). -/
def QuietRun (r : Resampler) (latency : Nat) : List (List Byte) → Prop
  | [] => True
  | inp :: rest =>
    decodeSamples inp ≠ [] ∧
    (ResamplePacket r inp latency).1.dropped = r.dropped ∧
    (ResamplePacket r inp latency).1.padded = r.padded ∧
    QuietRun (ResamplePacket r inp latency).1 latency rest

/-- A call on a non-empty packet that applies no correction leaves the accumulator at the
integrated value times the leak factor. -/
theorem quiet_accum (r : Resampler) (inp : List Byte) (latency : Nat)
    (hne : decodeSamples inp ≠ [])
    (hd : (ResamplePacket r inp latency).1.dropped = r.dropped)
    (hp : (ResamplePacket r inp latency).1.padded = r.padded) :
    (ResamplePacket r inp latency).1.accum = FP.mul binary64 (integrated r latency) leakFactor := by
  rcases ResamplePacket_state r inp latency with h | h | h | h | h
  · exact h.2.2.2.2
  · have := h.2.2.2.1; omega
  · have := h.2.2.2.2.1; omega
  · exact h.2.2.2.2
  · exact absurd h.2.1 hne

theorem leak_step (r : Resampler) (target tolerance : Nat) (inp : List Byte)
    (hT : r.latencyTarget = FP.ofNat binary64 target) (ht : target < 2 ^ 64)
    (hTol : r.tolerance = FP.ofNat binary64 tolerance) (htol : tolerance < 2 ^ 64)
    (hpos : 0 < tolerance) (hacc : FP.Canonical binary64 r.accum)
    (hne : decodeSamples inp ≠ [])
    (hd : (ResamplePacket r inp target).1.dropped = r.dropped)
    (hp : (ResamplePacket r inp target).1.padded = r.padded) :
    FP.same (ResamplePacket r inp target).1.accum (FP.mul binary64 r.accum leakFactor) ∧
    FP.Canonical binary64 (ResamplePacket r inp target).1.accum := by
  have h := quiet_accum r inp target hne hd hp
  rw [h]
  refine ⟨?_, FP.mul_canonical binary64 binary64_valid _ _⟩
  apply FP.mul_same_left
  unfold integrated
  rw [shapedError_zero r target tolerance hT ht hTol htol hpos]
  exact FP.add_zero_same binary64 _ hacc

theorem leakTimes_same (k : Nat) (x y : F64) (h : FP.same x y) :
    FP.same (leakTimes k x) (leakTimes k y) := by
  induction k generalizing x y with
  | zero => exact h
  | succ k ih => exact ih _ _ (FP.mul_same_left binary64 x y leakFactor h)

set_option maxRecDepth 100000 in
/-- The constant `0.9999` as a `float64` is `9006298534815518 * 2^-53`. -/
theorem leakFactor_eq : leakFactor = FP.fin false 9006298534815518 (-((53 : Nat) : Int)) := by
  decide

/-- One rounded multiplication by the leak factor does not increase the magnitude of a
canonical datum other than NaN, and does not produce NaN. -/
theorem leak_shrinks (x : F64) (hc : FP.Canonical binary64 x) (hx : x ≠ FP.nan) :
    FP.le (FP.abs (FP.mul binary64 x leakFactor)) (FP.abs x) = true ∧
    FP.mul binary64 x leakFactor ≠ FP.nan := by
  rw [leakFactor_eq]
  exact FP.mul_shrink binary64 x false 9006298534815518 53 hc hx (by decide) (by decide)

/-- Rounding to nearest goes below `m` when the exact quotient is below `m - 1/2`. -/
theorem FP.roundShift_lt (n sh m : Nat) (hsh : 1 ≤ sh)
    (h : 2 * n + 2 ^ sh < 2 * m * 2 ^ sh) : FP.roundShift n sh < m := by
  have hP : 2 ^ sh = 2 * 2 ^ (sh - 1) := by
    rw [← pow_succ']; congr 1; omega
  have hdm := Nat.div_add_mod n (2 ^ sh)
  have hr := Nat.mod_lt n (Nat.two_pow_pos sh)
  have hb := FP.roundShift_bounds n sh
  have hq : n / 2 ^ sh < m := by
    have h1 : 2 ^ sh * (2 * (n / 2 ^ sh) + 1) < 2 ^ sh * (2 * m) := by
      have e1 : 2 ^ sh * (2 * (n / 2 ^ sh) + 1) = 2 * (2 ^ sh * (n / 2 ^ sh)) + 2 ^ sh := by ring
      have e2 : 2 ^ sh * (2 * m) = 2 * m * 2 ^ sh := by ring
      rw [e1, e2]
      omega
    have := Nat.lt_of_mul_lt_mul_left h1
    omega
  rcases Nat.lt_or_ge (n / 2 ^ sh + 1) m with h1 | h1
  · omega
  · have hm : m = n / 2 ^ sh + 1 := by omega
    have hlt : n % 2 ^ sh < 2 ^ (sh - 1) := by
      have e2 : 2 * m * 2 ^ sh = 2 * (2 ^ sh * (n / 2 ^ sh)) + 2 * 2 ^ sh := by
        rw [hm]; ring
      rw [e2] at h
      omega
    unfold FP.roundShift
    rw [if_pos hlt]
    exact hq

/-- Rounding to nearest gives `m` when the exact quotient is between `m - 1/2` and `m`. -/
theorem FP.roundShift_eq_up (n sh m : Nat) (hsh : 1 ≤ sh)
    (h1 : 2 * m * 2 ^ sh < 2 * n + 2 ^ sh) (h2 : n < m * 2 ^ sh) : FP.roundShift n sh = m := by
  have hP : 2 ^ sh = 2 * 2 ^ (sh - 1) := by
    rw [← pow_succ']; congr 1; omega
  have hdm := Nat.div_add_mod n (2 ^ sh)
  have hr := Nat.mod_lt n (Nat.two_pow_pos sh)
  have hq : n / 2 ^ sh < m := by
    apply Nat.div_lt_of_lt_mul
    rw [Nat.mul_comm]
    exact h2
  have hq2 : m ≤ n / 2 ^ sh + 1 := by
    by_contra hc
    have h3 : n / 2 ^ sh + 2 ≤ m := by omega
    have h4 : 2 ^ sh * (n / 2 ^ sh + 2) ≤ 2 ^ sh * m := Nat.mul_le_mul_left _ h3
    have e1 : 2 ^ sh * (n / 2 ^ sh + 2) = 2 ^ sh * (n / 2 ^ sh) + 2 * 2 ^ sh := by ring
    have e2 : 2 * m * 2 ^ sh = 2 * (2 ^ sh * m) := by ring
    rw [e1] at h4
    rw [e2] at h1
    omega
  have hm : m = n / 2 ^ sh + 1 := by omega
  have hgt : 2 ^ (sh - 1) < n % 2 ^ sh := by
    have e2 : 2 * m * 2 ^ sh = 2 * (2 ^ sh * (n / 2 ^ sh)) + 2 * 2 ^ sh := by
      rw [hm]; ring
    rw [e2] at h1
    omega
  unfold FP.roundShift
  rw [if_neg (by omega), if_pos hgt]
  exact hm.symm

theorem FP.leak_roundExp (m : Nat) (hm : m < 2 ^ 53) :
    FP.roundExp binary64 (m * 9006298534815518) (-1074 + -((53 : Nat) : Int)) = -1074 := by
  have hlt : m * 9006298534815518 < 2 ^ 106 := by
    have : m * 9006298534815518 < 2 ^ 53 * 2 ^ 53 :=
      Nat.mul_lt_mul'' hm (by decide)
    rwa [← pow_add] at this
  have hb := bitLen_le _ 106 hlt
  unfold FP.roundExp
  have h1 : (binary64.prec : Int) = 53 := rfl
  have h2 : binary64.emin = -1074 := rfl
  rw [h1, h2]
  push_cast
  omega

/-- The rounded product of a datum at the least exponent by the leak factor. -/
theorem FP.leak_at_emin (s : Bool) (m : Nat) (hm : m < 2 ^ 53) (hm0 : m ≠ 0) :
    FP.mul binary64 (FP.fin s m (-1074)) leakFactor =
      FP.fin s (FP.roundShift (m * 9006298534815518) 53) (-1074) := by
  have hexp := FP.leak_roundExp m hm
  have hn : m * 9006298534815518 ≠ 0 := Nat.mul_ne_zero hm0 (by decide)
  have hM : FP.roundShift (m * 9006298534815518) 53 ≠ 2 ^ binary64.prec := by
    have hb := (FP.roundShift_bounds (m * 9006298534815518) 53).2
    have hq : m * 9006298534815518 / 2 ^ 53 < m := by
      apply Nat.div_lt_of_lt_mul
      have : (9006298534815518 : Nat) < 2 ^ 53 := by decide
      have hmp : 0 < m := Nat.pos_of_ne_zero hm0
      calc m * 9006298534815518 < m * 2 ^ 53 := Nat.mul_lt_mul_of_pos_left this hmp
        _ = 2 ^ 53 * m := Nat.mul_comm _ _
    have hp : (2 : Nat) ^ binary64.prec = 2 ^ 53 := rfl
    rw [hp]
    omega
  rw [leakFactor_eq]
  simp only [FP.mul, Bool.bne_false]
  unfold FP.round
  have hne : ¬ (-1074 : Int) ≤ -1074 + -((53 : Nat) : Int) := by decide
  have hsh : (-1074 - (-1074 + -((53 : Nat) : Int))).toNat = 53 := by decide
  rw [if_neg hn, hexp, if_neg hne, hsh, if_neg hM]
  exact FP.pack_of_le binary64 s _ _ (by decide)

/-- One rounded multiplication by the leak factor strictly decreases the magnitude of a
canonical finite datum above `5000 * 2^-1074`. -/
theorem leak_shrinks_strict (s : Bool) (m : Nat) (e : Int)
    (hc : FP.Canonical binary64 (FP.fin s m e))
    (hbig : FP.lt (FP.fin false 5000 (-1074)) (FP.fin false m e) = true) :
    FP.lt (FP.abs (FP.mul binary64 (FP.fin s m e) leakFactor)) (FP.fin false m e) = true := by
  have hv := (FP.lt_fin_iff_val _ _ _ _).1 hbig
  have hp : (2 : Nat) ^ binary64.prec = 2 ^ 53 := rfl
  have hmin : binary64.emin = -1074 := rfl
  have hm53 : m < 2 ^ 53 := hc.1
  by_cases he : e = -1074
  · subst he
    have hm : 5000 < m := (FP.val_lt_val_iff _ _ _).1 hv
    rw [FP.leak_at_emin s m hm53 (by omega), FP.abs, FP.lt_fin_iff_val, FP.val_lt_val_iff]
    apply FP.roundShift_lt _ _ _ (by decide)
    have h53 : (2 : Nat) ^ 53 = 9007199254740992 := by decide
    rw [h53]
    omega
  · have hnorm : 2 ^ 52 ≤ m := by
      rcases hc.2.2.2 with h | h
      · exact h
      · rw [hmin] at h; exact absurd h he
    have hemin : -1074 < e := by
      have := hc.2.1
      rw [hmin] at this
      omega
    obtain ⟨mp, ep, hpc, hpv⟩ := FP.pred_canonical m e hc hnorm hemin
    have hle : FP.val (m * 9006298534815518) (e + -((53 : Nat) : Int)) ≤ FP.val mp ep := by
      rw [hpv, ← FP.val_scale (m - 1) 53 e]
      have he2 : e + -((53 : Nat) : Int) = e - ((53 : Nat) : Int) := by ring
      rw [he2, FP.val_le_val_iff]
      have h53 : (2 : Nat) ^ 53 = 9007199254740992 := by decide
      have h52 : (2 : Nat) ^ 52 = 4503599627370496 := by decide
      rw [h53]
      rw [h52] at hnorm
      omega
    obtain ⟨m2, e2, hr, hv2⟩ := FP.round_le_repr binary64 (s != false)
      (m * 9006298534815518) mp (e + -((53 : Nat) : Int)) ep hpc hle
    rw [leakFactor_eq]
    simp only [FP.mul]
    rw [hr, FP.abs, FP.lt_fin_iff_val]
    rw [hpv] at hv2
    exact lt_of_le_of_lt hv2 ((FP.val_lt_val_iff _ _ _).2 (by omega))

/-- At the least exponent a significand up to 5000 is left as it is by the rounded
multiplication by the leak factor. -/
theorem leak_stalls (s : Bool) (m : Nat) (hm : m ≤ 5000) :
    FP.mul binary64 (FP.fin s m (-1074)) leakFactor = FP.fin s m (-1074) := by
  by_cases hm0 : m = 0
  · subst hm0
    rw [leakFactor_eq]
    cases s <;> rfl
  · rw [FP.leak_at_emin s m (by
      have h53 : (2 : Nat) ^ 53 = 9007199254740992 := by decide
      omega) hm0]
    congr 1
    apply FP.roundShift_eq_up _ _ _ (by decide)
    · have h53 : (2 : Nat) ^ 53 = 9007199254740992 := by decide
      rw [h53]
      omega
    · have h53 : (2 : Nat) ^ 53 = 9007199254740992 := by decide
      rw [h53]
      omega

/-- The order of magnitudes: `<=` followed by `<` gives `<`. -/
theorem FP.lt_of_le_of_lt_abs (a b c : FP) (h1 : FP.le (FP.abs a) (FP.abs b) = true)
    (h2 : FP.lt (FP.abs b) (FP.abs c) = true) : FP.lt (FP.abs a) (FP.abs c) = true := by
  cases a <;> cases b <;> cases c <;>
    simp only [FP.abs, FP.le, FP.lt, Bool.false_eq_true, Bool.not_false, Bool.and_self,
      Bool.or_self, Bool.false_and, Bool.true_and, Bool.not_true, Bool.or_false,
      Bool.false_or] at h1 h2 ⊢
  rename_i s1 m1 e1 s2 m2 e2 s3 m3 e3
  have h1v := (FP.le_fin_iff_val m1 m2 e1 e2).1 (by simpa [FP.le] using h1)
  have h2v := (FP.lt_fin_iff_val m2 m3 e2 e3).1 (by simpa [FP.lt] using h2)
  have := (FP.lt_fin_iff_val m1 m3 e1 e3).2 (lt_of_le_of_lt h1v h2v)
  simpa [FP.lt] using this

theorem leakTimes_fix (k : Nat) (x : F64) (h : FP.mul binary64 x leakFactor = x) :
    leakTimes k x = x := by
  induction k with
  | zero => rfl
  | succ k ih =>
    show leakTimes k (FP.mul binary64 x leakFactor) = x
    rw [h, ih]

/-- The state of the controller after `NewResampler(1000, 50)` has taken one packet with
latency 1000000 (a drop) and ten packets with latency 1000 (the holdoff). -/
def afterHoldoff : Resampler :=
  run (NewResampler 1000 50)
    (Call.packet twoSamples 1000000 :: List.replicate 10 (Call.packet twoSamples 1000))

/-- A controller at rest (`holdoff = 0`) whose accumulator is the smallest positive
subnormal `2^-1074`. -/
def smallestAccum : Resampler :=
  { NewResampler 1000 50 with accum := FP.fin false 1 (-1074) }

/-- A controller in its holdoff (`holdoff = 10`) whose accumulator is `+Inf`. -/
def infiniteAccum : Resampler :=
  { NewResampler 1000 50 with accum := FP.inf false, holdoff := 10 }

set_option maxRecDepth 100000 in
set_option exponentiation.threshold 5000 in
/-- C8 fails. In the state `afterHoldoff` (holdoff back to 0, accumulator still above
`12*target`) the call with latency 1000 = target has shaped error `+0` and yet drops a
sample, and leaves the accumulator at `(accum - 11*target) * 0.9999`, strictly below
`accum * 0.9999`. In the state `smallestAccum` the same call passes the packet
through and leaves the non-zero accumulator as it was: `2^-1074 * 0.9999` rounds back to
`2^-1074`, so the magnitude has not decreased. And in the state `infiniteAccum` the call
leaves the accumulator at `+Inf`. -/
theorem leak_fails_on_correction :
    (afterHoldoff.latencyTarget = FP.ofNat binary64 1000 ∧
      afterHoldoff.tolerance = FP.ofNat binary64 50 ∧
      decodeSamples twoSamples ≠ [] ∧
      shapedError afterHoldoff 1000 = FP.zero binary64 false ∧
      (ResamplePacket afterHoldoff twoSamples 1000).1.dropped = afterHoldoff.dropped + 1 ∧
      (ResamplePacket afterHoldoff twoSamples 1000).1.accum ≠
        FP.mul binary64 afterHoldoff.accum leakFactor ∧
      FP.lt (ResamplePacket afterHoldoff twoSamples 1000).1.accum
        (FP.mul binary64 afterHoldoff.accum leakFactor) = true) ∧
    (shapedError smallestAccum 1000 = FP.zero binary64 false ∧
      (ResamplePacket smallestAccum twoSamples 1000).2 = some (decodeSamples twoSamples) ∧
      (ResamplePacket smallestAccum twoSamples 1000).1.accum = smallestAccum.accum ∧
      FP.lt (FP.abs (ResamplePacket smallestAccum twoSamples 1000).1.accum)
        (FP.abs smallestAccum.accum) = false) ∧
    (shapedError infiniteAccum 1000 = FP.zero binary64 false ∧
      (ResamplePacket infiniteAccum twoSamples 1000).2 = some (decodeSamples twoSamples) ∧
      (ResamplePacket infiniteAccum twoSamples 1000).1.dropped = infiniteAccum.dropped ∧
      (ResamplePacket infiniteAccum twoSamples 1000).1.padded = infiniteAccum.padded ∧
      (ResamplePacket infiniteAccum twoSamples 1000).1.accum = FP.inf false ∧
      FP.lt (FP.abs (ResamplePacket infiniteAccum twoSamples 1000).1.accum)
        (FP.abs infiniteAccum.accum) = false) := by
  decide

/-- Over `k` consecutive calls with the latency equal to the target, none applying a
correction, the accumulator ends at its start value multiplied `k` times by `0.9999`, each
product rounded, and its magnitude has not increased. -/
theorem leak_run_bound (r : Resampler) (target tolerance : Nat) (inps : List (List Byte))
    (hT : r.latencyTarget = FP.ofNat binary64 target) (ht : target < 2 ^ 64)
    (hTol : r.tolerance = FP.ofNat binary64 tolerance) (htol : tolerance < 2 ^ 64)
    (hpos : 0 < tolerance) (hacc : FP.Canonical binary64 r.accum)
    (hq : QuietRun r target inps) :
    shapedError r target = FP.zero binary64 false ∧
    FP.same (run r (inps.map (fun inp => Call.packet inp target))).accum
      (leakTimes inps.length r.accum) ∧
    FP.Canonical binary64 (run r (inps.map (fun inp => Call.packet inp target))).accum ∧
    (r.accum ≠ FP.nan →
      (run r (inps.map (fun inp => Call.packet inp target))).accum ≠ FP.nan ∧
      FP.le (FP.abs (run r (inps.map (fun inp => Call.packet inp target))).accum)
        (FP.abs r.accum) = true) := by
  refine ⟨shapedError_zero r target tolerance hT ht hTol htol hpos, ?_⟩
  induction inps generalizing r with
  | nil =>
    exact ⟨FP.same_refl _, hacc, fun hx => ⟨hx, FP.le_abs_refl _ hx⟩⟩
  | cons inp rest ih =>
    obtain ⟨hne, hd, hp, hrest⟩ := hq
    obtain ⟨hs, hc1⟩ := leak_step r target tolerance inp hT ht hTol htol hpos hacc hne hd hp
    obtain ⟨hcfg1, hcfg2⟩ := ResamplePacket_config r inp target
    obtain ⟨ih1, ih2, ih3⟩ := ih (ResamplePacket r inp target).1
      (by rw [hcfg1]; exact hT) (by rw [hcfg2]; exact hTol) hc1 hrest
    refine ⟨?_, ih2, fun hx => ?_⟩
    · exact FP.same_trans ih1 (leakTimes_same _ _ _ hs)
    · obtain ⟨hle, hnn⟩ := leak_shrinks r.accum hacc hx
      have hnn1 : (ResamplePacket r inp target).1.accum ≠ FP.nan := by
        intro hnan
        rw [hnan] at hs
        exact hnn (FP.same_nan (FP.same_symm hs))
      obtain ⟨ih4, ih5⟩ := ih3 hnn1
      refine ⟨ih4, FP.le_abs_trans _ _ _ ih5 ?_⟩
      rw [FP.abs_same hs]
      exact hle


/-- C8, amended. In a state whose target and tolerance are the conversions of unsigned
64-bit integers, the tolerance positive, and whose accumulator is a canonical datum, make
`k` consecutive `ResamplePacket` calls with the latency equal to the target, each on a
packet with at least one decoded sample and none applying a correction (`QuietRun`). Then
the shaped error of every call is `+0`; the accumulator ends at its start value multiplied
`k` times by `0.9999`, each product rounded to `float64` (equality up to the sign of zero);
unless it is NaN, its magnitude has not increased; when the start value is finite with a
magnitude above `5000 * 2^-1074` and `k >= 1`, the magnitude has strictly decreased; when
the start value is at most `5000 * 2^-1074` in magnitude, the accumulator is left as it was
(each product rounds back to it); and an infinite accumulator stays infinite. -/
theorem leak_run (r : Resampler) (target tolerance : Nat) (inps : List (List Byte))
    (hT : r.latencyTarget = FP.ofNat binary64 target) (ht : target < 2 ^ 64)
    (hTol : r.tolerance = FP.ofNat binary64 tolerance) (htol : tolerance < 2 ^ 64)
    (hpos : 0 < tolerance) (hacc : FP.Canonical binary64 r.accum)
    (hq : QuietRun r target inps) :
    shapedError r target = FP.zero binary64 false ∧
    FP.same (run r (inps.map (fun inp => Call.packet inp target))).accum
      (leakTimes inps.length r.accum) ∧
    FP.Canonical binary64 (run r (inps.map (fun inp => Call.packet inp target))).accum ∧
    (r.accum ≠ FP.nan →
      (run r (inps.map (fun inp => Call.packet inp target))).accum ≠ FP.nan ∧
      FP.le (FP.abs (run r (inps.map (fun inp => Call.packet inp target))).accum)
        (FP.abs r.accum) = true) ∧
    (∀ s m e, r.accum = FP.fin s m e →
      FP.lt (FP.fin false 5000 (-1074)) (FP.fin false m e) = true → inps ≠ [] →
      FP.lt (FP.abs (run r (inps.map (fun inp => Call.packet inp target))).accum)
        (FP.fin false m e) = true) ∧
    (∀ s m, r.accum = FP.fin s m (-1074) → m ≤ 5000 →
      FP.same (run r (inps.map (fun inp => Call.packet inp target))).accum r.accum) ∧
    (∀ s, r.accum = FP.inf s →
      (run r (inps.map (fun inp => Call.packet inp target))).accum = FP.inf s) := by
  obtain ⟨b1, b2, b3, b4⟩ := leak_run_bound r target tolerance inps hT ht hTol htol hpos hacc hq
  refine ⟨b1, b2, b3, b4, ?_, ?_, ?_⟩
  · intro s m e hfin hbig hne
    cases inps with
    | nil => exact absurd rfl hne
    | cons inp rest =>
      obtain ⟨hne1, hd, hp, hrest⟩ := hq
      obtain ⟨hs, hc1⟩ := leak_step r target tolerance inp hT ht hTol htol hpos hacc hne1 hd hp
      obtain ⟨hcfg1, hcfg2⟩ := ResamplePacket_config r inp target
      have hstep : FP.lt (FP.abs (ResamplePacket r inp target).1.accum)
          (FP.abs (FP.fin s m e)) = true := by
        rw [FP.abs_same hs, hfin]
        exact leak_shrinks_strict s m e (hfin ▸ hacc) hbig
      have hnn1 : (ResamplePacket r inp target).1.accum ≠ FP.nan := by
        intro hnan
        rw [hnan] at hstep
        exact absurd hstep (by simp [FP.abs, FP.lt])
      obtain ⟨_, _, _, c4⟩ := leak_run_bound (ResamplePacket r inp target).1 target tolerance
        rest (by rw [hcfg1]; exact hT) ht (by rw [hcfg2]; exact hTol) htol hpos hc1 hrest
      exact FP.lt_of_le_of_lt_abs _ _ (FP.fin s m e) (c4 hnn1).2 hstep
  · intro s m hfin hm
    have hfix := leakTimes_fix inps.length (FP.fin s m (-1074)) (leak_stalls s m hm)
    rw [hfin] at b2 ⊢
    rw [hfix] at b2
    exact b2
  · intro s hinf
    have hmul : FP.mul binary64 (FP.inf s) leakFactor = FP.inf s := by
      rw [leakFactor_eq]
      cases s <;> rfl
    have hfix := leakTimes_fix inps.length (FP.inf s) hmul
    rw [hinf, hfix] at b2
    rcases b2 with h | ⟨_, _, _, _, h⟩
    · exact h
    · exact absurd h (by simp)

/-- The state after `NewResampler(1000, 50)` has taken one two-sample packet with latency
20000 (a drop): `holdoff` is 10 and the accumulator is about 7949. -/
def afterDrop : Resampler := (ResamplePacket (NewResampler 1000 50) twoSamples 20000).1

set_option maxRecDepth 100000 in
set_option exponentiation.threshold 5000 in
theorem leak_run_witness :
    shapedError afterDrop 1000 = FP.zero binary64 false ∧
    FP.same (run afterDrop ([twoSamples, fourSamples, oneSample].map
        (fun inp => Call.packet inp 1000))).accum (leakTimes 3 afterDrop.accum) ∧
    FP.le (FP.abs (run afterDrop ([twoSamples, fourSamples, oneSample].map
        (fun inp => Call.packet inp 1000))).accum) (FP.abs afterDrop.accum) = true ∧
    afterDrop.accum = FP.fin false 8740387607510372 (-40) ∧
    FP.lt (FP.abs (run afterDrop ([twoSamples, fourSamples, oneSample].map
        (fun inp => Call.packet inp 1000))).accum)
      (FP.fin false 8740387607510372 (-40)) = true :=
  have hc : FP.Canonical binary64 afterDrop.accum :=
    (show afterDrop.accum = FP.mul binary64 (FP.sub binary64
        (integrated (NewResampler 1000 50) 20000) (discharge (NewResampler 1000 50))) leakFactor
      from by decide) ▸ FP.mul_canonical binary64 binary64_valid _ _
  have h := leak_run afterDrop 1000 50 [twoSamples, fourSamples, oneSample]
    (by decide) (by decide) (by decide) (by decide) (by decide) hc
    ⟨by decide, by decide, by decide, by decide, by decide, by decide,
      by decide, by decide, by decide, trivial⟩
  ⟨h.1, h.2.1, (h.2.2.2.1 (by decide)).2, by decide,
    h.2.2.2.2.1 false 8740387607510372 (-40) (by decide) (by decide) (by decide)⟩

/-! ## The states a caller can reach -/

/-- Representation invariant of a controller made by `NewResampler(target, tolerance)`:
target and tolerance are the conversions of the two integers, the accumulator is a
canonical datum, the history has 60 slots and the cursor is within them. -/
def Resampler.WF (r : Resampler) (target tolerance : Nat) : Prop :=
  r.latencyTarget = FP.ofNat binary64 target ∧
  r.tolerance = FP.ofNat binary64 tolerance ∧
  FP.Canonical binary64 r.accum ∧
  r.latHist.length = 60 ∧
  r.histIndex < 60

theorem FP.zero_canonical (f : Fmt) (hf : f.Valid) (s : Bool) :
    FP.Canonical f (FP.zero f s) :=
  ⟨Nat.two_pow_pos _, le_refl _, hf.2, Or.inr rfl⟩

theorem FP.add_canonical (f : Fmt) (hf : f.Valid) (x y : FP) : FP.Canonical f (FP.add f x y) := by
  cases x <;> cases y <;> simp only [FP.add] <;> (try split_ifs) <;>
    first
    | trivial
    | exact FP.round_canonical f hf _ _ _
    | exact FP.zero_canonical f hf _

theorem ResamplePacket_history (r : Resampler) (inp : List Byte) (latency : Nat) :
    (ResamplePacket r inp latency).1.latHist = r.latHist ∧
    (ResamplePacket r inp latency).1.histIndex = r.histIndex := by
  unfold ResamplePacket
  simp only []
  split_ifs
  · simp
  · split <;> simp
  · split <;> simp
  · simp

theorem ResamplePacket_accum_canonical (r : Resampler) (inp : List Byte) (latency : Nat) :
    FP.Canonical binary64 (ResamplePacket r inp latency).1.accum := by
  rcases ResamplePacket_state r inp latency with h | h | h | h | h
  · rw [h.2.2.2.2]; exact FP.mul_canonical binary64 binary64_valid _ _
  · rw [h.2.2.2.2.2]; exact FP.mul_canonical binary64 binary64_valid _ _
  · rw [h.2.2.2.2.2]; exact FP.mul_canonical binary64 binary64_valid _ _
  · rw [h.2.2.2.2]; exact FP.mul_canonical binary64 binary64_valid _ _
  · rw [h.2.2.2.2.2]; exact FP.add_canonical binary64 binary64_valid _ _

theorem WF_NewResampler (target tolerance : Nat) :
    (NewResampler target tolerance).WF target tolerance :=
  ⟨rfl, rfl, FP.zero_canonical binary64 binary64_valid false, by simp [NewResampler],
    by simp [NewResampler]⟩

theorem WF_step (r : Resampler) (target tolerance : Nat) (c : Call)
    (h : r.WF target tolerance) : (step r c).WF target tolerance := by
  obtain ⟨h1, h2, h3, h4, h5⟩ := h
  cases c with
  | packet inp latency =>
    obtain ⟨c1, c2⟩ := ResamplePacket_config r inp latency
    obtain ⟨c3, c4⟩ := ResamplePacket_history r inp latency
    refine ⟨?_, ?_, ResamplePacket_accum_canonical r inp latency, ?_, ?_⟩
    · simp only [step]; rw [c1]; exact h1
    · simp only [step]; rw [c2]; exact h2
    · simp only [step]; rw [c3]; exact h4
    · simp only [step]; rw [c4]; exact h5
  | stats latency =>
    obtain ⟨s1, _, _, s4, s5, _, s7, s8⟩ := Stats_frame r latency
    refine ⟨?_, ?_, ?_, ?_, ?_⟩
    · simp only [step]; rw [s4]; exact h1
    · simp only [step]; rw [s5]; exact h2
    · simp only [step]; rw [s1]; exact h3
    · simp only [step]; rw [s7, List.length_set]; exact h4
    · simp only [step]; rw [s8]; exact Nat.mod_lt _ (by decide)

/-- Every state reached from `NewResampler(target, tolerance)` by calls of the two
operations satisfies the representation invariant. -/
theorem WF_run (cs : List Call) (r : Resampler) (target tolerance : Nat)
    (h : r.WF target tolerance) : (run r cs).WF target tolerance := by
  induction cs generalizing r with
  | nil => exact h
  | cons c cs ih => exact ih _ (WF_step r target tolerance c h)

/-! ## Latency bounds (C9) -/

theorem ResamplePacket_minmax (r : Resampler) (inp : List Byte) (latency : Nat) :
    (ResamplePacket r inp latency).1.minLatency = (noteLatency r latency).minLatency ∧
    (ResamplePacket r inp latency).1.maxLatency = (noteLatency r latency).maxLatency := by
  unfold ResamplePacket
  simp only []
  split_ifs
  · simp
  · split <;> simp
  · split <;> simp
  · simp

theorem noteLatency_minLatency (r : Resampler) (latency : Nat) :
    (noteLatency r latency).minLatency = min latency r.minLatency := by
  unfold noteLatency
  simp only []
  by_cases h : latency < r.minLatency
  · rw [if_pos h]
    split_ifs <;> simp [Nat.min_eq_left (Nat.le_of_lt h)]
  · rw [if_neg h]
    split_ifs <;> simp [Nat.min_eq_right (Nat.le_of_not_lt h)]

theorem noteLatency_maxLatency (r : Resampler) (latency : Nat) :
    (noteLatency r latency).maxLatency = max latency r.maxLatency := by
  unfold noteLatency
  simp only []
  by_cases h : latency < r.minLatency
  · rw [if_pos h]
    by_cases h2 : latency > r.maxLatency
    · simp [h2, Nat.max_eq_left (Nat.le_of_lt h2)]
    · simp [h2, Nat.max_eq_right (Nat.le_of_not_lt h2)]
  · rw [if_neg h]
    by_cases h2 : latency > r.maxLatency
    · simp [h2, Nat.max_eq_left (Nat.le_of_lt h2)]
    · simp [h2, Nat.max_eq_right (Nat.le_of_not_lt h2)]

/-- The bounds of a state are those of the latencies `seen` in the current interval. -/
def BoundsOf (r : Resampler) (seen : List Nat) : Prop :=
  (seen = [] → r.minLatency = maxUint64 ∧ r.maxLatency = 0) ∧
  (seen ≠ [] → r.minLatency ∈ seen ∧ r.maxLatency ∈ seen ∧
    ∀ l ∈ seen, r.minLatency ≤ l ∧ l ≤ r.maxLatency)

theorem BoundsOf_step (r : Resampler) (seen : List Nat) (inp : List Byte) (latency : Nat)
    (hl : latency < 2 ^ 64) (h : BoundsOf r seen) :
    BoundsOf (ResamplePacket r inp latency).1 (seen ++ [latency]) := by
  obtain ⟨hmin, hmax⟩ := ResamplePacket_minmax r inp latency
  rw [noteLatency_minLatency] at hmin
  rw [noteLatency_maxLatency] at hmax
  refine ⟨fun he => absurd he (by simp), fun _ => ?_⟩
  rw [hmin, hmax]
  by_cases hs : seen = []
  · obtain ⟨h1, h2⟩ := h.1 hs
    have h3 : latency ≤ maxUint64 := by unfold maxUint64; omega
    subst hs
    rw [h1, h2, Nat.min_eq_left h3, Nat.max_eq_left (Nat.zero_le _)]
    simp
  · obtain ⟨h1, h2, h3⟩ := h.2 hs
    refine ⟨?_, ?_, ?_⟩
    · rcases Nat.le_total latency r.minLatency with hle | hle
      · rw [Nat.min_eq_left hle]; simp
      · rw [Nat.min_eq_right hle]; exact List.mem_append_left _ h1
    · rcases Nat.le_total latency r.maxLatency with hle | hle
      · rw [Nat.max_eq_right hle]; exact List.mem_append_left _ h2
      · rw [Nat.max_eq_left hle]; simp
    · intro l hmem
      rcases List.mem_append.1 hmem with hm | hm
      · have := h3 l hm
        exact ⟨Nat.le_trans (Nat.min_le_right _ _) this.1,
          Nat.le_trans this.2 (Nat.le_max_right _ _)⟩
      · have hll : l = latency := by simpa using hm
        subst hll
        exact ⟨Nat.min_le_left _ _, Nat.le_max_left _ _⟩

theorem BoundsOf_run (calls : List (List Byte × Nat)) (r : Resampler) (seen : List Nat)
    (hl : ∀ c ∈ calls, c.2 < 2 ^ 64) (h : BoundsOf r seen) :
    BoundsOf (run r (calls.map (fun c => Call.packet c.1 c.2)))
      (seen ++ calls.map (fun c => c.2)) := by
  induction calls generalizing r seen with
  | nil => simpa [run] using h
  | cons c cs ih =>
    have h1 := BoundsOf_step r seen c.1 c.2 (hl c (List.mem_cons_self _ _)) h
    have h2 := ih (ResamplePacket r c.1 c.2).1 (seen ++ [c.2])
      (fun d hd => hl d (List.mem_cons_of_mem _ hd)) h1
    simpa [run, step] using h2

/-- C9. Start from a fresh controller or from the state a `Stats` call leaves, and make
`k >= 1` `ResamplePacket` calls with latencies below `2^64`: then `minLatency` and
`maxLatency` are among the `k` latencies passed and every latency passed lies between
them, so they are the minimum and the maximum of these latencies. -/
theorem latency_bounds (r0 : Resampler) (calls : List (List Byte × Nat))
    (hstart : (∃ target tolerance, r0 = NewResampler target tolerance) ∨
              (∃ r latency, r0 = (Stats r latency).1))
    (hk : calls ≠ [])
    (hl : ∀ c ∈ calls, c.2 < 2 ^ 64) :
    (run r0 (calls.map (fun c => Call.packet c.1 c.2))).minLatency ∈ calls.map (fun c => c.2) ∧
    (run r0 (calls.map (fun c => Call.packet c.1 c.2))).maxLatency ∈ calls.map (fun c => c.2) ∧
    ∀ l ∈ calls.map (fun c => c.2),
      (run r0 (calls.map (fun c => Call.packet c.1 c.2))).minLatency ≤ l ∧
      l ≤ (run r0 (calls.map (fun c => Call.packet c.1 c.2))).maxLatency := by
  have hb : BoundsOf r0 [] := by
    refine ⟨fun _ => ?_, fun h => absurd rfl h⟩
    rcases hstart with ⟨t, tol, rfl⟩ | ⟨r, l, rfl⟩
    · exact ⟨rfl, rfl⟩
    · exact ⟨rfl, rfl⟩
  have h := BoundsOf_run calls r0 [] hl hb
  simp only [List.nil_append] at h
  exact h.2 (by simpa using hk)

theorem latency_bounds_witness :
    (run (NewResampler 1000 50)
        ([(twoSamples, 1200), (oneSample, 900), (fourSamples, 1500)].map
          (fun c => Call.packet c.1 c.2))).minLatency
      ∈ [(twoSamples, 1200), (oneSample, 900), (fourSamples, 1500)].map (fun c => c.2) ∧
    (run (NewResampler 1000 50)
        ([(twoSamples, 1200), (oneSample, 900), (fourSamples, 1500)].map
          (fun c => Call.packet c.1 c.2))).maxLatency
      ∈ [(twoSamples, 1200), (oneSample, 900), (fourSamples, 1500)].map (fun c => c.2) ∧
    ∀ l ∈ [(twoSamples, 1200), (oneSample, 900), (fourSamples, 1500)].map (fun c => c.2),
      (run (NewResampler 1000 50)
        ([(twoSamples, 1200), (oneSample, 900), (fourSamples, 1500)].map
          (fun c => Call.packet c.1 c.2))).minLatency ≤ l ∧
      l ≤ (run (NewResampler 1000 50)
        ([(twoSamples, 1200), (oneSample, 900), (fourSamples, 1500)].map
          (fun c => Call.packet c.1 c.2))).maxLatency :=
  latency_bounds (NewResampler 1000 50)
    [(twoSamples, 1200), (oneSample, 900), (fourSamples, 1500)]
    (Or.inl ⟨1000, 50, rfl⟩) (by simp) (by decide)

/-! ## What `Stats` resets and what it keeps (C10) -/

/-- C10. For a state whose history has its 60 slots and whose cursor is within them, and
every latency: after `Stats`, `minLatency = 2^64 - 1`, `maxLatency = 0`, `padded = 0` and
`dropped = 0`; `accum`, `holdoff`, `lastSample`, `latencyTarget` and `tolerance` are
unchanged; the history keeps its length and its content except in the slot at the old
cursor, which holds the latency passed. -/
theorem Stats_reset_and_frame (r : Resampler) (latency : Nat)
    (hlen : r.latHist.length = 60) (hidx : r.histIndex < 60) :
    (Stats r latency).1.minLatency = 2 ^ 64 - 1 ∧
    (Stats r latency).1.maxLatency = 0 ∧
    (Stats r latency).1.padded = 0 ∧
    (Stats r latency).1.dropped = 0 ∧
    (Stats r latency).1.accum = r.accum ∧
    (Stats r latency).1.holdoff = r.holdoff ∧
    (Stats r latency).1.lastSample = r.lastSample ∧
    (Stats r latency).1.latencyTarget = r.latencyTarget ∧
    (Stats r latency).1.tolerance = r.tolerance ∧
    (Stats r latency).1.latHist.length = 60 ∧
    (Stats r latency).1.latHist[r.histIndex]? = some latency ∧
    (∀ i, i ≠ r.histIndex → (Stats r latency).1.latHist[i]? = r.latHist[i]?) := by
  obtain ⟨h1, h2, h3, h4, h5, _, h7, _⟩ := Stats_frame r latency
  refine ⟨rfl, rfl, rfl, rfl, h1, h2, h3, h4, h5, ?_, ?_, ?_⟩
  · rw [h7, List.length_set, hlen]
  · rw [h7, List.getElem?_set_self (by omega)]
  · intro i hi
    rw [h7, List.getElem?_set_ne (Ne.symm hi)]

set_option maxRecDepth 100000 in
set_option exponentiation.threshold 5000 in
theorem Stats_reset_and_frame_witness :
    (Stats (ResamplePacket (NewResampler 1000 50) twoSamples 1200).1 1300).1.minLatency
      = 2 ^ 64 - 1 ∧
    (Stats (ResamplePacket (NewResampler 1000 50) twoSamples 1200).1 1300).1.maxLatency = 0 ∧
    (Stats (ResamplePacket (NewResampler 1000 50) twoSamples 1200).1 1300).1.latHist[0]?
      = some 1300 :=
  have h := Stats_reset_and_frame (ResamplePacket (NewResampler 1000 50) twoSamples 1200).1 1300
    (by decide) (by decide)
  ⟨h.1, h.2.1, h.2.2.2.2.2.2.2.2.2.2.1⟩

/-! ## The line of `Stats` -/

/-- Line 78 of `Stats`: the difference between the latency passed and the content of the
history slot at the cursor, read as a signed 64-bit integer. -/
def driftDiff (r : Resampler) (latency : Nat) : Int :=
  toInt64 ((latency : Int) - ((r.latHist.getD r.histIndex 0 : Nat) : Int))

/-- Line 88 of `Stats`: the drift rate, `float64(diff) / float64(len(r.latHist))`. -/
def driftRate (r : Resampler) (latency : Nat) : F64 :=
  FP.div binary64 (FP.ofInt binary64 (driftDiff r latency)) (FP.ofNat binary64 60)

/-- Line 89 of `Stats`: the estimated sample rate `(1+rate/1e6)*48000`. -/
def sampleRate (rate : F64) : F64 :=
  FP.mul binary64
    (FP.add binary64 (FP.ofNat binary64 1) (FP.div binary64 rate (FP.ofNat binary64 1000000)))
    (FP.ofNat binary64 48000)

theorem Stats_wrapped (r : Resampler) (latency : Nat) :
    (Stats r latency).1.wrapped = (r.wrapped || decide ((r.histIndex + 1) % 60 = 0)) := by
  unfold Stats
  simp only []
  split_ifs with h
  · simp [h.1]
  · cases hw : r.wrapped <;> simp_all

theorem Stats_line (r : Resampler) (latency : Nat) :
    (Stats r latency).2.minLatency = r.minLatency ∧
    (Stats r latency).2.maxLatency = r.maxLatency ∧
    (Stats r latency).2.accum = r.accum ∧
    (Stats r latency).2.padded = r.padded ∧
    (Stats r latency).2.dropped = r.dropped ∧
    (Stats r latency).2.drift =
      if (Stats r latency).1.wrapped = true then
        some (driftRate r latency, sampleRate (driftRate r latency))
      else none := by
  unfold Stats
  simp only []
  split_ifs <;> simp_all [driftRate, driftDiff, sampleRate]

theorem Stats_bounds_reset (r : Resampler) (latency : Nat) :
    (Stats r latency).1.minLatency = maxUint64 ∧ (Stats r latency).1.maxLatency = 0 ∧
    (Stats r latency).1.padded = 0 ∧ (Stats r latency).1.dropped = 0 := by
  unfold Stats
  exact ⟨rfl, rfl, rfl, rfl⟩

/-! ## `Stats` twice (C11) -/

set_option maxRecDepth 100000 in
set_option exponentiation.threshold 5000 in
/-- C11 fails: after one packet with latency 1200 on a fresh `NewResampler(1000, 50)`,
`Stats(1300)` called twice in a row reports, the second time, the minimum `2^64 - 1` and
the maximum `0`, not `1300`. -/
theorem Stats_twice_not_latency :
    (Stats (Stats (ResamplePacket (NewResampler 1000 50) twoSamples 1200).1 1300).1 1300).2.minLatency
      = 18446744073709551615 ∧
    (Stats (Stats (ResamplePacket (NewResampler 1000 50) twoSamples 1200).1 1300).1 1300).2.maxLatency
      = 0 ∧
    ¬ ((Stats (Stats (ResamplePacket (NewResampler 1000 50) twoSamples 1200).1 1300).1 1300).2.minLatency
        = 1300 ∧
      (Stats (Stats (ResamplePacket (NewResampler 1000 50) twoSamples 1200).1 1300).1 1300).2.maxLatency
        = 1300) := by
  decide

/-- C11, amended. For every state and all latencies `L`, `L2`: `Stats(L)` followed at once
by `Stats(L2)` reports, in the second call, the minimum `2^64 - 1` and the maximum `0`,
the values the first call reset the bounds to; `Stats` does not count its own latency
among the latencies observed. -/
theorem Stats_twice (r : Resampler) (L L2 : Nat) :
    (Stats (Stats r L).1 L2).2.minLatency = 2 ^ 64 - 1 ∧
    (Stats (Stats r L).1 L2).2.maxLatency = 0 ∧
    (Stats (Stats r L).1 L2).2.padded = 0 ∧
    (Stats (Stats r L).1 L2).2.dropped = 0 := by
  obtain ⟨h1, h2, _, h4, h5, _⟩ := Stats_line (Stats r L).1 L2
  obtain ⟨b1, b2, b3, b4⟩ := Stats_bounds_reset r L
  rw [h1, h2, h4, h5, b1, b2, b3, b4]
  exact ⟨rfl, rfl, rfl, rfl⟩

/-! ## The history buffer -/

/-- The latencies of the `Stats` calls of a sequence of calls, in order. -/
def statsLatencies : List Call → List Nat
  | [] => []
  | Call.packet _ _ :: cs => statsLatencies cs
  | Call.stats latency :: cs => latency :: statsLatencies cs

/-- The history of a controller is that of the `Stats` latencies `ls` fed to a fresh
controller: 60 slots, the cursor at `|ls| mod 60`, `wrapped` set once 60 latencies have been
fed, each of the last 60 latencies in its slot and `0` in the slots never written. -/
def HistOf (r : Resampler) (ls : List Nat) : Prop :=
  r.latHist.length = 60 ∧
  r.histIndex = ls.length % 60 ∧
  (r.wrapped = true ↔ 60 ≤ ls.length) ∧
  (∀ j, j < ls.length → ls.length ≤ j + 60 → r.latHist[j % 60]? = ls[j]?) ∧
  (∀ i, ls.length ≤ i → i < 60 → r.latHist[i]? = some 0)

theorem HistOf_NewResampler (target tolerance : Nat) :
    HistOf (NewResampler target tolerance) [] := by
  refine ⟨by simp [NewResampler], rfl, by simp [NewResampler], ?_, ?_⟩
  · intro j hj; simp at hj
  · intro i _ hi
    show (List.replicate 60 0)[i]? = some 0
    rw [List.getElem?_replicate, if_pos hi]

theorem ResamplePacket_wrapped (r : Resampler) (inp : List Byte) (latency : Nat) :
    (ResamplePacket r inp latency).1.wrapped = r.wrapped := by
  unfold ResamplePacket
  simp only []
  split_ifs
  · simp
  · split <;> simp
  · split <;> simp
  · simp

theorem HistOf_packet (r : Resampler) (ls : List Nat) (inp : List Byte) (latency : Nat)
    (h : HistOf r ls) : HistOf (ResamplePacket r inp latency).1 ls := by
  obtain ⟨c1, c2⟩ := ResamplePacket_history r inp latency
  have c3 := ResamplePacket_wrapped r inp latency
  unfold HistOf
  rw [c1, c2, c3]
  exact h

theorem HistOf_stats (r : Resampler) (ls : List Nat) (latency : Nat)
    (h : HistOf r ls) : HistOf (Stats r latency).1 (ls ++ [latency]) := by
  obtain ⟨h1, h2, h3, h4, h5⟩ := h
  obtain ⟨_, _, _, _, _, _, s7, s8⟩ := Stats_frame r latency
  have s9 := Stats_wrapped r latency
  have hlt : ls.length % 60 < 60 := Nat.mod_lt _ (by decide)
  refine ⟨?_, ?_, ?_, ?_, ?_⟩
  · rw [s7, List.length_set, h1]
  · rw [s8, h2, List.length_append, List.length_singleton]
    omega
  · rw [s9, h2, List.length_append, List.length_singleton]
    cases hw : r.wrapped with
    | true =>
      have := h3.1 hw
      simp only [Bool.true_or, true_iff]
      omega
    | false =>
      have hn : ¬ 60 ≤ ls.length := fun hc => by
        have := h3.2 hc
        rw [hw] at this
        exact absurd this (by simp)
      simp only [Bool.false_or, decide_eq_true_eq]
      omega
  · intro j hj hwin
    rw [List.length_append, List.length_singleton] at hj hwin
    rw [s7, h2]
    by_cases hjl : j = ls.length
    · subst hjl
      rw [List.getElem?_set_self (by omega)]
      simp
    · have hj2 : j < ls.length := by omega
      have hne : ls.length % 60 ≠ j % 60 := by omega
      rw [List.getElem?_set_ne hne, h4 j hj2 (by omega), List.getElem?_append_left hj2]
  · intro i hi hi60
    rw [List.length_append, List.length_singleton] at hi
    rw [s7, h2]
    have hne : ls.length % 60 ≠ i := by
      have : ls.length % 60 = ls.length := Nat.mod_eq_of_lt (by omega)
      omega
    rw [List.getElem?_set_ne hne]
    exact h5 i (by omega) hi60

theorem HistOf_run (cs : List Call) (r : Resampler) (ls : List Nat) (h : HistOf r ls) :
    HistOf (run r cs) (ls ++ statsLatencies cs) := by
  induction cs generalizing r ls with
  | nil => simpa [run, statsLatencies] using h
  | cons c cs ih =>
    cases c with
    | packet inp latency =>
      simpa [run, step, statsLatencies] using ih _ _ (HistOf_packet r ls inp latency h)
    | stats latency =>
      simpa [run, step, statsLatencies] using ih _ _ (HistOf_stats r ls latency h)

/-- The history of the controller reached from a fresh one by a sequence of calls. -/
theorem HistOf_fresh (target tolerance : Nat) (cs : List Call) :
    HistOf (run (NewResampler target tolerance) cs) (statsLatencies cs) := by
  simpa using HistOf_run cs _ [] (HistOf_NewResampler target tolerance)

theorem run_append (r : Resampler) (cs more : List Call) :
    run r (cs ++ more) = run (run r cs) more := by
  induction cs generalizing r with
  | nil => rfl
  | cons c cs ih => simp [run, ih]

theorem statsLatencies_append (cs more : List Call) :
    statsLatencies (cs ++ more) = statsLatencies cs ++ statsLatencies more := by
  induction cs with
  | nil => rfl
  | cons c cs ih => cases c <;> simp [statsLatencies, ih]

theorem toInt64_of_range (x : Int) (h1 : -(2 ^ 63) ≤ x) (h2 : x < 2 ^ 63) : toInt64 x = x := by
  unfold toInt64
  split_ifs <;> omega

theorem FP.ofInt_natCast (f : Fmt) (n : Nat) : FP.ofInt f (n : Int) = FP.ofNat f n := by
  have h : decide ((n : Int) < 0) = false := decide_eq_false (by omega)
  simp [FP.ofInt, FP.ofNat, h]

/-- While fewer than 60 latencies have been fed, the slot at the cursor still holds the `0`
of a fresh history, and the difference `Stats` computes is the latency itself. -/
theorem driftDiff_first_lap (r : Resampler) (ls : List Nat) (latency : Nat)
    (h : HistOf r ls) (hn : ls.length < 60) : driftDiff r latency = toInt64 latency := by
  obtain ⟨_, h2, _, _, h5⟩ := h
  have hslot := h5 ls.length (Nat.le_refl _) hn
  unfold driftDiff
  rw [h2, Nat.mod_eq_of_lt hn, List.getD_eq_getElem?_getD, hslot]
  simp

/-- Once 60 latencies have been fed, the slot at the cursor holds the latency fed 60 calls
before. -/
theorem driftDiff_later_laps (r : Resampler) (ls : List Nat) (latency : Nat)
    (h : HistOf r ls) (hn : 60 ≤ ls.length) :
    driftDiff r latency = toInt64 ((latency : Int) - ((ls.getD (ls.length - 60) 0 : Nat) : Int)) := by
  obtain ⟨_, h2, _, h4, _⟩ := h
  have hslot := h4 (ls.length - 60) (by omega) (by omega)
  have hmod : (ls.length - 60) % 60 = ls.length % 60 := by omega
  unfold driftDiff
  rw [h2, List.getD_eq_getElem?_getD, ← hmod, hslot, List.getD_eq_getElem?_getD]

/-- The line of a `Stats` call has the drift fields exactly from the 60th call on. -/
theorem Stats_drift_present (r : Resampler) (ls : List Nat) (latency : Nat) (h : HistOf r ls) :
    (Stats r latency).1.wrapped = true ↔ 59 ≤ ls.length := by
  have h2 := (HistOf_stats r ls latency h).2.2.1
  rw [List.length_append, List.length_singleton] at h2
  rw [h2]
  omega

/-! ## The history cursor (C14) -/

/-- C14. After any sequence of calls on a fresh controller of which `n` are `Stats` calls
(`ResamplePacket` calls may be interleaved): `histIndex = n mod 60`, which is within
`0..59`; `wrapped` is true exactly when `n >= 60`; the line of the next `Stats` call (call
`n + 1`) has the drift and sample-rate fields exactly when `n + 1 >= 60`; and once `wrapped`
is true it stays true after any further calls. -/
theorem history_cursor (target tolerance : Nat) (cs : List Call) :
    (run (NewResampler target tolerance) cs).histIndex = (statsLatencies cs).length % 60 ∧
    (run (NewResampler target tolerance) cs).histIndex < 60 ∧
    ((run (NewResampler target tolerance) cs).wrapped = true ↔ 60 ≤ (statsLatencies cs).length) ∧
    (∀ latency, (Stats (run (NewResampler target tolerance) cs) latency).2.drift.isSome = true ↔
      60 ≤ (statsLatencies cs).length + 1) ∧
    (∀ more, (run (NewResampler target tolerance) cs).wrapped = true →
      (run (NewResampler target tolerance) (cs ++ more)).wrapped = true) := by
  have h := HistOf_fresh target tolerance cs
  refine ⟨h.2.1, ?_, h.2.2.1, ?_, ?_⟩
  · rw [h.2.1]; exact Nat.mod_lt _ (by decide)
  · intro latency
    have hp := Stats_drift_present _ _ latency h
    rw [(Stats_line _ latency).2.2.2.2.2]
    by_cases hw : (Stats (run (NewResampler target tolerance) cs) latency).1.wrapped = true
    · rw [if_pos hw]
      have := hp.1 hw
      simp only [Option.isSome_some, true_iff]
      omega
    · rw [if_neg hw]
      have : ¬ 59 ≤ (statsLatencies cs).length := fun hc => hw (hp.2 hc)
      simp only [Option.isSome_none, Bool.false_eq_true, false_iff]
      omega
  · intro more hw
    have h2 := HistOf_fresh target tolerance (cs ++ more)
    rw [h2.2.2.1, statsLatencies_append, List.length_append]
    have := h.2.2.1.1 hw
    omega

/-! ## Drift over the ring buffer (C13) -/

/-- C13. After any sequence of calls on a fresh controller of which `n >= 60` are `Stats`
calls (`ResamplePacket` calls may be interleaved), the next `Stats` call, call `k = n + 1`,
computes the difference between its latency and the latency of `Stats` call `k - 60` as
Go's `int64` of the wrapping `uint64` subtraction: with `d` the difference reduced modulo
`2^64`, it is `d` when `d < 2^63` and `d - 2^64` otherwise; its line reports that value
divided by 60, with the sample rate `(1 + rate/1e6) * 48000`; and the value is the true
difference when that fits in 64 signed bits. -/
theorem drift_over_ring (target tolerance : Nat) (cs : List Call) (latency : Nat)
    (hk : 60 ≤ (statsLatencies cs).length) :
    ∃ d : Int,
      d = ((latency : Int) -
        (((statsLatencies cs).getD ((statsLatencies cs).length - 60) 0 : Nat) : Int)) % 2 ^ 64 ∧
      driftDiff (run (NewResampler target tolerance) cs) latency
        = (if d < 2 ^ 63 then d else d - 2 ^ 64) ∧
      (Stats (run (NewResampler target tolerance) cs) latency).2.drift =
        some (FP.div binary64 (FP.ofInt binary64 (if d < 2 ^ 63 then d else d - 2 ^ 64))
            (FP.ofNat binary64 60),
          FP.mul binary64
            (FP.add binary64 (FP.ofNat binary64 1)
              (FP.div binary64
                (FP.div binary64 (FP.ofInt binary64 (if d < 2 ^ 63 then d else d - 2 ^ 64))
                  (FP.ofNat binary64 60))
                (FP.ofNat binary64 1000000)))
            (FP.ofNat binary64 48000)) ∧
      (-(2 ^ 63) ≤ (latency : Int) -
          (((statsLatencies cs).getD ((statsLatencies cs).length - 60) 0 : Nat) : Int) →
        (latency : Int) -
          (((statsLatencies cs).getD ((statsLatencies cs).length - 60) 0 : Nat) : Int) < 2 ^ 63 →
        (if d < 2 ^ 63 then d else d - 2 ^ 64) =
          (latency : Int) -
            (((statsLatencies cs).getD ((statsLatencies cs).length - 60) 0 : Nat) : Int)) := by
  have h := HistOf_fresh target tolerance cs
  have hd := driftDiff_later_laps _ _ latency h hk
  have hw := (Stats_drift_present _ _ latency h).2 (by omega)
  have hwrap : ∀ x : Int,
      toInt64 x = (if x % 2 ^ 64 < 2 ^ 63 then x % 2 ^ 64 else x % 2 ^ 64 - 2 ^ 64) :=
    fun x => rfl
  refine ⟨_, rfl, ?_, ?_, ?_⟩
  · rw [hd, hwrap]
  · rw [(Stats_line _ latency).2.2.2.2.2, if_pos hw]
    simp only [driftRate, sampleRate, hd, hwrap]
  · intro h1 h2
    split_ifs <;> omega

/-- Sixty `Stats` calls with the latencies 1000, 1001, ..., 1059, then one packet. -/
def sixtyStats : List Call :=
  (List.range 60).map (fun i => Call.stats (1000 + i)) ++ [Call.packet twoSamples 1200]

set_option maxRecDepth 100000 in
set_option exponentiation.threshold 5000 in
theorem drift_over_ring_witness :
    (driftDiff (run (NewResampler 1000 50) sixtyStats) 1100 = 100 ∧
      (Stats (run (NewResampler 1000 50) sixtyStats) 1100).2.drift =
        some (FP.div binary64 (FP.ofInt binary64 100) (FP.ofNat binary64 60),
          FP.mul binary64
            (FP.add binary64 (FP.ofNat binary64 1)
              (FP.div binary64
                (FP.div binary64 (FP.ofInt binary64 100) (FP.ofNat binary64 60))
                (FP.ofNat binary64 1000000)))
            (FP.ofNat binary64 48000))) ∧
    (driftDiff (run (NewResampler 1000 50) (List.replicate 60 (Call.stats 0)))
        9223372036854775808 = -9223372036854775808 ∧
      ((Stats (run (NewResampler 1000 50) (List.replicate 60 (Call.stats 0)))
          9223372036854775808).2.drift.map Prod.fst) =
        some (FP.div binary64 (FP.ofInt binary64 (-9223372036854775808))
          (FP.ofNat binary64 60))) ∧
    (driftDiff (run (NewResampler 1000 50)
        (List.replicate 60 (Call.stats 18446744073709551615))) 4 = 5 ∧
      ((Stats (run (NewResampler 1000 50)
          (List.replicate 60 (Call.stats 18446744073709551615))) 4).2.drift.map Prod.fst) =
        some (FP.div binary64 (FP.ofInt binary64 5) (FP.ofNat binary64 60))) := by
  obtain ⟨d1, e1, a1, b1, _⟩ := drift_over_ring 1000 50 sixtyStats 1100 (by decide)
  obtain ⟨d2, e2, a2, b2, _⟩ := drift_over_ring 1000 50 (List.replicate 60 (Call.stats 0))
    9223372036854775808 (by decide)
  obtain ⟨d3, e3, a3, b3, _⟩ := drift_over_ring 1000 50
    (List.replicate 60 (Call.stats 18446744073709551615)) 4 (by decide)
  have v1 : d1 = 100 := e1.trans (by decide)
  have v2 : d2 = 9223372036854775808 := e2.trans (by decide)
  have v3 : d3 = 5 := e3.trans (by decide)
  subst v1 v2 v3
  refine ⟨⟨a1.trans (by decide), b1.trans (by decide)⟩, ⟨a2.trans (by decide), ?_⟩,
    ⟨a3.trans (by decide), ?_⟩⟩
  · rw [b2]; decide
  · rw [b3]; decide

/-! ## Packets without a sample (C15) -/

set_option maxRecDepth 100000 in
set_option exponentiation.threshold 5000 in
/-- C15 fails: no check rejects a packet without a sample. On a fresh
`NewResampler(1000, 50)` the call on the empty buffer with latency 20000 runs lines 40-55,
takes the drop branch and panics on `out[1:]`: it returns no slice, but it has changed the
controller (both latency bounds are 20000 and the accumulator is about 18950). In the
state `afterDrop` (`holdoff = 10`) the call with latency 1000 also counts `holdoff` down to
9 and leaks the accumulator before it panics on `out[len(out)-1]`. -/
theorem empty_packet_no_check :
    (ResamplePacket (NewResampler 1000 50) [] 20000).2 = none ∧
    (ResamplePacket (NewResampler 1000 50) [] 20000).1 ≠ NewResampler 1000 50 ∧
    (ResamplePacket (NewResampler 1000 50) [] 20000).1.minLatency = 20000 ∧
    (ResamplePacket (NewResampler 1000 50) [] 20000).1.maxLatency = 20000 ∧
    (ResamplePacket (NewResampler 1000 50) [] 20000).1.accum
      = FP.fin false 5208972409804935 (-38) ∧
    (NewResampler 1000 50).accum = FP.fin false 0 (-1074) ∧
    (ResamplePacket afterDrop [] 1000).2 = none ∧
    afterDrop.holdoff = 10 ∧
    (ResamplePacket afterDrop [] 1000).1.holdoff = 9 ∧
    (ResamplePacket afterDrop [] 1000).1.accum ≠ afterDrop.accum := by
  decide

/-- C15, amended. For every state and latency, `ResamplePacket` on a buffer of fewer than 4
bytes, which decodes to no sample, returns no sample sequence: after lines 40-55 have
updated the latency bounds and the accumulator, the first access to the empty output
panics. With `holdoff > 0` the call has counted `holdoff` down and leaked the accumulator
(panic at line 72); with the integrated accumulator `a` beyond a threshold it stops at
line 59 or 64 with the accumulator `a`; otherwise it has leaked the accumulator (panic at
line 72). No branch checks the packet. -/
theorem empty_packet_panics (r : Resampler) (inp : List Byte) (latency : Nat)
    (h : inp.length < 4) :
    decodeSamples inp = [] ∧
    (ResamplePacket r inp latency).2 = none ∧
    (ResamplePacket r inp latency).1.minLatency = min latency r.minLatency ∧
    (ResamplePacket r inp latency).1.maxLatency = max latency r.maxLatency ∧
    (0 < r.holdoff →
      ResamplePacket r inp latency =
        ({ noteLatency r latency with
            accum := FP.mul binary64 (FP.add binary64 r.accum (shapedError r latency))
              (FP.ofRatio binary64 9999 10000)
            holdoff := r.holdoff - 1 }, none)) ∧
    (¬ 0 < r.holdoff →
      (FP.gt (FP.add binary64 r.accum (shapedError r latency))
          (FP.mul binary64 (FP.ofNat binary64 12) r.latencyTarget) = true ∨
        FP.lt (FP.add binary64 r.accum (shapedError r latency))
          (FP.mul binary64 (FP.ofInt binary64 (-12)) r.latencyTarget) = true) →
      ResamplePacket r inp latency =
        ({ noteLatency r latency with
            accum := FP.add binary64 r.accum (shapedError r latency) }, none)) ∧
    (¬ 0 < r.holdoff →
      FP.gt (FP.add binary64 r.accum (shapedError r latency))
        (FP.mul binary64 (FP.ofNat binary64 12) r.latencyTarget) = false →
      FP.lt (FP.add binary64 r.accum (shapedError r latency))
        (FP.mul binary64 (FP.ofInt binary64 (-12)) r.latencyTarget) = false →
      ResamplePacket r inp latency =
        ({ noteLatency r latency with
            accum := FP.mul binary64 (FP.add binary64 r.accum (shapedError r latency))
              (FP.ofRatio binary64 9999 10000) }, none)) := by
  have hdec : decodeSamples inp = [] := by
    unfold decodeSamples
    rw [Nat.div_eq_of_lt h]
    rfl
  have hmm := ResamplePacket_minmax r inp latency
  refine ⟨hdec, ResamplePacket_empty r inp latency hdec, ?_, ?_, ?_, ?_, ?_⟩
  · rw [hmm.1, noteLatency_minLatency]
  · rw [hmm.2, noteLatency_maxLatency]
  · intro hh
    rw [ResamplePacket_holdoff r inp latency hh, hdec, leakAndReturn_nil]
    rfl
  · intro hh hbeyond
    cases hup : FP.gt (integrated r latency) (upperThreshold r) with
    | true => exact ResamplePacket_drop_empty r inp latency hh hup hdec
    | false =>
      rcases hbeyond with hb | hb
      · exact absurd (show FP.gt (integrated r latency) (upperThreshold r) = true from hb)
          (by rw [hup]; decide)
      · exact ResamplePacket_interpolate_empty r inp latency hh hup hb hdec
  · intro hh hup hlow
    rw [ResamplePacket_pass r inp latency hh hup hlow, hdec, leakAndReturn_nil]
    rfl

set_option maxRecDepth 100000 in
set_option exponentiation.threshold 5000 in
theorem empty_packet_panics_witness :
    decodeSamples [1, 2, 3] = [] ∧
    (ResamplePacket (NewResampler 1000 50) [1, 2, 3] 1000).2 = none ∧
    (ResamplePacket (NewResampler 1000 50) [1, 2, 3] 1000).1.minLatency = 1000 ∧
    (ResamplePacket (NewResampler 1000 50) [1, 2, 3] 1000).1.maxLatency = 1000 ∧
    (ResamplePacket (NewResampler 1000 50) [] 20000).2 = none ∧
    (ResamplePacket (NewResampler 1000 50) [] 20000).1.accum
      = FP.add binary64 (NewResampler 1000 50).accum
          (shapedError (NewResampler 1000 50) 20000) :=
  have h := empty_packet_panics (NewResampler 1000 50) [1, 2, 3] 1000 (by decide)
  have h2 := empty_packet_panics (NewResampler 1000 50) [] 20000 (by decide)
  ⟨h.1, h.2.1, h.2.2.1.trans (by decide), h.2.2.2.1.trans (by decide), h2.2.1,
    congrArg (fun p => p.1.accum) (h2.2.2.2.2.2.1 (by decide) (Or.inl (by decide)))⟩

/-! ## Buffers whose length is not a multiple of 4 (C16) -/

theorem readSamples_take (n : Nat) (l : List Byte) (h : 4 * n ≤ l.length) :
    readSamples n (l.take (4 * n)) = readSamples n l := by
  induction n generalizing l with
  | zero => simp [readSamples]
  | succ n ih =>
    match l, h with
    | b0 :: b1 :: b2 :: b3 :: rest, h =>
      have hr : 4 * n ≤ rest.length := by simp at h; omega
      have ht : (b0 :: b1 :: b2 :: b3 :: rest).take (4 * (n + 1))
          = b0 :: b1 :: b2 :: b3 :: rest.take (4 * n) := by
        have : 4 * (n + 1) = 4 * n + 1 + 1 + 1 + 1 := by omega
        rw [this]
        simp [List.take]
      rw [ht]
      simp only [readSamples]
      rw [ih rest hr]
    | [], h => simp at h
    | [_], h => simp at h; omega
    | [_, _], h => simp at h; omega
    | [_, _, _], h => simp at h; omega

theorem decodeSamples_take (inp : List Byte) :
    decodeSamples (inp.take (4 * (inp.length / 4))) = decodeSamples inp := by
  have hle : 4 * (inp.length / 4) ≤ inp.length := Nat.mul_div_le _ _
  have hlen : (inp.take (4 * (inp.length / 4))).length / 4 = inp.length / 4 := by
    rw [List.length_take, Nat.min_eq_left hle]
    omega
  unfold decodeSamples
  rw [hlen]
  exact readSamples_take _ _ hle

theorem ResamplePacket_congr (r : Resampler) (inp inp2 : List Byte) (latency : Nat)
    (h : decodeSamples inp = decodeSamples inp2) :
    ResamplePacket r inp latency = ResamplePacket r inp2 latency := by
  unfold ResamplePacket
  rw [h]

set_option maxRecDepth 100000 in
set_option exponentiation.threshold 5000 in
/-- C16 fails: a fresh `NewResampler(1000, 50)` given the 9 bytes of `twoSamples` followed
by one more byte, with latency 1000, does not fail: it returns the two samples decoded from
the first 8 bytes. -/
theorem odd_length_returns :
    (twoSamples ++ [7]).length % 4 ≠ 0 ∧
    (ResamplePacket (NewResampler 1000 50) (twoSamples ++ [7]) 1000).2
      = some [FP.fin false 8388608 (-23), FP.fin true 8388608 (-24)] ∧
    (ResamplePacket (NewResampler 1000 50) (twoSamples ++ [7]) 1000)
      = (ResamplePacket (NewResampler 1000 50) twoSamples 1000) := by
  decide

/-- C16, amended. For every state, buffer and latency, `ResamplePacket` decodes
`floor(len/4)` samples from the first `4 * floor(len/4)` bytes and ignores the trailing
`len mod 4` bytes: the call does exactly what it does on the buffer cut to that length
(same result or same failure, same state), with no check of the length. -/
theorem trailing_bytes_ignored (r : Resampler) (inp : List Byte) (latency : Nat) :
    (decodeSamples inp).length = inp.length / 4 ∧
    decodeSamples inp = decodeSamples (inp.take (4 * (inp.length / 4))) ∧
    ResamplePacket r inp latency = ResamplePacket r (inp.take (4 * (inp.length / 4))) latency :=
  ⟨decodeSamples_length inp, (decodeSamples_take inp).symm,
    ResamplePacket_congr r _ _ latency (decodeSamples_take inp).symm⟩

/-! ## Safety of indexing (C19) -/

theorem branchOf_drop_iff (r : Resampler) (latency : Nat) :
    branchOf r latency = Branch.drop ↔
      (¬ 0 < r.holdoff ∧ FP.gt (integrated r latency) (upperThreshold r) = true) := by
  unfold branchOf
  split_ifs with h1 h2 h3 <;> simp_all

/-- `holdoff` is never negative in a state reached from a fresh controller. -/
theorem holdoff_nonneg_step (r : Resampler) (c : Call) (h : 0 ≤ r.holdoff) :
    0 ≤ (step r c).holdoff := by
  cases c with
  | packet inp latency =>
    simp only [step]
    rcases ResamplePacket_state r inp latency with h1 | h1 | h1 | h1 | h1
    · have hb := h1.1
      unfold branchOf at hb
      split_ifs at hb with h2
      rw [h1.2.1]; omega
    · rw [h1.2.2.1]; decide
    · rw [h1.2.2.1]; decide
    · rw [h1.2.1]; exact h
    · rw [h1.2.2.1]; exact h
  | stats latency =>
    simp only [step]
    rw [(Stats_frame r latency).2.1]; exact h

theorem holdoff_nonneg_run (cs : List Call) (r : Resampler) (h : 0 ≤ r.holdoff) :
    0 ≤ (run r cs).holdoff := by
  induction cs generalizing r with
  | nil => exact h
  | cons c cs ih => exact ih _ (holdoff_nonneg_step r c h)

/-- C19. In every state with `holdoff >= 0` (every state reached from a fresh controller),
for every latency: on a packet with at least 2 decoded samples `ResamplePacket` returns;
on a packet with exactly 1 decoded sample it fails if and only if the drop branch is taken,
that is `holdoff = 0` and the integrated accumulator exceeds `12*target`. -/
theorem indexing_safety (r : Resampler) (inp : List Byte) (latency : Nat)
    (hh : 0 ≤ r.holdoff) :
    (2 ≤ (decodeSamples inp).length → ∃ out, (ResamplePacket r inp latency).2 = some out) ∧
    ((decodeSamples inp).length = 1 →
      ((ResamplePacket r inp latency).2 = none ↔
        (r.holdoff = 0 ∧ FP.gt (integrated r latency) (upperThreshold r) = true))) := by
  constructor
  · intro hN
    obtain ⟨out, hout, _⟩ := ResamplePacket_length r inp latency hN
    exact ⟨out, hout⟩
  · intro hN
    obtain ⟨a, hdec⟩ : ∃ a, decodeSamples inp = [a] := by
      cases hd : decodeSamples inp with
      | nil => simp [hd] at hN
      | cons a rest =>
        cases rest with
        | nil => exact ⟨a, rfl⟩
        | cons b rest2 => simp [hd] at hN
    by_cases h : 0 < r.holdoff
    · rw [ResamplePacket_holdoff r inp latency h, hdec, leakAndReturn_cons]
      constructor
      · intro hc; exact absurd hc (by simp)
      · intro hc; omega
    · have h0 : r.holdoff = 0 := by omega
      cases hup : FP.gt (integrated r latency) (upperThreshold r) with
      | true =>
        rw [ResamplePacket_drop r inp latency a [] h hup hdec, leakAndReturn_nil]
        simp [h0]
      | false =>
        cases hlow : FP.lt (integrated r latency) (lowerThreshold r) with
        | true =>
          rw [ResamplePacket_interpolate r inp latency a [] h hup hlow hdec, leakAndReturn_cons]
          simp
        | false =>
          rw [ResamplePacket_pass r inp latency h hup hlow, hdec, leakAndReturn_cons]
          simp

set_option maxRecDepth 100000 in
set_option exponentiation.threshold 5000 in
theorem indexing_safety_witness :
    (∃ out, (ResamplePacket (NewResampler 1000 50) twoSamples 20000).2 = some out) ∧
    (ResamplePacket (NewResampler 1000 50) oneSample 20000).2 = none ∧
    (∃ out, (ResamplePacket (NewResampler 1000 50) oneSample 1000).2 = some out) :=
  have h := indexing_safety (NewResampler 1000 50) twoSamples 20000 (by decide)
  have h1 := indexing_safety (NewResampler 1000 50) oneSample 20000 (by decide)
  ⟨h.1 (by decide), (h1.2 (by decide)).2 (by decide),
    ⟨[FP.fin false 8388608 (-23)], by decide⟩⟩

/-! ## The last sample (C20) -/

theorem leakAndReturn_lastSample (r : Resampler) (out res : List F32)
    (h : (leakAndReturn r out).2 = some res) :
    res = out ∧ out.getLast? = some (leakAndReturn r out).1.lastSample := by
  cases out with
  | nil => rw [leakAndReturn_nil] at h; exact absurd h (by simp)
  | cons s rest =>
    rw [leakAndReturn_cons] at h ⊢
    simp only [Option.some.injEq] at h
    exact ⟨h.symm, by simp [List.getLast?_eq_getLast]⟩

/-- C20. For every `ResamplePacket` call that returns, whatever the branch, `lastSample`
after the call is the last sample of the slice returned, and that sample is the last
decoded sample of the packet. -/
theorem last_sample_bookkeeping (r : Resampler) (inp : List Byte) (latency : Nat)
    (out : List F32) (hret : (ResamplePacket r inp latency).2 = some out) :
    out.getLast? = some (ResamplePacket r inp latency).1.lastSample ∧
    (decodeSamples inp).getLast? = some (ResamplePacket r inp latency).1.lastSample := by
  cases hdec : decodeSamples inp with
  | nil => rw [ResamplePacket_empty r inp latency hdec] at hret; exact absurd hret (by simp)
  | cons a rest =>
    by_cases h : 0 < r.holdoff
    · rw [ResamplePacket_holdoff r inp latency h, hdec] at hret ⊢
      obtain ⟨h1, h2⟩ := leakAndReturn_lastSample _ _ _ hret
      subst h1
      exact ⟨h2, h2⟩
    · cases hup : FP.gt (integrated r latency) (upperThreshold r) with
      | true =>
        rw [ResamplePacket_drop r inp latency a rest h hup hdec] at hret ⊢
        obtain ⟨h1, h2⟩ := leakAndReturn_lastSample _ _ _ hret
        subst h1
        refine ⟨h2, ?_⟩
        cases out with
        | nil => rw [leakAndReturn_nil] at hret; exact absurd hret (by simp)
        | cons b rest2 => rw [← h2]; simp [List.getLast?_cons_cons]
      | false =>
        cases hlow : FP.lt (integrated r latency) (lowerThreshold r) with
        | true =>
          rw [ResamplePacket_interpolate r inp latency a rest h hup hlow hdec] at hret ⊢
          obtain ⟨h1, h2⟩ := leakAndReturn_lastSample _ _ _ hret
          subst h1
          refine ⟨h2, ?_⟩
          rw [← h2]; simp [List.getLast?_cons_cons]
        | false =>
          rw [ResamplePacket_pass r inp latency h hup hlow, hdec] at hret ⊢
          obtain ⟨h1, h2⟩ := leakAndReturn_lastSample _ _ _ hret
          subst h1
          exact ⟨h2, h2⟩

set_option maxRecDepth 100000 in
set_option exponentiation.threshold 5000 in
theorem last_sample_bookkeeping_witness :
    [FP.fin true 8388608 (-24)].getLast?
      = some (ResamplePacket (NewResampler 1000 50) twoSamples 20000).1.lastSample ∧
    (decodeSamples twoSamples).getLast?
      = some (ResamplePacket (NewResampler 1000 50) twoSamples 20000).1.lastSample :=
  last_sample_bookkeeping (NewResampler 1000 50) twoSamples 20000 [FP.fin true 8388608 (-24)]
    (by decide)


/-! ## The drift estimate (C12) -/

/-- The arithmetic progression `a, a + s, ..., a + (n - 1) * s`. -/
def progression (a s n : Nat) : List Nat := (List.range n).map (fun i => a + i * s)

theorem statsLatencies_map_stats (ls : List Nat) :
    statsLatencies (ls.map Call.stats) = ls := by
  induction ls with
  | nil => rfl
  | cons l ls ih => simp [statsLatencies, ih]

theorem progression_length (a s n : Nat) : (progression a s n).length = n := by
  simp [progression]

theorem progression_head (a s n : Nat) (hn : 0 < n) : (progression a s n).getD 0 0 = a := by
  rw [List.getD_eq_getElem?_getD]
  simp [progression, List.getElem?_range hn]

set_option maxRecDepth 100000 in
set_option exponentiation.threshold 5000 in
/-- C12 fails: on a fresh `NewResampler(1000, 50)`, `Stats` fed the 60 latencies
1000, 1001, ..., 1059 (start 1000, step 1) reports on the 60th call the drift rate
`1059 / 60`, between 17 and 18, not the step 1. -/
theorem drift_estimate_not_step :
    (Stats (run (NewResampler 1000 50) ((progression 1000 1 59).map Call.stats)) 1059).2.drift
      = some (FP.div binary64 (FP.ofNat binary64 1059) (FP.ofNat binary64 60),
          sampleRate (FP.div binary64 (FP.ofNat binary64 1059) (FP.ofNat binary64 60))) ∧
    FP.div binary64 (FP.ofNat binary64 1059) (FP.ofNat binary64 60) ≠ FP.ofNat binary64 1 ∧
    FP.lt (FP.ofNat binary64 17)
      (FP.div binary64 (FP.ofNat binary64 1059) (FP.ofNat binary64 60)) = true ∧
    FP.lt (FP.div binary64 (FP.ofNat binary64 1059) (FP.ofNat binary64 60))
      (FP.ofNat binary64 18) = true := by
  decide

/-- The history of a fresh controller after `Stats` was fed the first `n` terms of a
progression. -/
theorem HistOf_progression (target tolerance a s n : Nat) :
    HistOf (run (NewResampler target tolerance) ((progression a s n).map Call.stats))
      (progression a s n) := by
  have h := HistOf_fresh target tolerance ((progression a s n).map Call.stats)
  rwa [statsLatencies_map_stats] at h

/-- The 60th call of `Stats` on a fresh controller measures its latency against the `0` the
slot of the fresh history still holds: fed `a, a + s, ..., a + 59 * s` with
`a + 59 * s < 2^63`, it reports `float64(a + 59 * s) / 60`. -/
theorem Stats_sixtieth_call (target tolerance a s : Nat) (hfit : a + 59 * s < 2 ^ 63) :
    (Stats (run (NewResampler target tolerance) ((progression a s 59).map Call.stats))
        (a + 59 * s)).2.drift
      = some (FP.div binary64 (FP.ofNat binary64 (a + 59 * s)) (FP.ofNat binary64 60),
          sampleRate
            (FP.div binary64 (FP.ofNat binary64 (a + 59 * s)) (FP.ofNat binary64 60))) := by
  have hist := HistOf_progression target tolerance a s 59
  have hw := Stats_drift_present _ _ (a + 59 * s) hist
  rw [progression_length] at hw
  have hd := driftDiff_first_lap _ _ (a + 59 * s) hist (by rw [progression_length]; decide)
  rw [toInt64_of_range _ (by omega) (by exact_mod_cast hfit)] at hd
  rw [(Stats_line _ (a + 59 * s)).2.2.2.2.2, if_pos (hw.2 (Nat.le_refl _))]
  simp only [driftRate, hd, FP.ofInt_natCast]

/-- C12, amended. On a fresh controller, for every start `a` and step `s` with
`60 * s < 2^53`, feeding `Stats` the latencies `a, a + s, a + 2 * s, ...`: calls 1 to 59
report no drift and no sample rate, and the 61st call (latency `a + 60 * s`), the first
whose latency is measured against a latency of the progression, reports the drift rate
`s`, with the sample rate derived from it. -/
theorem drift_estimate (target tolerance a s : Nat) (h60 : 60 * s < 2 ^ 53) :
    (∀ i, i < 59 →
      (Stats (run (NewResampler target tolerance) ((progression a s i).map Call.stats))
        (a + i * s)).2.drift = none) ∧
    (Stats (run (NewResampler target tolerance) ((progression a s 60).map Call.stats))
        (a + 60 * s)).2.drift
      = some (FP.ofNat binary64 s, sampleRate (FP.ofNat binary64 s)) := by
  have hexact : FP.div binary64 (FP.ofNat binary64 (s * 60)) (FP.ofNat binary64 60)
      = FP.ofNat binary64 s :=
    FP.div_ofNat_exact s 60 (by decide) (by decide) (by omega)
  refine ⟨?_, ?_⟩
  · intro i hi
    have hw := Stats_drift_present _ _ (a + i * s) (HistOf_progression target tolerance a s i)
    rw [progression_length] at hw
    rw [(Stats_line _ (a + i * s)).2.2.2.2.2, if_neg (fun hc => by have := hw.1 hc; omega)]
  · have hist := HistOf_progression target tolerance a s 60
    have hw := Stats_drift_present _ _ (a + 60 * s) hist
    rw [progression_length] at hw
    have hd := driftDiff_later_laps _ _ (a + 60 * s) hist (by rw [progression_length])
    rw [progression_length, Nat.sub_self, progression_head a s 60 (by decide)] at hd
    have hval : ((a + 60 * s : Nat) : Int) - (a : Int) = ((s * 60 : Nat) : Int) := by
      push_cast; ring
    rw [hval, toInt64_of_range _ (by omega) (by exact_mod_cast (by omega : s * 60 < 2 ^ 63))] at hd
    rw [(Stats_line _ (a + 60 * s)).2.2.2.2.2, if_pos (hw.2 (by decide))]
    simp only [driftRate, hd, FP.ofInt_natCast, hexact]

set_option maxRecDepth 100000 in
set_option exponentiation.threshold 5000 in
theorem drift_estimate_witness :
    (Stats (run (NewResampler 1000 50) ((progression 1000 7 58).map Call.stats))
        (1000 + 58 * 7)).2.drift = none ∧
    (Stats (run (NewResampler 1000 50) ((progression 1000 7 60).map Call.stats))
        (1000 + 60 * 7)).2.drift
      = some (FP.ofNat binary64 7, sampleRate (FP.ofNat binary64 7)) :=
  have h := drift_estimate 1000 50 1000 7 (by decide)
  ⟨h.1 58 (by decide), h.2⟩

/-! ## The error shaping (C17) -/

set_option maxRecDepth 100000 in
set_option exponentiation.threshold 5000 in
/-- C17 fails: with target 0, tolerance 1 and latency `2^53` the raw error is `2^53`, the
denominator `1 + 2^53` rounds to `2^53`, the ratio is 1 and the shaped error is the raw
error `2^53` itself: its magnitude is not strictly smaller than `|rawError|`. -/
theorem shaping_not_strict :
    FP.sub binary64 (FP.ofNat binary64 (2 ^ 53)) (NewResampler 0 1).latencyTarget
      = FP.fin false (2 ^ 52) 1 ∧
    FP.add binary64 (NewResampler 0 1).tolerance (FP.abs (FP.fin false (2 ^ 52) 1))
      = FP.fin false (2 ^ 52) 1 ∧
    shapedError (NewResampler 0 1) (2 ^ 53) = FP.fin false (2 ^ 52) 1 ∧
    FP.lt (FP.abs (shapedError (NewResampler 0 1) (2 ^ 53)))
      (FP.abs (FP.sub binary64 (FP.ofNat binary64 (2 ^ 53)) (NewResampler 0 1).latencyTarget))
      = false := by
  decide

/-- C17, amended. For a target, a tolerance of at least 1 and a latency that are
unsigned 64-bit integers, let the raw error be the `float64` difference
`float64(latency) - r.latencyTarget`. The raw error is finite, it is zero when latency and
target are equal, and only then when both are below `2^53`. The value line 54 adds to the
accumulator, `rawError * |rawError / (tolerance + |rawError|)|`, is equal to
`rawError * (|rawError| / (tolerance + |rawError|))`, each operation rounded; it is finite,
it has the sign of the raw error, it is zero exactly when the raw error is zero, and its
magnitude is at most the magnitude of the raw error. For a raw error other than zero the
magnitude is strictly smaller exactly when the rounded sum `tolerance + |rawError|` is
larger than `|rawError|`, which is the case whenever latency and target are below
`2^53`. -/
theorem error_shaping (r : Resampler) (target tolerance latency : Nat)
    (hT : r.latencyTarget = FP.ofNat binary64 target) (ht : target < 2 ^ 64)
    (hTol : r.tolerance = FP.ofNat binary64 tolerance) (htol : tolerance < 2 ^ 64)
    (hpos : 0 < tolerance) (hl : latency < 2 ^ 64) :
    integrated r latency = FP.add binary64 r.accum (shapedError r latency) ∧
    ∃ s m e md ed m2 e2,
      FP.sub binary64 (FP.ofNat binary64 latency) r.latencyTarget = FP.fin s m e ∧
      FP.add binary64 r.tolerance (FP.abs (FP.fin s m e)) = FP.fin false md ed ∧
      shapedError r latency = FP.fin s m2 e2 ∧
      shapedError r latency = FP.mul binary64 (FP.fin s m e)
        (FP.abs (FP.div binary64 (FP.fin s m e)
          (FP.add binary64 r.tolerance (FP.abs (FP.fin s m e))))) ∧
      shapedError r latency = FP.mul binary64 (FP.fin s m e)
        (FP.div binary64 (FP.abs (FP.fin s m e))
          (FP.add binary64 r.tolerance (FP.abs (FP.fin s m e)))) ∧
      (latency = target → m = 0) ∧
      (latency < 2 ^ 53 → target < 2 ^ 53 → m = 0 → latency = target) ∧
      (m2 = 0 ↔ m = 0) ∧
      FP.le (FP.abs (FP.fin s m2 e2)) (FP.abs (FP.fin s m e)) = true ∧
      (m ≠ 0 →
        (FP.lt (FP.abs (FP.fin s m2 e2)) (FP.abs (FP.fin s m e)) = true ↔
          FP.lt (FP.abs (FP.fin s m e)) (FP.fin false md ed) = true)) ∧
      (latency < 2 ^ 53 → target < 2 ^ 53 → latency ≠ target →
        FP.lt (FP.abs (FP.fin s m2 e2)) (FP.abs (FP.fin s m e)) = true) := by
  refine ⟨rfl, ?_⟩
  obtain ⟨mx, ex, hx, _, ⟨X, hX⟩, hX64, _⟩ := FP.ofNat_val latency hl
  obtain ⟨my, ey, hy, _, ⟨Y, hY⟩, hY64, _⟩ := FP.ofNat_val target ht
  obtain ⟨mt, et, hto, htc, _, hT64, hT1⟩ := FP.ofNat_val tolerance htol
  obtain ⟨s, m, e, hraw, hzero, md, ed, m2, e2, hden, hsh, hz2, hle, hiff, hlt⟩ :=
    FP.shaping mx my mt ex ey et htc X Y hX hY hX64 hY64 (hT1 (by omega)) hT64
  have hraw2 : FP.sub binary64 (FP.ofNat binary64 latency) r.latencyTarget = FP.fin s m e := by
    rw [hT, hx, hy]; exact hraw
  have hden2 : FP.add binary64 r.tolerance (FP.abs (FP.fin s m e)) = FP.fin false md ed := by
    rw [hTol, hto]; exact hden
  have hshape : shapedError r latency = FP.mul binary64 (FP.fin s m e)
      (FP.abs (FP.div binary64 (FP.fin s m e)
        (FP.add binary64 r.tolerance (FP.abs (FP.fin s m e))))) := by
    unfold shapedError
    simp only [hraw2]
  have hval : shapedError r latency = FP.fin s m2 e2 := by
    rw [hshape, hden2]; exact hsh
  refine ⟨s, m, e, md, ed, m2, e2, hraw2, hden2, hval, hshape, ?_, ?_, ?_, hz2, ?_, ?_, ?_⟩
  · rw [hshape, hden2, FP.abs_div_nonneg]
  · intro h
    subst h
    rw [hx] at hy
    simp only [FP.fin.injEq, true_and] at hy
    apply hzero.2
    have : (X : ℚ) = Y := by rw [← hX, ← hY, hy.1, hy.2]
    exact_mod_cast this
  · intro h1 h2 h0
    have hXe := FP.ofNat_val_exact latency mx ex h1 hx
    have hYe := FP.ofNat_val_exact target my ey h2 hy
    have hXY := hzero.1 h0
    have : (latency : ℚ) = target := by rw [← hXe, ← hYe, hX, hY, hXY]
    exact_mod_cast this
  · exact (FP.le_fin_iff_val _ _ _ _).2 hle
  · intro hm0
    exact ⟨fun h => (FP.lt_fin_iff_val _ _ _ _).2
        ((hiff hm0).1 ((FP.lt_fin_iff_val _ _ _ _).1 h)),
      fun h => (FP.lt_fin_iff_val _ _ _ _).2
        ((hiff hm0).2 ((FP.lt_fin_iff_val _ _ _ _).1 h))⟩
  · intro h1 h2 hne
    have hXe := FP.ofNat_val_exact latency mx ex h1 hx
    have hYe := FP.ofNat_val_exact target my ey h2 hy
    have eX : X = latency := by
      have : (X : ℚ) = latency := by rw [← hX, hXe]
      exact_mod_cast this
    have eY : Y = target := by
      have : (Y : ℚ) = target := by rw [← hY, hYe]
      exact_mod_cast this
    have hXY : X ≠ Y := by rw [eX, eY]; exact hne
    have hm0 : m ≠ 0 := fun h => hXY (hzero.1 h)
    exact (FP.lt_fin_iff_val _ _ _ _).2
      ((hiff hm0).2 (hlt (by omega) (by omega) hXY))

set_option maxRecDepth 100000 in
set_option exponentiation.threshold 5000 in
theorem error_shaping_witness :
    (NewResampler 1000 50).latencyTarget = FP.ofNat binary64 1000 ∧
    (NewResampler 1000 50).tolerance = FP.ofNat binary64 50 ∧
    shapedError (NewResampler 1000 50) 1003 = FP.fin false 6118097606993882 (-55) ∧
    ∃ s m e m2 e2,
      FP.sub binary64 (FP.ofNat binary64 1003) (NewResampler 1000 50).latencyTarget
        = FP.fin s m e ∧
      shapedError (NewResampler 1000 50) 1003 = FP.fin s m2 e2 ∧
      shapedError (NewResampler 1000 50) 1003 = FP.mul binary64 (FP.fin s m e)
        (FP.div binary64 (FP.abs (FP.fin s m e))
          (FP.add binary64 (NewResampler 1000 50).tolerance (FP.abs (FP.fin s m e)))) ∧
      (m2 = 0 ↔ m = 0) ∧
      FP.lt (FP.abs (FP.fin s m2 e2)) (FP.abs (FP.fin s m e)) = true := by
  refine ⟨rfl, rfl, by decide, ?_⟩
  obtain ⟨_, s, m, e, md, ed, m2, e2, h1, _, h3, _, h5, _, _, h8, _, _, h11⟩ :=
    error_shaping (NewResampler 1000 50) 1000 50 1003 rfl (by decide) rfl (by decide)
      (by decide) (by decide)
  exact ⟨s, m, e, m2, e2, h1, h3, h5, h8, h11 (by decide) (by decide) (by decide)⟩

/-! ## Zero tolerance (C18) -/

/-- With tolerance 0 the shaped error is the raw error when the raw error is not zero, and
NaN when it is zero (`0/0`). -/
theorem shapedError_zero_tolerance (r : Resampler) (s : Bool) (m : Nat) (e : Int)
    (latency : Nat) (hTol : r.tolerance = FP.ofNat binary64 0)
    (hc : FP.Canonical binary64 (FP.fin s m e))
    (hraw : FP.sub binary64 (FP.ofNat binary64 latency) r.latencyTarget = FP.fin s m e) :
    (m ≠ 0 → shapedError r latency = FP.fin s m e) ∧
    (m = 0 → shapedError r latency = FP.nan) := by
  have h0 : FP.ofNat binary64 0 = FP.zero binary64 false := rfl
  constructor
  · intro hm0
    unfold shapedError
    simp only [hraw, hTol, h0, FP.abs]
    rw [FP.zero_add_fin binary64 m e hm0 hc, FP.div_abs_self s m e hm0]
    exact FP.mul_one_fin s m e hm0 hc
  · intro hm0
    subst hm0
    unfold shapedError
    simp only [hraw, hTol, h0, FP.abs]
    simp [FP.add, FP.zero, FP.round, FP.div, FP.abs, FP.mul]

theorem FP.add_nan_left (f : Fmt) (y : FP) : FP.add f FP.nan y = FP.nan := by
  cases y <;> rfl

theorem FP.mul_nan_left (f : Fmt) (y : FP) : FP.mul f FP.nan y = FP.nan := by
  cases y <;> rfl

/-- A NaN accumulator stays NaN over a call of `ResamplePacket`. -/
theorem ResamplePacket_nan (r : Resampler) (inp : List Byte) (latency : Nat)
    (h : r.accum = FP.nan) : (ResamplePacket r inp latency).1.accum = FP.nan := by
  have hi : integrated r latency = FP.nan := by
    unfold integrated
    rw [h]
    exact FP.add_nan_left _ _
  have hmul : FP.mul binary64 FP.nan leakFactor = FP.nan := FP.mul_nan_left _ _
  have hsub : FP.sub binary64 FP.nan (discharge r) = FP.nan := FP.add_nan_left _ _
  have hadd : FP.add binary64 FP.nan (discharge r) = FP.nan := FP.add_nan_left _ _
  rcases ResamplePacket_state r inp latency with
    ⟨_, _, _, _, ha⟩ | ⟨_, _, _, _, _, ha⟩ | ⟨_, _, _, _, _, ha⟩ | ⟨_, _, _, _, ha⟩ |
    ⟨_, _, _, _, _, ha⟩
  · rw [ha, hi, hmul]
  · rw [ha, hi, hsub, hmul]
  · rw [ha, hi, hadd, hmul]
  · rw [ha, hi, hmul]
  · rw [ha, hi]

/-- A NaN accumulator stays NaN over every run of calls. -/
theorem run_nan (cs : List Call) (r : Resampler) (h : r.accum = FP.nan) :
    (run r cs).accum = FP.nan := by
  induction cs generalizing r with
  | nil => exact h
  | cons c cs ih =>
    apply ih
    cases c with
    | packet inp latency => exact ResamplePacket_nan r inp latency h
    | stats latency => exact (Stats_frame r latency).1.trans h

set_option maxRecDepth 100000 in
set_option exponentiation.threshold 5000 in
/-- C18 fails on the code: on `NewResampler(1000, 0)` the first call of
`ResamplePacket` with the latency equal to the target has raw error `+0`, the quotient is
`0/(0+0)`, the shaped error is NaN (not the raw error 0), the call returns its two samples
and leaves the accumulator NaN; the accumulator is then NaN after every further run of
calls. -/
theorem C18_zero_tolerance_nan :
    FP.sub binary64 (FP.ofNat binary64 1000) (NewResampler 1000 0).latencyTarget
      = FP.zero binary64 false ∧
    shapedError (NewResampler 1000 0) 1000 = FP.nan ∧
    (ResamplePacket (NewResampler 1000 0) twoSamples 1000).2
      = some (decodeSamples twoSamples) ∧
    (ResamplePacket (NewResampler 1000 0) twoSamples 1000).1.accum = FP.nan ∧
    ∀ cs : List Call,
      (run (ResamplePacket (NewResampler 1000 0) twoSamples 1000).1 cs).accum = FP.nan :=
  ⟨by decide, by decide, by decide, by decide, fun cs => run_nan cs _ (by decide)⟩

end NDAX
